import Mathlib

/-!
# MADNESS 1-D convolution operator (`src/lib/mra/convolution1d.h`)

A shallow embedding of the transform primitives, the `ConvolutionData1D`
container, the cached operations of `Convolution1D` and its kernels, and of the
keyword reader of the plotting utility (`src/lib/mra/mraplot.cc`), followed by
the properties established about them.

Conventions of the embedding.

* A C++ buffer is a `List`; a pointer into it is the list together with an
  offset.  A read outside the buffer yields `0`, a write outside is dropped
  (both are undefined behaviour in C++ and never happen on well-shaped data).
* `double` is idealised as an ordered field `K` (exact arithmetic); the element
  type `Q` of the templates is taken real, `Q = K`.  Where a property depends on
  how the operations of `double` round, the code is modelled a second time with
  the arithmetic of IEEE 754 binary64 on the rationals (the definitions whose
  names end in `64`).
* A `for` loop is rendered by the function giving the state after `t`
  iterations.
* The tensor library, the filter generators, `svd`, `pow` and the kernel's
  virtual methods are not part of the header; they enter as parameters.
-/

namespace madness

/-! ## Tensors -/

/-- Modelled from the spec: the tensor container `Tensor<Q>` is declared in the
tensor library, outside the header; the spec lists it as a collaborator exposing
element access and a shape query.  Kept here: the dimensions `dim[]` and the
contiguous row-major data behind `ptr()`. -/
structure Tensor (K : Type) where
  dim : List Nat
  p : List K
deriving DecidableEq, Repr

namespace Tensor

variable {K : Type}

/-- Modelled from the spec: the default-constructed tensor `Tensor<Q>()`, the
empty tensor of the sentinel block: no dimensions, no data. -/
def empty : Tensor K := ⟨[], []⟩

/-- Modelled from the spec: the vector constructor `Tensor<Q>(n)`, which gives
the zero vector of length `n`. -/
def zeros1 [Zero K] (n : Nat) : Tensor K := ⟨[n], List.replicate n 0⟩

/-- Modelled from the spec: the matrix constructor `Tensor<Q>(n,m)`, which gives
the zero `n x m` matrix in row-major order. -/
def zeros2 [Zero K] (n m : Nat) : Tensor K := ⟨[n, m], List.replicate (n * m) 0⟩

/-- Modelled from the spec: the shape query `dim[i]`. -/
def dimAt (t : Tensor K) (i : Nat) : Nat := t.dim.getD i 0

/-- Modelled from the spec: the linear element read `ptr()[i]`, also written
`t[i]` on a vector. -/
def get [Zero K] (t : Tensor K) (i : Nat) : K := t.p.getD i 0

/-- Modelled from the spec: the element read `t(i,j)` of a row-major matrix with
row length `dim[1]`. -/
def get2 [Zero K] (t : Tensor K) (i j : Nat) : K := t.p.getD (i * t.dimAt 1 + j) 0

/-- Modelled from the spec: the element write `t(i,j) = v`. -/
def set2 (t : Tensor K) (i j : Nat) (v : K) : Tensor K :=
  { t with p := t.p.set (i * t.dimAt 1 + j) v }

/-- Modelled from the spec: slice assignment `R(Slice(lo,hi)) = v` on a vector
(the spec's "into positions lo..hi"): entries `lo..hi` of `R` are replaced by
the entries `0..hi-lo` of `v`.  The library rejects a `v` of another length;
here missing entries read as `0`. -/
def sliceAssign [Zero K] (R : Tensor K) (lo hi : Nat) (v : Tensor K) : Tensor K :=
  { R with p := R.p.take lo ++ (List.range (hi + 1 - lo)).map (fun i => v.p.getD i 0)
                  ++ R.p.drop (hi + 1) }

/-- Modelled from the spec: the copy `copy(R(Slice(lo,hi)))` of a slice of a
vector (the spec's "return the first 2k entries"). -/
def sliceCopy (R : Tensor K) (lo hi : Nat) : Tensor K :=
  ⟨[hi + 1 - lo], (R.p.drop lo).take (hi + 1 - lo)⟩

/-- Modelled from the spec: the in-place scaling `R.scale(x)`. -/
def scale [Mul K] (R : Tensor K) (x : K) : Tensor K := { R with p := R.p.map (fun a => a * x) }

/-- Modelled from the spec: the in-place update `r.gaxpy(alpha, t, beta)` of the
tensor library, by which the periodic kernel accumulates its sum: every entry of
`r` becomes `alpha * r[i] + beta * t[i]`. -/
def gaxpy [Zero K] [Add K] [Mul K] (r : Tensor K) (alpha : K) (t : Tensor K) (beta : K) :
    Tensor K :=
  { r with p := (List.range r.p.length).map (fun i => alpha * r.get i + beta * t.get i) }

end Tensor

/-! ## Transform primitives -/

section Primitives

variable {T : Type} [Zero T]

/-- Inner loop of `copy_2d_patch`: state of `out` after `j` iterations of
`for (j=0; j<m; j++) out[j] = in[j];` with `out` at offset `o` and `in` at
offset `io`. -/
def copy_row (dst : List T) (o : Nat) (src : List T) (io : Nat) : Nat → List T
  | 0 => dst
  | j + 1 => (copy_row dst o src io j).set (o + j) (src.getD (io + j) 0)

/-- Outer loop of `copy_2d_patch`: state after `i` iterations of
`for (i=0; i<n; i++, out+=ldout, in+=ldin)`. -/
def copy_rows (dst : List T) (o ldout : Nat) (src : List T) (io ldin m : Nat) : Nat → List T
  | 0 => dst
  | i + 1 => copy_row (copy_rows dst o ldout src io ldin m i) (o + i * ldout) src (io + i * ldin) m

/-- `copy_2d_patch(out, ldout, in, ldin, n, m)`, with `out = dst + o` and
`in = src + io`. -/
def copy_2d_patch (dst : List T) (o ldout : Nat) (src : List T) (io ldin n m : Nat) : List T :=
  copy_rows dst o ldout src io ldin m n

/-- The shortcut loop of `fast_transpose`: `for (i=0; i<nm; i++) b[i] = a[i];`. -/
def ft_copy (a : List T) (b : List T) : Nat → List T
  | 0 => b
  | i + 1 => (ft_copy a b i).set i (a.getD i 0)

/-- Inner loop of the blocked part of `fast_transpose` for the block starting at
row `i`, with `a0 = a + a0`; state of `b` after `j` iterations
(`bi = b + i + j*n`). -/
def ft_block_row (n m : Nat) (a : List T) (a0 i : Nat) (b : List T) : Nat → List T
  | 0 => b
  | j + 1 =>
    let b0 := ft_block_row n m a a0 i b j
    let a1 := a0 + m
    let a2 := a1 + m
    let a3 := a2 + m
    let bi := i + j * n
    let tmp0 := a.getD (a0 + j) 0
    let tmp1 := a.getD (a1 + j) 0
    let tmp2 := a.getD (a2 + j) 0
    let tmp3 := a.getD (a3 + j) 0
    (((b0.set (bi + 0) tmp0).set (bi + 1) tmp1).set (bi + 2) tmp2).set (bi + 3) tmp3

/-- Blocked loop of `fast_transpose`: state of `b` after `t` iterations of
`for (i=0; i<n4; i+=4, a0+=m4)`; in iteration `t` one has `i = 4t` and
`a0 = a + t*m4`. -/
def ft_blocks (n m : Nat) (a : List T) (b : List T) : Nat → List T
  | 0 => b
  | t + 1 => ft_block_row n m a (t * (m <<< 2)) (4 * t) (ft_blocks n m a b t) m

/-- Inner loop of the remainder part: `for (j=0; j<m; j++) b[j*n+i] = a[i*m+j];`. -/
def ft_rem_row (n m : Nat) (a : List T) (i : Nat) (b : List T) : Nat → List T
  | 0 => b
  | j + 1 => (ft_rem_row n m a i b j).set (j * n + i) (a.getD (i * m + j) 0)

/-- Remainder loop `for (i=n4; i<n; i++)`: state after `r` iterations. -/
def ft_rem (n m : Nat) (a : List T) (n4 : Nat) (b : List T) : Nat → List T
  | 0 => b
  | r + 1 => ft_rem_row n m a (n4 + r) (ft_rem n m a n4 b r) m

/-- `fast_transpose(n, m, a, b)`: returns the final contents of `b`. -/
def fast_transpose (n m : Nat) (a : List T) (b : List T) : List T :=
  if n = 1 ∨ m = 1 then
    let nm := n * m
    ft_copy a b nm
  else
    let n4 := (n >>> 2) <<< 2
    let b1 := ft_blocks n m a b (n4 / 4)
    ft_rem n m a n4 b1 (n - n4)

/-- The naive double loop quoted in the comment of `fast_transpose`, inner part:
`for (j=0; j<m; j++) b[j*n+i] = a[i*m+j];` after `j` iterations. -/
def naive_transpose_row (n m : Nat) (a : List T) (i : Nat) (b : List T) : Nat → List T
  | 0 => b
  | j + 1 => (naive_transpose_row n m a i b j).set (j * n + i) (a.getD (i * m + j) 0)

/-- The naive double loop, outer part: `for (i=0; i<n; i++)` after `i` iterations. -/
def naive_transpose_rows (n m : Nat) (a : List T) (b : List T) : Nat → List T
  | 0 => b
  | i + 1 => naive_transpose_row n m a i (naive_transpose_rows n m a b i) m

/-- The naive double loop
`for (i=0; i<n; i++) for (j=0; j<m; j++) b[j*n+i] = a[i*m+j];`
that `fast_transpose` is specified by: the final contents of `b`. -/
def naive_transpose (n m : Nat) (a : List T) (b : List T) : List T :=
  naive_transpose_rows n m a b n

/-- The buffer left by the four `copy_2d_patch` calls of `nonstandard`, started
from the zero-filled `2k x 2k` tensor. -/
def assembled (k : Nat) (r0 rp rm : List T) : List T :=
  let R : List T := List.replicate (2 * k * (2 * k)) 0
  let R := copy_2d_patch R 0 (2 * k) r0 0 k k k
  let R := copy_2d_patch R (2 * k * k + k) (2 * k) r0 0 k k k
  let R := copy_2d_patch R (2 * k * k) (2 * k) rp 0 k k k
  copy_2d_patch R k (2 * k) rm 0 k k k

end Primitives

/-! ## Collaborators -/

/-- The operations of the tensor and linear-algebra libraries (and of libm)
that the header calls but does not define. -/
structure TensorLib (K : Type) where
  /-- The Frobenius norm `t.normf()`. -/
  normf : Tensor K → K
  /-- The factors and singular values `(U, s, VT)` filled in by `svd(M, &U, &s, &VT)`. -/
  svd : Tensor K → Tensor K × Tensor K × Tensor K
  /-- The call `transform(t, c)`. -/
  transform : Tensor K → Tensor K → Tensor K
  /-- The call `inner(a, b)`. -/
  inner : Tensor K → Tensor K → Tensor K
  /-- The call `pow(x, y)`. -/
  pow : K → K → K

/-! ## `ConvolutionData1D` -/

section Data

variable {K : Type} [LinearOrderedField K]

/-- The literal `1e-20` guarding the approximations. -/
def tiny : K := 1 / 10 ^ 20

/-- The struct `ConvolutionData1D<Q>`. -/
structure ConvolutionData1D (K : Type) where
  R : Tensor K
  T : Tensor K
  RU : Tensor K
  RVT : Tensor K
  TU : Tensor K
  TVT : Tensor K
  Rs : Tensor K
  Ts : Tensor K
  Rnorm : K
  Tnorm : K
  Rnormf : K
  Tnormf : K
  NSnormf : K
deriving DecidableEq

/-- Inner loop `for (j=0; j<n; j++) RVT(i,j) *= Rs[i];` after `j` iterations. -/
def scale_vt_row (Rs : Tensor K) (i : Nat) (RVT : Tensor K) : Nat → Tensor K
  | 0 => RVT
  | j + 1 =>
    let t := scale_vt_row Rs i RVT j
    t.set2 i j (t.get2 i j * Rs.get i)

/-- Outer loop `for (i=0; i<n; i++)` of the scaling of `RVT`, after `i` iterations. -/
def scale_vt (Rs : Tensor K) (n : Nat) (RVT : Tensor K) : Nat → Tensor K
  | 0 => RVT
  | i + 1 => scale_vt_row Rs i (scale_vt Rs n RVT i) n

/-- The loop `for (int i=n-1; i>1; i--) Rs[i-1] += Rs[i];` after `t` iterations;
iteration number `t` (from 0) runs with `i = n-1-t`. -/
def cumulate (n : Nat) (Rs : Tensor K) : Nat → Tensor K
  | 0 => Rs
  | t + 1 =>
    let s := cumulate n Rs t
    let i := n - 1 - t
    { s with p := s.p.set (i - 1) (s.get (i - 1) + s.get i) }

/-- The loop `for (int i=0; i<n; i++) Rs[i] *= rnorm;` after `i` iterations. -/
def rescale (rnorm : K) (Rs : Tensor K) : Nat → Tensor K
  | 0 => Rs
  | i + 1 =>
    let s := rescale rnorm Rs i
    { s with p := s.p.set i (s.get i * rnorm) }

/-- `ConvolutionData1D::make_approx(R, RU, Rs, RVT, norm)`; the four outputs are
returned as `(RU, Rs, RVT, norm)`.  The arithmetic is exact; `make_approx64` is
the same code with every operation rounded to binary64. -/
def make_approx (lib : TensorLib K) (R : Tensor K) : Tensor K × Tensor K × Tensor K × K :=
  let n := R.dimAt 0
  let usv := lib.svd R
  let RU := usv.1
  let Rs := usv.2.1
  let RVT := usv.2.2
  let RVT := scale_vt Rs n RVT n
  -- the loop runs for i = n-1, ..., 2
  let Rs := cumulate n Rs (n - 2)
  let norm := Rs.get 0
  let Rs := if Rs.get 0 > 0 then
      let rnorm := 1 / norm
      rescale rnorm Rs n
    else Rs
  (RU, Rs, RVT, norm)

/-- Inner loop `for (int j=0; j<k; j++) NS(i,j) = 0.0;` after `j` iterations. -/
def zero_row (i : Nat) (NS : Tensor K) : Nat → Tensor K
  | 0 => NS
  | j + 1 => (zero_row i NS j).set2 i j 0

/-- Outer loop `for (int i=0; i<k; i++)` of the zeroing of `NS`, after `i` iterations. -/
def zero_block (k : Nat) (NS : Tensor K) : Nat → Tensor K
  | 0 => NS
  | i + 1 => zero_row i (zero_block k NS i) k

/-- The constructor `ConvolutionData1D(const Tensor<Q>& R, const Tensor<Q>& T)`.
Members that the constructor does not assign keep their default value, the
empty tensor. -/
def ConvolutionData1D.new (lib : TensorLib K) (R T : Tensor K) : ConvolutionData1D K :=
  let Rnormf := lib.normf R
  if Rnormf > tiny then
    let Tnormf := lib.normf T
    let aT := make_approx lib T
    let aR := make_approx lib R
    let k := T.dimAt 0
    let NS := R
    let NS := zero_block k NS k
    let NSnormf := lib.normf NS
    { R := R, T := T, RU := aR.1, RVT := aR.2.2.1, TU := aT.1, TVT := aT.2.2.1,
      Rs := aR.2.1, Ts := aT.2.1, Rnorm := aR.2.2.2, Tnorm := aT.2.2.2,
      Rnormf := Rnormf, Tnormf := Tnormf, NSnormf := NSnormf }
  else
    { R := R, T := T, RU := Tensor.empty, RVT := Tensor.empty, TU := Tensor.empty,
      TVT := Tensor.empty, Rs := Tensor.empty, Ts := Tensor.empty,
      Rnorm := 0, Tnorm := 0, Rnormf := 0, Tnormf := 0, NSnormf := 0 }

end Data

/-! ## The keyed cache -/

/-- Modelled from the spec: `SimpleCache<V,1>` (declared outside the header) is
the keyed cache of section 4.1, a mapping from the key (level, translation) to a
stored value with the contract `get(n,l) -> optional<&V>`, `set(n,l,v)`.  It is
kept as the list of insertions, newest first; `set` never inspects old entries,
so a second `set` on a key would win the lookup (last-write-wins). -/
abbrev SimpleCache (V : Type) := List ((Int × Int) × V)

namespace SimpleCache

variable {V : Type}

/-- The lookup `getptr(n,l)`: the stored value, or `none` for the null pointer. -/
def getptr : SimpleCache V → Int → Int → Option V
  | [], _, _ => none
  | (key, v) :: rest, n, l => if key = (n, l) then some v else getptr rest n l

/-- The insertion `set(n,l,val)`. -/
def set (c : SimpleCache V) (n l : Int) (val : V) : SimpleCache V := ((n, l), val) :: c

end SimpleCache

/-- Dereference `*p` of a pointer returned by `getptr`; the null case (undefined
behaviour) yields the default value. -/
def deref {V : Type} [Inhabited V] (p : Option V) : V := p.getD default

/-! ## `Convolution1D` -/

section Operator

variable {K : Type} [LinearOrderedField K]

instance : Inhabited (Tensor K) := ⟨Tensor.empty⟩

instance : Inhabited (ConvolutionData1D K) :=
  ⟨⟨Tensor.empty, Tensor.empty, Tensor.empty, Tensor.empty, Tensor.empty, Tensor.empty,
    Tensor.empty, Tensor.empty, 0, 0, 0, 0, 0⟩⟩

/-- The immutable members of `Convolution1D<Q>` together with its three virtual
methods `rnlp`, `issmall` and `natural_level` (supplied by the derived class). -/
structure Convolution1D (K : Type) where
  k : Nat
  npt : Nat
  sign : K
  quad_x : Tensor K
  quad_w : Tensor K
  c : Tensor K
  hgT : Tensor K
  hgT2k : Tensor K
  rnlp : Int → Int → Tensor K
  issmall : Int → Int → Bool
  natural_level : Int

/-- The mutable members of `Convolution1D<Q>`: the three caches.  The field
`kernel_calls` is instrumentation: it records, in order, the keys at which the
virtual `rnlp` has been invoked. -/
structure Caches (K : Type) where
  rnlp_cache : SimpleCache (Tensor K)
  rnlij_cache : SimpleCache (Tensor K)
  ns_cache : SimpleCache (ConvolutionData1D K)
  kernel_calls : List (Int × Int)

/-- The caches of a freshly constructed operator. -/
def Caches.fresh : Caches K := ⟨[], [], [], []⟩

/-- `Convolution1D::get_rnlp(n, lx)`: the returned tensor and the caches afterwards. -/
def get_rnlp (lib : TensorLib K) (op : Convolution1D K) (n lx : Int) (s : Caches K) :
    Tensor K × Caches K :=
  match s.rnlp_cache.getptr n lx with
  | some p => (p, s)
  | none =>
    let twok := 2 * op.k
    let rs : Tensor K × Caches K :=
      if op.issmall n lx then
        (Tensor.zeros1 twok, s)
      else if _h : n < op.natural_level then
        let R : Tensor K := Tensor.zeros1 (2 * twok)
        let a := get_rnlp lib op (n + 1) (2 * lx) s
        let R := R.sliceAssign 0 (twok - 1) a.1
        let b := get_rnlp lib op (n + 1) (2 * lx + 1) a.2
        let R := R.sliceAssign twok (2 * twok - 1) b.1
        let R := lib.transform R op.hgT2k
        (R.sliceCopy 0 (twok - 1), b.2)
      else
        (op.rnlp n lx, { s with kernel_calls := s.kernel_calls ++ [(n, lx)] })
    let s1 := { rs.2 with rnlp_cache := rs.2.rnlp_cache.set n lx rs.1 }
    (deref (s1.rnlp_cache.getptr n lx), s1)
termination_by (op.natural_level - n).toNat
decreasing_by all_goals omega

/-- The body of `Convolution1D::get_rnlp(n, lx)` with its two recursive calls
made through `child`, which may fail to return (`none`). -/
def get_rnlp_body (lib : TensorLib K) (op : Convolution1D K)
    (child : Int → Int → Caches K → Option (Tensor K × Caches K)) (n lx : Int) (s : Caches K) :
    Option (Tensor K × Caches K) :=
  match s.rnlp_cache.getptr n lx with
  | some p => some (p, s)
  | none =>
    let twok := 2 * op.k
    let rs : Option (Tensor K × Caches K) :=
      if op.issmall n lx then
        some (Tensor.zeros1 twok, s)
      else if n < op.natural_level then
        match child (n + 1) (2 * lx) s with
        | none => none
        | some a =>
          match child (n + 1) (2 * lx + 1) a.2 with
          | none => none
          | some b =>
            let R : Tensor K := Tensor.zeros1 (2 * twok)
            let R := R.sliceAssign 0 (twok - 1) a.1
            let R := R.sliceAssign twok (2 * twok - 1) b.1
            let R := lib.transform R op.hgT2k
            some (R.sliceCopy 0 (twok - 1), b.2)
      else
        some (op.rnlp n lx, { s with kernel_calls := s.kernel_calls ++ [(n, lx)] })
    match rs with
    | none => none
    | some rs =>
      let s1 := { rs.2 with rnlp_cache := rs.2.rnlp_cache.set n lx rs.1 }
      some (deref (s1.rnlp_cache.getptr n lx), s1)

/-- `Convolution1D::get_rnlp(n, lx)` run with room for `d` nested calls of itself
below the outermost one: `none` when the recursion would go deeper. -/
def get_rnlp_bounded (lib : TensorLib K) (op : Convolution1D K) :
    Nat → Int → Int → Caches K → Option (Tensor K × Caches K)
  | 0 => get_rnlp_body lib op (fun _ _ _ => none)
  | d + 1 => get_rnlp_body lib op (get_rnlp_bounded lib op d)

/-- `Convolution1D::rnlij(n, lx)`: the returned tensor and the caches afterwards. -/
def rnlij (lib : TensorLib K) (op : Convolution1D K) (n lx : Int) (s : Caches K) :
    Tensor K × Caches K :=
  match s.rnlij_cache.getptr n lx with
  | some p => (p, s)
  | none =>
    let twok := 2 * op.k
    let R : Tensor K := Tensor.zeros1 (2 * twok)
    let a := get_rnlp lib op n (lx - 1) s
    let R := R.sliceAssign 0 (twok - 1) a.1
    let b := get_rnlp lib op n lx a.2
    let R := R.sliceAssign twok (2 * twok - 1) b.1
    let R := R.scale (lib.pow (1 / 2) (1 / 2 * (n : K)))
    let R := lib.inner op.c R
    let s1 := { b.2 with rnlij_cache := b.2.rnlij_cache.set n lx R }
    (deref (s1.rnlij_cache.getptr n lx), s1)

/-- The body of the branch `if (!issmall(n, lx))` of `nonstandard`: the tensors
`R` and `T` it leaves, and the caches afterwards. -/
def nonstandard_block (lib : TensorLib K) (op : Convolution1D K) (n lx : Int) (s : Caches K) :
    (Tensor K × Tensor K) × Caches K :=
  let k := op.k
  let lx2 := lx * 2
  let r0 := rnlij lib op (n + 1) lx2 s
  let rp := rnlij lib op (n + 1) (lx2 + 1) r0.2
  let rm := rnlij lib op (n + 1) (lx2 - 1) rp.2
  let R : Tensor K := Tensor.zeros2 (2 * k) (2 * k)
  let R := { R with p := copy_2d_patch R.p 0 (2 * k) r0.1.p 0 k k k }
  let R := { R with p := copy_2d_patch R.p (2 * k * k + k) (2 * k) r0.1.p 0 k k k }
  let R := { R with p := copy_2d_patch R.p (2 * k * k) (2 * k) rp.1.p 0 k k k }
  let R := { R with p := copy_2d_patch R.p k (2 * k) rm.1.p 0 k k k }
  let R := lib.transform R op.hgT
  let RT : Tensor K := Tensor.zeros2 (2 * k) (2 * k)
  let RT := { RT with p := fast_transpose (2 * k) (2 * k) R.p RT.p }
  let R := RT
  let T : Tensor K := Tensor.zeros2 k k
  let T := { T with p := copy_2d_patch T.p 0 k R.p 0 (2 * k) k k }
  ((R, T), rm.2)

/-- `Convolution1D::nonstandard(n, lx)`: the returned block and the caches
afterwards. -/
def nonstandard (lib : TensorLib K) (op : Convolution1D K) (n lx : Int) (s : Caches K) :
    ConvolutionData1D K × Caches K :=
  match s.ns_cache.getptr n lx with
  | some p => (p, s)
  | none =>
    let rt : (Tensor K × Tensor K) × Caches K :=
      if !op.issmall n lx then nonstandard_block lib op n lx s
      else ((Tensor.empty, Tensor.empty), s)
    let s1 := { rt.2 with
      ns_cache := rt.2.ns_cache.set n lx (ConvolutionData1D.new lib rt.1.1 rt.1.2) }
    (deref (s1.ns_cache.getptr n lx), s1)

/-- The work `get_rnlp` does on a cache miss, before the result is stored. -/
def rnlp_compute (lib : TensorLib K) (op : Convolution1D K) (n lx : Int) (s : Caches K) :
    Tensor K × Caches K :=
  let twok := 2 * op.k
  if op.issmall n lx then
    (Tensor.zeros1 twok, s)
  else if n < op.natural_level then
    let R : Tensor K := Tensor.zeros1 (2 * twok)
    let a := get_rnlp lib op (n + 1) (2 * lx) s
    let R := R.sliceAssign 0 (twok - 1) a.1
    let b := get_rnlp lib op (n + 1) (2 * lx + 1) a.2
    let R := R.sliceAssign twok (2 * twok - 1) b.1
    let R := lib.transform R op.hgT2k
    (R.sliceCopy 0 (twok - 1), b.2)
  else
    (op.rnlp n lx, { s with kernel_calls := s.kernel_calls ++ [(n, lx)] })

/-- The tensor `get_rnlp(n, lx)` computes when nothing is cached, written as a
function of the key alone. -/
def rnlp_value (lib : TensorLib K) (op : Convolution1D K) (n lx : Int) : Tensor K :=
  let twok := 2 * op.k
  if op.issmall n lx then
    Tensor.zeros1 twok
  else if _h : n < op.natural_level then
    let R : Tensor K := Tensor.zeros1 (2 * twok)
    let R := R.sliceAssign 0 (twok - 1) (rnlp_value lib op (n + 1) (2 * lx))
    let R := R.sliceAssign twok (2 * twok - 1) (rnlp_value lib op (n + 1) (2 * lx + 1))
    let R := lib.transform R op.hgT2k
    R.sliceCopy 0 (twok - 1)
  else
    op.rnlp n lx
termination_by (op.natural_level - n).toNat
decreasing_by all_goals omega

/-- The tensor `rnlij(n, lx)` computes when nothing is cached, as a function of
the key alone. -/
def rnlij_value (lib : TensorLib K) (op : Convolution1D K) (n lx : Int) : Tensor K :=
  let twok := 2 * op.k
  let R : Tensor K := Tensor.zeros1 (2 * twok)
  let R := R.sliceAssign 0 (twok - 1) (rnlp_value lib op n (lx - 1))
  let R := R.sliceAssign twok (2 * twok - 1) (rnlp_value lib op n lx)
  let R := R.scale (lib.pow (1 / 2) (1 / 2 * (n : K)))
  lib.inner op.c R

/-- The matrix assembled by the four `copy_2d_patch` calls of `nonstandard`,
described by quadrants: `r0` top-left and bottom-right, `rm` top-right, `rp`
bottom-left; each block is read as a row-major `k x k` matrix. -/
def quadrants (k : Nat) (r0 rp rm : Tensor K) : Tensor K :=
  ⟨[2 * k, 2 * k], (List.range (2 * k * (2 * k))).map (fun idx =>
    let i := idx / (2 * k)
    let j := idx % (2 * k)
    if i < k then
      if j < k then r0.p.getD (i * k + j) 0 else rm.p.getD (i * k + (j - k)) 0
    else
      if j < k then rp.p.getD ((i - k) * k + j) 0 else r0.p.getD ((i - k) * k + (j - k)) 0)⟩

/-- The transpose `b(j,i) = a(i,j)` of a row-major `n x m` buffer, as the naive
double loop in the comment of `fast_transpose` defines it. -/
def transpose_flat {T : Type} [Zero T] (n m : Nat) (a : List T) : List T :=
  (List.range (m * n)).map (fun idx => a.getD ((idx % n) * m + idx / n) 0)

/-- The tensors `(R, T)` that `nonstandard(n, lx)` hands to the constructor when
nothing is cached, as a function of the key alone. -/
def ns_tensors (lib : TensorLib K) (op : Convolution1D K) (n lx : Int) : Tensor K × Tensor K :=
  if op.issmall n lx then (Tensor.empty, Tensor.empty)
  else
    let k := op.k
    let Q := quadrants k (rnlij_value lib op (n + 1) (lx * 2))
      (rnlij_value lib op (n + 1) (lx * 2 + 1)) (rnlij_value lib op (n + 1) (lx * 2 - 1))
    let R : Tensor K := ⟨[2 * k, 2 * k], transpose_flat (2 * k) (2 * k) (lib.transform Q op.hgT).p⟩
    let T : Tensor K := ⟨[k, k], (List.range (k * k)).map (fun idx =>
      R.p.getD ((idx / k) * (2 * k) + idx % k) 0)⟩
    (R, T)

/-- The block `nonstandard(n, lx)` stores when nothing is cached, as a function
of the key alone. -/
def ns_value (lib : TensorLib K) (op : Convolution1D K) (n lx : Int) : ConvolutionData1D K :=
  ConvolutionData1D.new lib (ns_tensors lib op n lx).1 (ns_tensors lib op n lx).2

/-- Every cached entry is the value the operation computes for its key. -/
def Consistent (lib : TensorLib K) (op : Convolution1D K) (s : Caches K) : Prop :=
  (∀ n l v, s.rnlp_cache.getptr n l = some v → v = rnlp_value lib op n l) ∧
  (∀ n l v, s.rnlij_cache.getptr n l = some v → v = rnlij_value lib op n l) ∧
  (∀ n l v, s.ns_cache.getptr n l = some v → v = ns_value lib op n l)

/-- The cache states an operator can be in: the empty caches of a fresh operator,
and whatever a call of `get_rnlp`, `rnlij` or `nonstandard` leaves behind. -/
inductive Reachable (lib : TensorLib K) (op : Convolution1D K) : Caches K → Prop
  | fresh : Reachable lib op Caches.fresh
  | get_rnlp (n lx : Int) (s : Caches K) :
      Reachable lib op s → Reachable lib op (get_rnlp lib op n lx s).2
  | rnlij (n lx : Int) (s : Caches K) :
      Reachable lib op s → Reachable lib op (rnlij lib op n lx s).2
  | nonstandard (n lx : Int) (s : Caches K) :
      Reachable lib op s → Reachable lib op (nonstandard lib op n lx s).2

/-- Lookups that succeed in `c` succeed with the same value in `d`. -/
def SimpleCache.Extends {V : Type} (d c : SimpleCache V) : Prop :=
  ∀ n l v, c.getptr n l = some v → d.getptr n l = some v

/-- All three caches of `t` extend those of `s`. -/
def Caches.Extends (t s : Caches K) : Prop :=
  t.rnlp_cache.Extends s.rnlp_cache ∧ t.rnlij_cache.Extends s.rnlij_cache ∧
  t.ns_cache.Extends s.ns_cache

/-- The keys of a cache, newest insertion first. -/
def SimpleCache.keys {V : Type} (c : SimpleCache V) : List (Int × Int) := c.map Prod.fst

/-- What a call `get_rnlp(n, l)` started in `s` and ending with `r` guarantees. -/
structure RnlpPost (lib : TensorLib K) (op : Convolution1D K) (n l : Int) (s : Caches K)
    (r : Tensor K × Caches K) : Prop where
  rnlij_eq : r.2.rnlij_cache = s.rnlij_cache
  ns_eq : r.2.ns_cache = s.ns_cache
  stored : r.2.rnlp_cache.getptr n l = some r.1
  ext : r.2.rnlp_cache.Extends s.rnlp_cache
  below : ∀ n2 l2, n2 < n → s.rnlp_cache.getptr n2 l2 = none →
    r.2.rnlp_cache.getptr n2 l2 = none
  nodup : s.rnlp_cache.keys.Nodup → r.2.rnlp_cache.keys.Nodup
  value : (∀ n2 l2 v, s.rnlp_cache.getptr n2 l2 = some v → v = rnlp_value lib op n2 l2) →
    (∀ n2 l2 v, r.2.rnlp_cache.getptr n2 l2 = some v → v = rnlp_value lib op n2 l2) ∧
    r.1 = rnlp_value lib op n l
  calls : ∃ added, r.2.kernel_calls = s.kernel_calls ++ added ∧
    ∀ e ∈ added, op.natural_level ≤ e.1

/-! ## Kernels -/

/-- `GaussianConvolution1D::issmall(n, lx)` for the exponent `expnt`.  The
arithmetic is exact; `GaussianConvolution1D.issmall64` is the same code with
every operation rounded to binary64. -/
def GaussianConvolution1D.issmall (lib : TensorLib K) (expnt : K) (n lx : Int) : Bool :=
  let beta := expnt * lib.pow (1 / 4) (n : K)
  let ll : Int :=
    if lx > 0 then lx - 1
    else if lx < 0 then -1 - lx
    else 0
  decide (beta * (ll : K) * (ll : K) > 49)

/-- The functions of libm that the Gaussian kernel calls besides `pow`. -/
structure LibM (K : Type) where
  exp : K → K
  log : K → K
  sqrt : K → K

/-- The conversion of a `double` to an integer type, as in `long(x)` or in the
initialisation of a `Level` from a `double`: the fractional part is discarded
(rounding toward zero). -/
def trunc [FloorRing K] (x : K) : Int := if 0 ≤ x then ⌊x⌋ else ⌈x⌉

/-- The members of `GaussianConvolution1D<Q>` besides the caches. -/
structure GaussianConvolution1D (K : Type) where
  k : Nat
  npt : Nat
  sign : K
  quad_x : Tensor K
  quad_w : Tensor K
  c : Tensor K
  hgT : Tensor K
  hgT2k : Tensor K
  coeff : K
  expnt : K
  natlev : Int

/-- The constructor `GaussianConvolution1D(int k, Q coeff, double expnt, double sign)`,
with initialiser list
`Convolution1D<Q>(k,k+11,sign), coeff(coeff), expnt(expnt), natlev(0.5*log(expnt)/log(2)+1)`.
The five tensors are what the base-class constructor computes.  The arithmetic
is exact; `GaussianConvolution1D.new64` is the same code with every operation
rounded to binary64. -/
def GaussianConvolution1D.new [FloorRing K] (m : LibM K) (k : Nat) (coeff expnt sign : K)
    (quad_x quad_w c hgT hgT2k : Tensor K) : GaussianConvolution1D K :=
  { k := k, npt := k + 11, sign := sign, quad_x := quad_x, quad_w := quad_w, c := c,
    hgT := hgT, hgT2k := hgT2k, coeff := coeff, expnt := expnt,
    natlev := trunc (1 / 2 * m.log expnt / m.log 2 + 1) }

/-- `GaussianConvolution1D::natural_level()`. -/
def GaussianConvolution1D.natural_level (g : GaussianConvolution1D K) : Int := g.natlev

/-- The loop `for (long p=0; p<twok; p++) v(p) += ee*phix[p];` after `p` iterations. -/
def gauss_add (ee : K) (phix : List K) (v : Tensor K) : Nat → Tensor K
  | 0 => v
  | p + 1 =>
    let w := gauss_add ee phix v p
    { w with p := w.p.set p (w.get p + ee * phix.getD p 0) }

/-- The loop `for (long i=0; i<this->npt; i++)` over the quadrature points of the
box starting at `xlo`, after `i` iterations. -/
def gauss_points (m : LibM K) (legendre : K → Nat → List K) (quad_x quad_w : Tensor K)
    (twok : Nat) (scaledcoeff beta h xlo : K) (lx : Int) (v : Tensor K) : Nat → Tensor K
  | 0 => v
  | i + 1 =>
    let w := gauss_points m legendre quad_x quad_w twok scaledcoeff beta h xlo lx v i
    let xx := xlo + h * quad_x.get i
    let ee := scaledcoeff * m.exp (-beta * xx * xx) * quad_w.get i * h
    let phix := legendre (xx - (lx : K)) twok
    gauss_add ee phix w twok

/-- The loop `for (long box=0; box<nbox; box++)` after `t` iterations: the vector
`v` and whether `break` has been executed. -/
def gauss_boxes (m : LibM K) (legendre : K → Nat → List K) (quad_x quad_w : Tensor K)
    (npt twok : Nat) (scaledcoeff beta h argmax : K) (lx : Int) (v : Tensor K) :
    Nat → Tensor K × Bool
  | 0 => (v, false)
  | t + 1 =>
    let st := gauss_boxes m legendre quad_x quad_w npt twok scaledcoeff beta h argmax lx v t
    if st.2 then st
    else
      let xlo := (t : K) * h + (lx : K)
      if beta * xlo * xlo > argmax then (st.1, true)
      else (gauss_points m legendre quad_x quad_w twok scaledcoeff beta h xlo lx st.1 npt, false)

/-- The loop `for (long p=1; p<twok; p+=2) v(p) = -v(p);` after `t` iterations;
iteration `t` runs with `p = 2t+1`. -/
def flip_odd (v : Tensor K) : Nat → Tensor K
  | 0 => v
  | t + 1 =>
    let w := flip_odd v t
    { w with p := w.p.set (2 * t + 1) (-(w.get (2 * t + 1))) }

/-- The part of `GaussianConvolution1D::rnlp` between the folding of `lx` and the
final sign flip: the quadrature over the boxes for a translation `lx >= 0`.
The argument `legendre z n` is the array filled by
`legendre_scaling_functions(z, n, phix)`. -/
def GaussianConvolution1D.rnlp_core [FloorRing K] (lib : TensorLib K) (m : LibM K)
    (legendre : K → Nat → List K) (g : GaussianConvolution1D K) (n lx : Int) : Tensor K :=
  let twok := 2 * g.k
  let v : Tensor K := Tensor.zeros1 twok
  let scaledcoeff := g.coeff * lib.pow (m.sqrt (1 / 2)) (n : K)
  let beta := g.expnt * lib.pow (1 / 4) (n : K)
  let h := 1 / m.sqrt beta
  let nbox : Int := trunc (1 / h)
  let nbox : Int := if nbox < 1 then 1 else nbox
  let h := 1 / (nbox : K)
  let argmax := |m.log (1 / 10 ^ 22 / |scaledcoeff * h|)|
  (gauss_boxes m legendre g.quad_x g.quad_w g.npt twok scaledcoeff beta h argmax lx v
    nbox.toNat).1

/-- `GaussianConvolution1D::rnlp(n, lx)`. -/
def GaussianConvolution1D.rnlp [FloorRing K] (lib : TensorLib K) (m : LibM K)
    (legendre : K → Nat → List K) (g : GaussianConvolution1D K) (n lx : Int) : Tensor K :=
  let twok := 2 * g.k
  let lkeep := lx
  let lx := if lx < 0 then -lx - 1 else lx
  let v := GaussianConvolution1D.rnlp_core lib m legendre g n lx
  if lkeep < 0 then
    -- the loop runs for p = 1, 3, ..., that is twok/2 times
    flip_odd v (twok / 2)
  else v

/-- The Gaussian kernel seen through the interface of its base class. -/
def GaussianConvolution1D.toConvolution1D [FloorRing K] (lib : TensorLib K) (m : LibM K)
    (legendre : K → Nat → List K) (g : GaussianConvolution1D K) : Convolution1D K :=
  { k := g.k, npt := g.npt, sign := g.sign, quad_x := g.quad_x, quad_w := g.quad_w, c := g.c,
    hgT := g.hgT, hgT2k := g.hgT2k, rnlp := GaussianConvolution1D.rnlp lib m legendre g,
    issmall := GaussianConvolution1D.issmall lib g.expnt,
    natural_level := g.natural_level }

/-- The members of `PeriodicGaussianConvolution1D<Q>` that its `rnlp` reads: the
order `k`, the range `maxR` of the image sum and the inner Gaussian `g`. -/
structure PeriodicGaussianConvolution1D (K : Type) where
  k : Nat
  maxR : Int
  g : GaussianConvolution1D K

/-- The constructor
`PeriodicGaussianConvolution1D(int k, int maxR, Q coeff, double expnt, double sign)`
with initialiser list `k(k), maxR(maxR), g(k,coeff,expnt,sign)`. -/
def PeriodicGaussianConvolution1D.new [FloorRing K] (m : LibM K) (k : Nat) (maxR : Int)
    (coeff expnt sign : K) (quad_x quad_w c hgT hgT2k : Tensor K) :
    PeriodicGaussianConvolution1D K :=
  { k := k, maxR := maxR,
    g := GaussianConvolution1D.new m k coeff expnt sign quad_x quad_w c hgT hgT2k }

/-- The loop
`for (int R=-maxR; R<=maxR; R++) r.gaxpy(1.0, g.get_rnlp(n,R*twon+lx), 1.0);`
after `t` iterations; iteration `t` runs with `R = -maxR + t`.  The state is the
vector `r` and the caches of the inner operator `g`. -/
def periodic_sum (lib : TensorLib K) (g : Convolution1D K) (maxR n twon lx : Int)
    (r : Tensor K) (sg : Caches K) : Nat → Tensor K × Caches K
  | 0 => (r, sg)
  | t + 1 =>
    let st := periodic_sum lib g maxR n twon lx r sg t
    let a := get_rnlp lib g n ((-maxR + (t : Int)) * twon + lx) st.2
    (st.1.gaxpy 1 a.1 1, a.2)

/-- `PeriodicGaussianConvolution1D::rnlp(n, lx)`: the returned vector and the
caches of the inner Gaussian afterwards.  The loop body runs `2*maxR+1` times
(not at all when `maxR < 0`).  The shift `Translation(1)<<n` is `2^n` for the
levels `0 <= n` on which C++ defines it; translations are taken without
wrap-around. -/
def PeriodicGaussianConvolution1D.rnlp [FloorRing K] (lib : TensorLib K) (m : LibM K)
    (legendre : K → Nat → List K) (pg : PeriodicGaussianConvolution1D K) (n lx : Int)
    (sg : Caches K) : Tensor K × Caches K :=
  let twon : Int := 2 ^ n.toNat
  let r : Tensor K := Tensor.zeros1 (2 * pg.k)
  periodic_sum lib (pg.g.toConvolution1D lib m legendre) pg.maxR n twon lx r sg
    (2 * pg.maxR + 1).toNat

/-- The constant `LONG_MAX` of a 64-bit `long`. -/
def LONG_MAX : Int := 2 ^ 63 - 1

/-- The members of `GenericConvolution1D<Q,opT>` besides the caches.  The functor
`op` only occurs inside the integrand handed to `adq1`, so it is represented by
`integrate n lx`, the value of
`adq1(lx, lx+1, Shmoo(n, lx, this), 1e-12, npt, quad_x, quad_w, 0)`.
The field `sar` is the result the machine gives for `lx >> n` with a negative
count `n`, which C++ leaves undefined. -/
structure GenericConvolution1D (K : Type) where
  k : Nat
  quad_x : Tensor K
  quad_w : Tensor K
  c : Tensor K
  hgT : Tensor K
  hgT2k : Tensor K
  integrate : Int → Int → Tensor K
  sar : Int → Int → Int
  maxl : Int

/-- `GenericConvolution1D::rnlp(n, lx)`. -/
def GenericConvolution1D.rnlp (g : GenericConvolution1D K) (n lx : Int) : Tensor K :=
  g.integrate n lx

/-- `GenericConvolution1D::issmall(n, lx)`; the class does not override
`natural_level()`, which therefore is 13.  The shift `lx << n` is taken exact. -/
def GenericConvolution1D.issmall (g : GenericConvolution1D K) (n lx : Int) : Bool :=
  let lx := if lx < 0 then 1 - lx else lx
  if lx ≤ 7 then false
  else
    let n := 13 - n
    let lx := if n ≥ 0 then lx * 2 ^ n.toNat else g.sar lx n
    decide (lx ≥ g.maxl)

/-- The generic kernel seen through the interface of its base class. -/
def GenericConvolution1D.toConvolution1D (g : GenericConvolution1D K) : Convolution1D K :=
  { k := g.k, npt := 20, sign := 1, quad_x := g.quad_x, quad_w := g.quad_w, c := g.c,
    hgT := g.hgT, hgT2k := g.hgT2k, rnlp := g.rnlp, issmall := g.issmall,
    natural_level := 13 }

/-- The variables of the probing loop in the constructor of
`GenericConvolution1D`: the caches, `nzero`, `maxl`, and whether `break` has
been executed. -/
structure ProbeState (K : Type) where
  caches : Caches K
  nzero : Nat
  maxl : Int
  stopped : Bool

/-- One iteration of the probing loop, for the loop variable `lx`. -/
def GenericConvolution1D.probe_step (lib : TensorLib K) (g : GenericConvolution1D K)
    (lx : Int) (st : ProbeState K) : ProbeState K :=
  let natl : Int := 13
  let rp := get_rnlp lib g.toConvolution1D natl lx st.caches
  let rm := get_rnlp lib g.toConvolution1D natl (-lx) rp.2
  let nzero := if lib.normf rp.1 < 1 / 10 ^ 12 ∧ lib.normf rm.1 < 1 / 10 ^ 12
    then st.nzero + 1 else st.nzero
  if nzero = 3 then
    { caches := rm.2, nzero := nzero, maxl := lx - 2, stopped := true }
  else
    { caches := rm.2, nzero := nzero, maxl := st.maxl, stopped := false }

/-- The probing loop `for (Translation lx=0; lx<(1L<<natl); lx++)` after `t`
iterations; while it runs the member `maxl` still has its initial value. -/
def GenericConvolution1D.probe (lib : TensorLib K) (g : GenericConvolution1D K) :
    Nat → ProbeState K
  | 0 => { caches := Caches.fresh, nzero := 0, maxl := g.maxl, stopped := false }
  | t + 1 =>
    let st := GenericConvolution1D.probe lib g t
    if st.stopped then st else GenericConvolution1D.probe_step lib g (t : Int) st

/-- The constructor `GenericConvolution1D(int k, const opT& op)`: the object and
the caches it leaves.  The arguments after `k` are what the base-class
constructor and `adq1` compute. -/
def GenericConvolution1D.new (lib : TensorLib K) (k : Nat)
    (quad_x quad_w c hgT hgT2k : Tensor K) (integrate : Int → Int → Tensor K)
    (sar : Int → Int → Int) : GenericConvolution1D K × Caches K :=
  let g : GenericConvolution1D K :=
    { k := k, quad_x := quad_x, quad_w := quad_w, c := c, hgT := hgT, hgT2k := hgT2k,
      integrate := integrate, sar := sar, maxl := LONG_MAX - 1 }
  let st := GenericConvolution1D.probe lib g (1 <<< 13)
  ({ g with maxl := st.maxl }, st.caches)

/-! ## Worked instances -/

/-- A tensor library over the rationals for the worked examples: `transform`
and `inner` hand back the tensor they are applied to, `pow` is exact for
integer exponents, `svd` returns its argument three times, and `normf` is the
sum of the absolute values, which is the Frobenius norm of every tensor with at
most one non-zero entry. -/
def demoLib : TensorLib ℚ :=
  { normf := fun t => (t.p.map (fun x => |x|)).sum
    svd := fun t => (t, t, t)
    transform := fun t _ => t
    inner := fun _ t => t
    pow := fun x y => x ^ ⌊y⌋ }

/-- An operator of order 3 with the pruning predicate and natural level of the
unit Gaussian (`expnt = 1`, hence `natlev = 1`); the quadrature of `rnlp` is
replaced by a rational profile. -/
def demoGaussian : Convolution1D ℚ :=
  { k := 3, npt := 14, sign := 1, quad_x := Tensor.zeros1 14, quad_w := Tensor.zeros1 14,
    c := Tensor.zeros2 12 3, hgT := Tensor.zeros2 6 6, hgT2k := Tensor.zeros2 12 12,
    rnlp := fun n l => ⟨[6], [1 / (1 + (n : ℚ) ^ 2 + (l : ℚ) ^ 2), 0, 0, 0, 0, 0]⟩
    issmall := GaussianConvolution1D.issmall demoLib 1
    natural_level := 1 }

/-- An operator of order 1 whose kernel vanishes identically and which prunes
nothing. -/
def demoZero : Convolution1D ℚ :=
  { k := 1, npt := 12, sign := 1, quad_x := Tensor.zeros1 12, quad_w := Tensor.zeros1 12,
    c := Tensor.zeros2 4 1, hgT := Tensor.zeros2 2 2, hgT2k := Tensor.zeros2 4 4,
    rnlp := fun _ _ => Tensor.zeros1 2
    issmall := fun _ _ => false
    natural_level := 0 }

/-- A kernel integral for the generic operator of order 1: of size 1 on the
boxes `-5 .. 4` and of size `1e-13` outside. -/
def demoIntegrate (_n lx : Int) : Tensor ℚ :=
  ⟨[2], [if -5 ≤ lx ∧ lx ≤ 4 then 1 else 1 / 10 ^ 13, 0]⟩

/-- The arithmetic right shift of x86-64, which uses the low six bits of the count. -/
def sar64 (x n : Int) : Int := x / 2 ^ (n % 64).toNat

/-- The members of the generic operator of order 1 for `demoIntegrate` as the
initialiser list of the constructor sets them, before the probing loop runs. -/
def demoGeneric0 : GenericConvolution1D ℚ :=
  { k := 1, quad_x := Tensor.zeros1 20, quad_w := Tensor.zeros1 20, c := Tensor.zeros2 4 1,
    hgT := Tensor.zeros2 2 2, hgT2k := Tensor.zeros2 4 4, integrate := demoIntegrate,
    sar := sar64, maxl := LONG_MAX - 1 }

/-- The generic operator of order 1 built by the constructor from `demoIntegrate`,
with the caches the constructor leaves. -/
def demoGeneric : GenericConvolution1D ℚ × Caches ℚ :=
  GenericConvolution1D.new demoLib 1 (Tensor.zeros1 20) (Tensor.zeros1 20) (Tensor.zeros2 4 1)
    (Tensor.zeros2 2 2) (Tensor.zeros2 4 4) demoIntegrate sar64

/-- A kernel integral with a hole in the middle: of size 1 on the boxes
`-3, -2, 2, 3` and zero on every other box. -/
def ringIntegrate (_n lx : Int) : Tensor ℚ :=
  ⟨[2], [if (2 ≤ lx ∧ lx ≤ 3) ∨ (-3 ≤ lx ∧ lx ≤ -2) then 1 else 0, 0]⟩

/-- The members of the generic operator of order 1 for `ringIntegrate` as the
initialiser list of the constructor sets them, before the probing loop runs. -/
def ringGeneric0 : GenericConvolution1D ℚ :=
  { k := 1, quad_x := Tensor.zeros1 20, quad_w := Tensor.zeros1 20, c := Tensor.zeros2 4 1,
    hgT := Tensor.zeros2 2 2, hgT2k := Tensor.zeros2 4 4, integrate := ringIntegrate,
    sar := sar64, maxl := LONG_MAX - 1 }

/-- The generic operator of order 1 built by the constructor from `ringIntegrate`,
with the caches the constructor leaves. -/
def ringGeneric : GenericConvolution1D ℚ × Caches ℚ :=
  GenericConvolution1D.new demoLib 1 (Tensor.zeros1 20) (Tensor.zeros1 20) (Tensor.zeros2 4 1)
    (Tensor.zeros2 2 2) (Tensor.zeros2 4 4) ringIntegrate sar64

/-- An operator of order 1 that prunes nothing and whose kernel gives the vector
`(1, 0)` at every key. -/
def constantOp (K : Type) [LinearOrderedField K] : Convolution1D K :=
  { k := 1, npt := 12, sign := 1, quad_x := Tensor.zeros1 12, quad_w := Tensor.zeros1 12,
    c := Tensor.zeros2 4 1, hgT := Tensor.zeros2 2 2, hgT2k := Tensor.zeros2 4 4,
    rnlp := fun _ _ => ⟨[2], [1, 0]⟩
    issmall := fun _ _ => false
    natural_level := 0 }

/-- The `n x n` identity matrix. -/
def identity (K : Type) [Zero K] [One K] (n : Nat) : Tensor K :=
  ⟨[n, n], (List.range (n * n)).map (fun idx => if idx / n = idx % n then 1 else 0)⟩

/-- The library `demoLib` with an `svd` that is right on diagonal matrices whose
diagonal is non-negative and non-increasing: `U` and `VT` are the identity and
the singular values are the diagonal entries. -/
def diagLib : TensorLib ℚ :=
  { demoLib with
    svd := fun t => (identity ℚ (t.dimAt 0),
      ⟨[t.dimAt 0], (List.range (t.dimAt 0)).map (fun i => t.get2 i i)⟩,
      identity ℚ (t.dimAt 0)) }

/-- How the caches may change across an operation: lookups persist, no key is
inserted twice, cached values stay the values of their keys, and the kernel is
only evaluated at or above the natural level. -/
structure Caches.Grows (lib : TensorLib K) (op : Convolution1D K) (t s : Caches K) : Prop where
  ext : t.Extends s
  nodup_rnlp : s.rnlp_cache.keys.Nodup → t.rnlp_cache.keys.Nodup
  nodup_rnlij : s.rnlij_cache.keys.Nodup → t.rnlij_cache.keys.Nodup
  nodup_ns : s.ns_cache.keys.Nodup → t.ns_cache.keys.Nodup
  consistent : Consistent lib op s → Consistent lib op t
  calls : ∃ added, t.kernel_calls = s.kernel_calls ++ added ∧
    ∀ e ∈ added, op.natural_level ≤ e.1

/-- What a call `rnlij(n, l)` started in `s` and ending with `r` guarantees. -/
structure RnlijPost (lib : TensorLib K) (op : Convolution1D K) (n l : Int) (s : Caches K)
    (r : Tensor K × Caches K) : Prop where
  grows : Caches.Grows lib op r.2 s
  ns_eq : r.2.ns_cache = s.ns_cache
  stored : r.2.rnlij_cache.getptr n l = some r.1
  value : Consistent lib op s → r.1 = rnlij_value lib op n l

/-- What a call `nonstandard(n, l)` started in `s` and ending with `r` guarantees. -/
structure NsPost (lib : TensorLib K) (op : Convolution1D K) (n l : Int) (s : Caches K)
    (r : ConvolutionData1D K × Caches K) : Prop where
  grows : Caches.Grows lib op r.2 s
  stored : r.2.ns_cache.getptr n l = some r.1
  value : Consistent lib op s → r.1 = ns_value lib op n l

end Operator

/-! ## Binary64 arithmetic

The definitions above take `double` as an exact ordered field.  Where a statement
depends on how the operations of `double` round, the code is modelled a second
time on the rationals with the arithmetic of IEEE 754 binary64: every finite
double is a rational number, an operation yields the double nearest to its exact
result (ties to the even one), and a result beyond the largest finite double,
which is an infinity in C++, is `none`. -/

/-- Rounding of a rational to the nearest integer, ties to the even one. -/
def rne (q : ℚ) : ℤ :=
  let f := ⌊q⌋
  if q - f < 1 / 2 then f
  else if q - f > 1 / 2 then f + 1
  else if f % 2 = 0 then f else f + 1

/-- The exponent of the spacing of the doubles around `q`: 52 below the exponent
of `q`, and not below the exponent -1074 of the smallest subnormal. -/
def grid64 (q : ℚ) : ℤ := max (Int.log 2 |q| - 52) (-1074)

/-- Rounding to binary64 with unbounded exponent: the multiple of the spacing
nearest to `q`, ties to the even one. -/
def round64 (q : ℚ) : ℚ :=
  if q = 0 then 0 else (rne (q / 2 ^ grid64 q) : ℚ) * 2 ^ grid64 q

/-- The largest finite double, `(2^53 - 1) * 2^971`. -/
def big64 : ℚ := (2 ^ 53 - 1) * 2 ^ 971

/-- The double delivered by an operation whose exact result is `x`; `none` when
the rounded result exceeds the largest finite double (overflow). -/
def finite64 (x : ℚ) : Option ℚ :=
  if |round64 x| ≤ big64 then some (round64 x) else none

/-- The sum `x + y` of two doubles. -/
def add64 (x y : ℚ) : Option ℚ := finite64 (x + y)

/-- The product `x * y` of two doubles. -/
def mul64 (x y : ℚ) : Option ℚ := finite64 (x * y)

/-- The quotient `x / y` of two doubles; division by zero gives an infinity or a
NaN, hence `none`. -/
def div64 (x y : ℚ) : Option ℚ := if y = 0 then none else finite64 (x / y)

/-- Inner loop `for (j=0; j<n; j++) RVT(i,j) *= Rs[i];` in binary64, after `j`
iterations. -/
def scale_vt_row64 (Rs : Tensor ℚ) (i : Nat) (RVT : Tensor ℚ) : Nat → Option (Tensor ℚ)
  | 0 => some RVT
  | j + 1 =>
    (scale_vt_row64 Rs i RVT j).bind (fun t =>
      (mul64 (t.get2 i j) (Rs.get i)).bind (fun v => some (t.set2 i j v)))

/-- Outer loop `for (i=0; i<n; i++)` of the scaling of `RVT` in binary64, after
`i` iterations. -/
def scale_vt64 (Rs : Tensor ℚ) (n : Nat) (RVT : Tensor ℚ) : Nat → Option (Tensor ℚ)
  | 0 => some RVT
  | i + 1 => (scale_vt64 Rs n RVT i).bind (fun t => scale_vt_row64 Rs i t n)

/-- The loop `for (int i=n-1; i>1; i--) Rs[i-1] += Rs[i];` in binary64, after `t`
iterations; iteration number `t` (from 0) runs with `i = n-1-t`. -/
def cumulate64 (n : Nat) (Rs : Tensor ℚ) : Nat → Option (Tensor ℚ)
  | 0 => some Rs
  | t + 1 =>
    (cumulate64 n Rs t).bind (fun s =>
      (add64 (s.get (n - 1 - t - 1)) (s.get (n - 1 - t))).bind (fun v =>
        some { s with p := s.p.set (n - 1 - t - 1) v }))

/-- The loop `for (int i=0; i<n; i++) Rs[i] *= rnorm;` in binary64, after `i`
iterations. -/
def rescale64 (rnorm : ℚ) (Rs : Tensor ℚ) : Nat → Option (Tensor ℚ)
  | 0 => some Rs
  | i + 1 =>
    (rescale64 rnorm Rs i).bind (fun s =>
      (mul64 (s.get i) rnorm).bind (fun v => some { s with p := s.p.set i v }))

/-- `ConvolutionData1D::make_approx(R, RU, Rs, RVT, norm)` in binary64; the four
outputs are returned as `(RU, Rs, RVT, norm)`, and the result is `none` when one
of the operations overflows. -/
def make_approx64 (lib : TensorLib ℚ) (R : Tensor ℚ) :
    Option (Tensor ℚ × Tensor ℚ × Tensor ℚ × ℚ) :=
  let n := R.dimAt 0
  let usv := lib.svd R
  (scale_vt64 usv.2.1 n usv.2.2 n).bind (fun RVT =>
    -- the loop runs for i = n-1, ..., 2
    (cumulate64 n usv.2.1 (n - 2)).bind (fun Rs =>
      let norm := Rs.get 0
      if Rs.get 0 > 0 then
        (div64 1 norm).bind (fun rnorm =>
          (rescale64 rnorm Rs n).bind (fun Rs2 => some (usv.1, Rs2, RVT, norm)))
      else some (usv.1, Rs, RVT, norm)))

/-- `GaussianConvolution1D::issmall(n, lx)` in binary64: the product
`expnt * pow(0.25, double(n))` is rounded to `beta`, the integer `ll` is converted
to `double`, and `beta*ll*ll` is the rounded product of the rounded product
`beta*ll` with `ll`; `none` when one of these overflows. -/
def GaussianConvolution1D.issmall64 (lib : TensorLib ℚ) (expnt : ℚ) (n lx : Int) :
    Option Bool :=
  (mul64 expnt (lib.pow (1 / 4) (n : ℚ))).bind (fun beta =>
    let ll : Int :=
      if lx > 0 then lx - 1
      else if lx < 0 then -1 - lx
      else 0
    (finite64 (ll : ℚ)).bind (fun d =>
      (mul64 beta d).bind (fun t =>
        (mul64 t d).bind (fun p => some (decide (p > 49))))))

/-- The double nearest to the square root of `q` (ties to the even one), as the
`sqrt` of binary64 returns it; the square root of a positive double is never
subnormal.  With `g` the exponent of the spacing of the doubles around the root,
`z` is the integer part of the root in units of `2^g`. -/
def sqrt64 (q : ℚ) : ℚ :=
  if q ≤ 0 then 0
  else
    let g : ℤ := Int.log 2 q / 2 - 52
    let m : ℚ := q / 4 ^ g
    let z : ℤ := Nat.sqrt ⌊m⌋.toNat
    let h : ℚ := (z + 1 / 2) ^ 2
    ((if m < h then z else if m > h then z + 1 else if z % 2 = 0 then z else z + 1 : ℤ) : ℚ)
      * 2 ^ g

section Accuracy

variable {K : Type} [LinearOrderedField K]

/-- The sum of the squares of the entries of a tensor, the square of its
Frobenius norm. -/
def sumsq (t : Tensor K) : K := (t.p.map (fun x => x ^ 2)).sum

/-- The number `normf` returns for `t` is the Frobenius norm of `t` up to the
relative error `δ`: it lies between `(1 - δ)` and `(1 + δ)` times the norm. -/
def normf_accurate (lib : TensorLib K) (δ : K) (t : Tensor K) : Prop :=
  0 ≤ lib.normf t ∧ (1 - δ) ^ 2 * sumsq t ≤ lib.normf t ^ 2 ∧
    lib.normf t ^ 2 ≤ (1 + δ) ^ 2 * sumsq t

end Accuracy

/-- The library `demoLib` with a correctly rounded Frobenius norm: `normf` returns
the double nearest to the square root of the sum of the squares of the entries. -/
def roundedLib : TensorLib ℚ :=
  { demoLib with normf := fun t => sqrt64 (sumsq t) }

/-! ## The plotting utility (`src/lib/mra/mraplot.cc`) -/

section Plotting

variable {D : Type}

/-- The standard input as `operator>>` and `get()` see it: words separated by
blanks, and line ends. -/
inductive Item where
  | word (s : String)
  | eol
deriving DecidableEq, Repr

/-- How a member function ends: it returns, it throws (`MADNESS_EXCEPTION`,
`MADNESS_ASSERT`), or it never returns. -/
inductive Run (α : Type) where
  | done (a : α)
  | raised (what : String)
  | diverges
deriving DecidableEq, Repr

/-- The data members of `class Plotter` besides `world`.  A tensor of shape
`(ndim,2)` is the list of its `2*ndim` entries in row-major order; the
default-constructed tensor is the empty list. -/
structure Plotter (D : Type) where
  cell : List D
  plot_cell : List D
  data_type : String
  plot_type : String
  input_filename : String
  output_filename : String
  output_format : String
  formula : String
  function_name : String
  npt : List Int
  ndim : Int
  binary : Bool
  finished : Bool
deriving DecidableEq, Repr

/-- The constructor `Plotter(World& world)`. -/
def Plotter.new : Plotter D :=
  { cell := [], plot_cell := [], data_type := "double", plot_type := "volume",
    input_filename := "", output_filename := "plot", output_format := "dx", formula := "",
    function_name := "function", npt := [], ndim := 3, binary := true, finished := true }

/-- The extraction `input >> token` of a string: blanks and line ends are skipped;
`none` when the input is exhausted. -/
def next_word : List Item → Option (String × List Item)
  | [] => none
  | Item.eol :: r => next_word r
  | Item.word w :: r => some (w, r)

/-- `Plotter::read_to_end_of_line`: the words up to the next line end and the
input after it.  On an input without a line end `get()` keeps returning `EOF`
and the loop never ends: `none`. -/
def read_to_end_of_line : List Item → Option (List String × List Item)
  | [] => none
  | Item.eol :: r => some ([], r)
  | Item.word w :: r =>
    match read_to_end_of_line r with
    | none => none
    | some x => some (w :: x.1, x.2)

/-- The loop `while (s >> x)` over the words of a line: the values extracted
until the first word that does not parse. -/
def extract_all {α : Type} (parse : String → Option α) : List String → List α
  | [] => []
  | w :: r =>
    match parse w with
    | none => []
    | some v => v :: extract_all parse r

/-- `Plotter::read_npt`. -/
def read_npt (parse_int : String → Option Int) (input : List Item) :
    Run (List Int × List Item) :=
  match read_to_end_of_line input with
  | none => Run.diverges
  | some x => Run.done (extract_all parse_int x.1, x.2)

/-- `Plotter::read_cell`: at most 64 values are accepted, their number must be
even and not zero; the tensor of shape `(n/2, 2)` holds them in order. -/
def read_cell (parse_double : String → Option D) (input : List Item) :
    Run (List D × List Item) :=
  match read_to_end_of_line input with
  | none => Run.diverges
  | some x =>
    let v := extract_all parse_double x.1
    let n := v.length
    if ¬ n < 65 then Run.raised "n < 65"
    else
      let ndim := n / 2
      if ¬ (n = ndim * 2 ∧ ndim ≥ 1) then Run.raised "n==ndim*2 && ndim>=1"
      else Run.done (v, x.2)

/-- The extraction `input >> x` into a variable: the next word is consumed and
parsed.  When it does not parse, or there is none, the extraction fails: the
variable keeps its value (`none`) and the stream is left in the failed state, in
which every later extraction fails as on an exhausted input. -/
def extract {α : Type} (parse : String → Option α) (input : List Item) :
    Option α × List Item :=
  match next_word input with
  | none => (none, [])
  | some (w, r) =>
    match parse w with
    | none => (none, [])
    | some v => (some v, r)

/-- The loop `while (input >> token)` of `Plotter::read`, with at most `fuel`
iterations; every iteration consumes at least one word.  The result is the
plotter and the input left when the loop ends.  The second branch for `input`
in the source can never be taken and is left out. -/
def Plotter.read_loop (parse_int : String → Option Int) (parse_double : String → Option D) :
    Nat → Plotter D → List Item → Run (Plotter D × List Item)
  | 0, _, _ => Run.diverges
  | fuel + 1, p, input =>
    match next_word input with
    | none => Run.done (p, [])
    | some (token, rest) =>
      let p := { p with finished := false }
      if token = "ndim" then
        let x := extract parse_int rest
        Plotter.read_loop parse_int parse_double fuel { p with ndim := x.1.getD p.ndim } x.2
      else if token = "ascii" then
        Plotter.read_loop parse_int parse_double fuel { p with binary := false } rest
      else if token = "text" then
        Plotter.read_loop parse_int parse_double fuel { p with binary := false } rest
      else if token = "dx" then
        Plotter.read_loop parse_int parse_double fuel { p with output_format := "dx" } rest
      else if token = "vtk" then
        match next_word rest with
        | none => Run.raised "VTK format requires a function name"
        | some (name, rest2) =>
          Plotter.read_loop parse_int parse_double fuel
            { p with output_format := "vtk", function_name := name } rest2
      else if token = "input" then
        let x := extract some rest
        Plotter.read_loop parse_int parse_double fuel
          { p with input_filename := x.1.getD p.input_filename } x.2
      else if token = "real" then
        Plotter.read_loop parse_int parse_double fuel { p with data_type := "real" } rest
      else if token = "complex" then
        Plotter.read_loop parse_int parse_double fuel { p with data_type := "complex" } rest
      else if token = "line" then
        Plotter.read_loop parse_int parse_double fuel { p with plot_type := "line" } rest
      else if token = "volume" then
        Plotter.read_loop parse_int parse_double fuel { p with plot_type := "volume" } rest
      else if token = "cell" then
        match read_cell parse_double rest with
        | Run.done x => Plotter.read_loop parse_int parse_double fuel { p with cell := x.1 } x.2
        | Run.raised e => Run.raised e
        | Run.diverges => Run.diverges
      else if token = "plot_cell" then
        match read_cell parse_double rest with
        | Run.done x =>
          Plotter.read_loop parse_int parse_double fuel { p with plot_cell := x.1 } x.2
        | Run.raised e => Run.raised e
        | Run.diverges => Run.diverges
      else if token = "npt" then
        match read_npt parse_int rest with
        | Run.done x => Plotter.read_loop parse_int parse_double fuel { p with npt := x.1 } x.2
        | Run.raised e => Run.raised e
        | Run.diverges => Run.diverges
      else if token = "plot" then
        Run.done (p, rest)
      else if token = "output" then
        let x := extract some rest
        Plotter.read_loop parse_int parse_double fuel
          { p with output_filename := x.1.getD p.output_filename } x.2
      else if token = "formula" then
        let x := extract some rest
        Plotter.read_loop parse_int parse_double fuel
          { p with formula := x.1.getD p.formula } x.2
      else if token = "quit" ∨ token = "exit" then
        Run.done ({ p with finished := true }, rest)
      else
        Run.raised "unknown plotter keyword"

/-- The loop `for (int i=0; i<ndim; i++) cell(i,1) = 1.0;` on the zero tensor of
shape `(ndim,2)`: every row is `(0, 1)`. -/
def default_cell [Zero D] [One D] (ndim : Nat) : List D :=
  (List.range (2 * ndim)).map (fun idx => if idx % 2 = 1 then 1 else 0)

/-- The loop `while (int(npt.size()) < ndim) npt.push_back(101);`. -/
def pad_npt (npt : List Int) (ndim : Int) : List Int :=
  npt ++ List.replicate (ndim.toNat - npt.length) 101

/-- `Plotter::read(std::istream& input)`: the plotter afterwards and the input
left.  The calls of `print` are left out. -/
def Plotter.read [Zero D] [One D] (parse_int : String → Option Int)
    (parse_double : String → Option D) (p : Plotter D) (input : List Item) :
    Run (Plotter D × List Item) :=
  let p := { p with finished := true }
  match Plotter.read_loop parse_int parse_double (input.length + 1) p input with
  | Run.raised e => Run.raised e
  | Run.diverges => Run.diverges
  | Run.done (p, rest) =>
    if p.finished then Run.done (p, rest)
    else if p.cell.length ≤ 0 ∧ ¬ (p.ndim > 0 ∧ p.ndim ≤ 6) then
      Run.raised "ndim>0 && ndim<=6"
    else
      let p := if p.cell.length ≤ 0 then { p with cell := default_cell p.ndim.toNat } else p
      let p := if p.plot_cell.length ≤ 0 then { p with plot_cell := p.cell } else p
      let p := { p with npt := pad_npt p.npt p.ndim }
      if ¬ (p.ndim > 0 ∧ p.ndim ≤ 6) then Run.raised "ndim>0 && ndim<=6"
      else if ¬ ((p.cell.length : Int) = 2 * p.ndim) then
        Run.raised "cell.dim[0]==ndim && cell.dim[1]==2"
      else if ¬ ((p.plot_cell.length : Int) = 2 * p.ndim) then
        Run.raised "plot_cell.dim[0]==ndim && plot_cell.dim[1]==2"
      else Run.done (p, rest)

/-- The function template that `Plotter::plot` ends up in: `doplot1<T,NDIM>` for
the element type `double` or `std::complex<double>` and the dimension `NDIM`.
Its body loads the function from the archive and writes the plot, which is
outside this embedding. -/
inductive Doplot1 where
  | real_valued (NDIM : Nat)
  | complex_valued (NDIM : Nat)
deriving DecidableEq, Repr

/-- `Plotter::doplot<T>()`: the dimension it redirects to. -/
def Plotter.doplot (p : Plotter D) : Run Nat :=
  if p.ndim = 1 then Run.done 1
  else if p.ndim = 2 then Run.done 2
  else if p.ndim = 3 then Run.done 3
  else if p.ndim = 4 then Run.done 4
  else Run.raised "invalid ndim"

/-- `Plotter::plot()`. -/
def Plotter.plot (p : Plotter D) : Run Doplot1 :=
  if p.data_type = "double" then
    match p.doplot with
    | Run.done d => Run.done (Doplot1.real_valued d)
    | Run.raised e => Run.raised e
    | Run.diverges => Run.diverges
  else if p.data_type = "complex" then
    match p.doplot with
    | Run.done d => Run.done (Doplot1.complex_valued d)
    | Run.raised e => Run.raised e
    | Run.diverges => Run.diverges
  else
    Run.raised "uknown data type"

end Plotting

/-! ## Properties of the transform primitives -/

section PrimitiveLemmas

variable {T : Type} [Zero T]

theorem copy_row_length (dst : List T) (o : Nat) (src : List T) (io j : Nat) :
    (copy_row dst o src io j).length = dst.length := by
  induction j with
  | zero => rfl
  | succ j ih => simp [copy_row, ih]

theorem copy_row_frame (dst : List T) (o : Nat) (src : List T) (io m x : Nat)
    (hx : ∀ j, j < m → x ≠ o + j) : (copy_row dst o src io m)[x]? = dst[x]? := by
  induction m with
  | zero => rfl
  | succ m ih =>
    have h1 : o + m ≠ x := fun h => hx m (Nat.lt_succ_self m) h.symm
    simp only [copy_row]
    rw [List.getElem?_set_ne h1]
    exact ih (fun j hj => hx j (Nat.lt_succ_of_lt hj))

theorem copy_row_inside (dst : List T) (o : Nat) (src : List T) (io m j : Nat)
    (hj : j < m) (hlen : o + j < dst.length) :
    (copy_row dst o src io m)[o + j]? = some (src.getD (io + j) 0) := by
  induction m with
  | zero => omega
  | succ m ih =>
    simp only [copy_row]
    by_cases hjm : j = m
    · subst hjm
      rw [List.getElem?_set_self]
      rw [copy_row_length]; exact hlen
    · have h1 : o + m ≠ o + j := by omega
      rw [List.getElem?_set_ne h1]
      exact ih (by omega)

theorem copy_rows_length (dst : List T) (o ldout : Nat) (src : List T) (io ldin m n : Nat) :
    (copy_rows dst o ldout src io ldin m n).length = dst.length := by
  induction n with
  | zero => rfl
  | succ n ih => simp [copy_rows, copy_row_length, ih]

theorem copy_2d_patch_length (dst : List T) (o ldout : Nat) (src : List T)
    (io ldin n m : Nat) :
    (copy_2d_patch dst o ldout src io ldin n m).length = dst.length :=
  copy_rows_length dst o ldout src io ldin m n

/-- Elements of the destination outside the patch are left alone. -/
theorem copy_2d_patch_frame (dst : List T) (o ldout : Nat) (src : List T)
    (io ldin n m x : Nat) (hx : ∀ i j, i < n → j < m → x ≠ o + i * ldout + j) :
    (copy_2d_patch dst o ldout src io ldin n m)[x]? = dst[x]? := by
  unfold copy_2d_patch
  induction n with
  | zero => rfl
  | succ n ih =>
    simp only [copy_rows]
    rw [copy_row_frame _ _ _ _ _ _ (fun j hj => hx n j (Nat.lt_succ_self n) hj)]
    exact ih (fun i j hi hj => hx i j (Nat.lt_succ_of_lt hi) hj)

/-- Elements of the patch receive the corresponding source elements. -/
theorem copy_2d_patch_inside (dst : List T) (o ldout : Nat) (src : List T)
    (io ldin n m i j : Nat) (hld : m ≤ ldout) (hi : i < n) (hj : j < m)
    (hlen : o + i * ldout + j < dst.length) :
    (copy_2d_patch dst o ldout src io ldin n m)[o + i * ldout + j]?
      = some (src.getD (io + i * ldin + j) 0) := by
  unfold copy_2d_patch
  induction n with
  | zero => omega
  | succ n ih =>
    simp only [copy_rows]
    by_cases hin : i = n
    · subst hin
      exact copy_row_inside _ _ _ _ _ _ hj (by rw [copy_rows_length]; exact hlen)
    · have hlt : i < n := by omega
      have hmul : (i + 1) * ldout ≤ n * ldout := Nat.mul_le_mul_right ldout hlt
      rw [copy_row_frame]
      · exact ih hlt
      · intro j2 _
        have : (i + 1) * ldout = i * ldout + ldout := by ring
        omega

theorem getElem?_set_cond {α : Type} (l : List α) (q x : Nat) (v : α) :
    (l.set q v)[x]? = if q = x ∧ x < l.length then some v else l[x]? := by
  rw [List.getElem?_set]
  by_cases h : q = x
  · subst h
    by_cases h2 : q < l.length
    · simp [h2]
    · simp [h2, List.getElem?_eq_none (Nat.le_of_not_lt h2)]
  · simp [h]

theorem index_split (n i J x : Nat) (hi : i < n) :
    J * n + i = x ↔ (x % n = i ∧ x / n = J) := by
  have hn : 0 < n := by omega
  constructor
  · intro h
    subst h
    constructor
    · rw [Nat.mul_comm, Nat.mul_add_mod, Nat.mod_eq_of_lt hi]
    · rw [Nat.mul_comm, Nat.mul_add_div hn, Nat.div_eq_of_lt hi, Nat.add_zero]
  · rintro ⟨h1, h2⟩
    have := Nat.div_add_mod x n
    rw [h1, h2, Nat.mul_comm] at this
    exact this

theorem ft_copy_length (a b : List T) (i : Nat) : (ft_copy a b i).length = b.length := by
  induction i with
  | zero => rfl
  | succ i ih => simp [ft_copy, ih]

theorem ft_copy_getElem? (a b : List T) (N x : Nat) :
    (ft_copy a b N)[x]? = if x < N ∧ x < b.length then some (a.getD x 0) else b[x]? := by
  induction N with
  | zero => simp [ft_copy]
  | succ N ih =>
    simp only [ft_copy]
    rw [getElem?_set_cond, ih, ft_copy_length]
    by_cases h1 : N = x
    · subst h1
      by_cases h2 : N < b.length
      · simp [h2]
      · simp [h2]
    · by_cases h3 : x < N
      · have : x < N + 1 := by omega
        simp [h1, h3, this]
      · have : ¬ x < N + 1 := by omega
        simp [h1, h3, this]

theorem ft_rem_row_length (n m : Nat) (a : List T) (i : Nat) (b : List T) (J : Nat) :
    (ft_rem_row n m a i b J).length = b.length := by
  induction J with
  | zero => rfl
  | succ J ih => simp [ft_rem_row, ih]

theorem ft_rem_row_getElem? (n m : Nat) (a : List T) (i : Nat) (b : List T) (J x : Nat)
    (hi : i < n) :
    (ft_rem_row n m a i b J)[x]?
      = if x % n = i ∧ x / n < J ∧ x < b.length then some (a.getD ((x % n) * m + x / n) 0)
        else b[x]? := by
  induction J with
  | zero => simp [ft_rem_row]
  | succ J ih =>
    simp only [ft_rem_row]
    rw [getElem?_set_cond, ih, ft_rem_row_length]
    simp only [index_split n i J x hi]
    by_cases h1 : x % n = i
    · by_cases h2 : x / n = J
      · by_cases h3 : x < b.length
        · have : x / n < J + 1 := by omega
          simp [h1, h2, h3]
        · simp [h3]
      · by_cases h4 : x / n < J
        · have : x / n < J + 1 := by omega
          simp [h1, h2, h4, this]
        · have : ¬ x / n < J + 1 := by omega
          simp [h1, h2, h4, this]
    · simp [h1]

theorem ft_block_row_length (n m : Nat) (a : List T) (a0 i : Nat) (b : List T) (J : Nat) :
    (ft_block_row n m a a0 i b J).length = b.length := by
  induction J with
  | zero => rfl
  | succ J ih => simp [ft_block_row, ih]

theorem ft_block_row_getElem? (n m : Nat) (a : List T) (i : Nat) (b : List T) (J x : Nat)
    (hi : i + 4 ≤ n) :
    (ft_block_row n m a (i * m) i b J)[x]?
      = if i ≤ x % n ∧ x % n < i + 4 ∧ x / n < J ∧ x < b.length
        then some (a.getD ((x % n) * m + x / n) 0) else b[x]? := by
  induction J with
  | zero => simp [ft_block_row]
  | succ J ih =>
    have e0 : i + J * n + 0 = J * n + i := by omega
    have e1 : i + J * n + 1 = J * n + (i + 1) := by omega
    have e2 : i + J * n + 2 = J * n + (i + 2) := by omega
    have e3 : i + J * n + 3 = J * n + (i + 3) := by omega
    simp only [ft_block_row]
    rw [getElem?_set_cond, getElem?_set_cond, getElem?_set_cond, getElem?_set_cond, ih]
    simp only [List.length_set, ft_block_row_length, e0, e1, e2, e3,
      index_split n i J x (by omega), index_split n (i + 1) J x (by omega),
      index_split n (i + 2) J x (by omega), index_split n (i + 3) J x (by omega)]
    generalize x % n = r
    generalize x / n = q
    by_cases hq : q = J
    · subst hq
      by_cases hlen : x < b.length
      · rcases (by omega : r = i ∨ r = i + 1 ∨ r = i + 2 ∨ r = i + 3 ∨ (r < i ∨ i + 4 ≤ r))
          with h | h | h | h | h
        · subst h; simp [hlen]
        · subst h; simp [hlen]; congr 2; ring
        · subst h; simp [hlen]; congr 2; ring
        · subst h; simp [hlen]; congr 2; ring
        · have h0 : r ≠ i := by omega
          have h1 : r ≠ i + 1 := by omega
          have h2 : r ≠ i + 2 := by omega
          have h3 : r ≠ i + 3 := by omega
          have h4 : ¬ (i ≤ r ∧ r < i + 4) := by omega
          simp only [h0, h1, h2, h3, false_and, true_and, if_false, hlen, and_true]
          rw [if_neg (by omega), if_neg (by omega)]
      · simp [hlen]
    · have hq2 : (q < J + 1) = (q < J) := by
        apply propext; omega
      simp [hq, hq2]

theorem ft_blocks_length (n m : Nat) (a b : List T) (t : Nat) :
    (ft_blocks n m a b t).length = b.length := by
  induction t with
  | zero => rfl
  | succ t ih => simp [ft_blocks, ft_block_row_length, ih]

theorem ft_blocks_getElem? (n m : Nat) (a b : List T) (t x : Nat) (ht : 4 * t ≤ n) :
    (ft_blocks n m a b t)[x]?
      = if x % n < 4 * t ∧ x / n < m ∧ x < b.length
        then some (a.getD ((x % n) * m + x / n) 0) else b[x]? := by
  induction t with
  | zero => simp [ft_blocks]
  | succ t ih =>
    have ha0 : t * (m <<< 2) = 4 * t * m := by
      rw [Nat.shiftLeft_eq]; ring
    simp only [ft_blocks]
    rw [ha0, ft_block_row_getElem? n m a (4 * t) _ m x (by omega), ih (by omega),
      ft_blocks_length]
    generalize x % n = r
    by_cases h1 : r < 4 * t
    · have h2 : r < 4 * (t + 1) := by omega
      have h3 : ¬ (4 * t ≤ r) := by omega
      simp [h1, h2, h3]
    · by_cases h2 : r < 4 * (t + 1)
      · have h3 : 4 * t ≤ r ∧ r < 4 * t + 4 := by omega
        simp [h1, h2, h3]
      · have h3 : ¬ (r < 4 * t + 4) := by omega
        simp [h1, h2, h3]

theorem ft_rem_length (n m : Nat) (a : List T) (n4 : Nat) (b : List T) (r : Nat) :
    (ft_rem n m a n4 b r).length = b.length := by
  induction r with
  | zero => rfl
  | succ r ih => simp [ft_rem, ft_rem_row_length, ih]

theorem ft_rem_getElem? (n m : Nat) (a : List T) (n4 : Nat) (b : List T) (r x : Nat)
    (hr : n4 + r ≤ n) :
    (ft_rem n m a n4 b r)[x]?
      = if n4 ≤ x % n ∧ x % n < n4 + r ∧ x / n < m ∧ x < b.length
        then some (a.getD ((x % n) * m + x / n) 0) else b[x]? := by
  induction r with
  | zero =>
    simp only [ft_rem]
    rw [if_neg (by omega)]
  | succ r ih =>
    simp only [ft_rem]
    rw [ft_rem_row_getElem? n m a (n4 + r) _ m x (by omega), ih (by omega), ft_rem_length]
    generalize x % n = q
    by_cases h1 : q = n4 + r
    · have h2 : n4 ≤ q ∧ q < n4 + (r + 1) := by omega
      have h3 : ¬ (q < n4 + r) := by omega
      simp [h1]
    · by_cases h2 : n4 ≤ q ∧ q < n4 + r
      · have h3 : n4 ≤ q ∧ q < n4 + (r + 1) := by omega
        simp [h1, h2.1, h2.2, h3.2]
      · have h3 : ¬ (n4 ≤ q ∧ q < n4 + (r + 1)) := by omega
        have h4 : ¬ (n4 ≤ q ∧ q < n4 + r ∧ x / n < m ∧ x < b.length) := fun h => h2 ⟨h.1, h.2.1⟩
        have h5 : ¬ (n4 ≤ q ∧ q < n4 + (r + 1) ∧ x / n < m ∧ x < b.length) :=
          fun h => h3 ⟨h.1, h.2.1⟩
        simp only [h1, false_and, if_false, if_neg h4, if_neg h5]

theorem fast_transpose_length (n m : Nat) (a b : List T) :
    (fast_transpose n m a b).length = b.length := by
  unfold fast_transpose
  split
  · simp [ft_copy_length]
  · simp [ft_rem_length, ft_blocks_length]

/-- On a destination of `n*m` elements `fast_transpose` computes the transpose
written as the naive double loop, whichever of its three code paths runs. -/
theorem fast_transpose_eq_transpose_flat (n m : Nat) (a b : List T)
    (hb : b.length = n * m) : fast_transpose n m a b = transpose_flat n m a := by
  apply List.ext_getElem?
  intro x
  have hrhs : (transpose_flat n m a)[x]?
      = if x < n * m then some (a.getD ((x % n) * m + x / n) 0) else none := by
    unfold transpose_flat
    rw [List.getElem?_map]
    by_cases hx : x < n * m
    · rw [List.getElem?_range (by rw [Nat.mul_comm]; exact hx)]
      simp [hx]
    · rw [List.getElem?_eq_none (by simp; rw [Nat.mul_comm]; omega)]
      simp [hx]
  rw [hrhs]
  unfold fast_transpose
  by_cases hx : x < n * m
  · have hnpos : 0 < n := by
      rcases Nat.eq_zero_or_pos n with h | h
      · subst h; simp at hx
      · exact h
    have hmod : x % n < n := Nat.mod_lt x hnpos
    have hdiv : x / n < m := by
      rw [Nat.div_lt_iff_lt_mul hnpos, Nat.mul_comm]; exact hx
    split
    · rename_i h1
      simp only []
      rw [ft_copy_getElem?, hb]
      simp only [hx, and_self, if_true]
      rcases h1 with h1 | h1
      · subst h1
        simp [Nat.mod_one]
      · subst h1
        have hxn : x < n := by omega
        simp [Nat.mod_eq_of_lt hxn, Nat.div_eq_of_lt hxn]
    · simp only []
      have hn4 : (n >>> 2) <<< 2 = 4 * (n / 4) := by
        rw [Nat.shiftLeft_eq, Nat.shiftRight_eq_div_pow]; ring
      rw [hn4]
      have hq : 4 * (n / 4) / 4 = n / 4 := by omega
      rw [hq, ft_rem_getElem? n m a _ _ _ x (by omega), ft_blocks_getElem? n m a b _ x (by omega),
        ft_blocks_length, hb]
      by_cases h1 : x % n < 4 * (n / 4)
      · have h2 : ¬ (4 * (n / 4) ≤ x % n) := by omega
        simp [h1, h2, hdiv, hx]
      · have h2 : 4 * (n / 4) ≤ x % n ∧ x % n < 4 * (n / 4) + (n - 4 * (n / 4)) := by omega
        simp [h2.1, h2.2, hdiv, hx]
  · have hnone : b[x]? = none := List.getElem?_eq_none (by omega)
    have hlen : ¬ x < b.length := by omega
    split
    · simp only []
      rw [ft_copy_getElem?]
      simp [hx, hnone, hlen]
    · rw [List.getElem?_eq_none (by rw [ft_rem_length, ft_blocks_length]; omega)]

theorem index_unique (w i j i2 j2 : Nat) (hj : j < w) (hj2 : j2 < w)
    (h : i * w + j = i2 * w + j2) : i = i2 ∧ j = j2 := by
  have h1 := (index_split w j i (i2 * w + j2) hj).1 h
  have h2 := (index_split w j2 i2 (i2 * w + j2) hj2).1 rfl
  exact ⟨h1.2.symm.trans h2.2, h1.1.symm.trans h2.1⟩

theorem assembled_length (k : Nat) (r0 rp rm : List T) :
    (assembled k r0 rp rm).length = 2 * k * (2 * k) := by
  simp [assembled, copy_2d_patch_length]

theorem assembled_at (k : Nat) (r0 rp rm : List T) (i j : Nat) (hi : i < 2 * k)
    (hj : j < 2 * k) :
    (assembled k r0 rp rm)[i * (2 * k) + j]? = some (
      if i < k then
        if j < k then r0.getD (i * k + j) 0 else rm.getD (i * k + (j - k)) 0
      else
        if j < k then rp.getD ((i - k) * k + j) 0 else r0.getD ((i - k) * k + (j - k)) 0) := by
  have hbound : i * (2 * k) + j < 2 * k * (2 * k) := by
    have h1 : (i + 1) * (2 * k) ≤ 2 * k * (2 * k) := Nat.mul_le_mul_right (2 * k) hi
    have h2 : (i + 1) * (2 * k) = i * (2 * k) + 2 * k := by ring
    omega
  -- the four patches, as sets of indices
  have f4 : ∀ a b, a < k → b < k → k + a * (2 * k) + b = a * (2 * k) + (k + b) := by
    intro a b _ _; omega
  have f3 : ∀ a b, a < k → b < k → 2 * k * k + a * (2 * k) + b = (k + a) * (2 * k) + b := by
    intro a b _ _; ring
  have f2 : ∀ a b, a < k → b < k →
      2 * k * k + k + a * (2 * k) + b = (k + a) * (2 * k) + (k + b) := by
    intro a b _ _; ring
  unfold assembled
  simp only []
  by_cases hik : i < k
  · by_cases hjk : j < k
    · -- top-left: written by the first call only
      rw [copy_2d_patch_frame, copy_2d_patch_frame, copy_2d_patch_frame]
      · have h := copy_2d_patch_inside (List.replicate (2 * k * (2 * k)) (0 : T)) 0 (2 * k) r0 0 k
          k k i j (by omega) hik hjk (by simpa using hbound)
        simp only [Nat.zero_add] at h
        simp [h, hik, hjk]
      · intro a b ha hb h
        rw [f2 a b ha hb] at h
        have := index_unique (2 * k) i j (k + a) (k + b) hj (by omega) h
        omega
      · intro a b ha hb h
        rw [f3 a b ha hb] at h
        have := index_unique (2 * k) i j (k + a) b hj (by omega) h
        omega
      · intro a b ha hb h
        rw [f4 a b ha hb] at h
        have := index_unique (2 * k) i j a (k + b) hj (by omega) h
        omega
    · -- top-right: written by the fourth call
      have hx : i * (2 * k) + j = k + i * (2 * k) + (j - k) := by omega
      rw [hx, copy_2d_patch_inside _ _ _ _ _ _ _ _ _ _ (by omega) hik (by omega)
        (by simp only [copy_2d_patch_length, List.length_replicate]; omega)]
      simp [hik, hjk]
  · obtain ⟨a, rfl⟩ : ∃ a, i = k + a := ⟨i - k, by omega⟩
    have hak : a < k := by omega
    by_cases hjk : j < k
    · -- bottom-left: written by the third call
      rw [copy_2d_patch_frame]
      · have hx : (k + a) * (2 * k) + j = 2 * k * k + a * (2 * k) + j := by ring
        rw [hx, copy_2d_patch_inside _ _ _ _ _ _ _ _ _ _ (by omega) hak hjk
          (by simp only [copy_2d_patch_length, List.length_replicate]; omega)]
        simp [hik, hjk]
      · intro a2 b ha hb h
        rw [f4 a2 b ha hb] at h
        have := index_unique (2 * k) (k + a) j a2 (k + b) hj (by omega) h
        omega
    · -- bottom-right: written by the second call
      rw [copy_2d_patch_frame, copy_2d_patch_frame]
      · have hx : (k + a) * (2 * k) + j = 2 * k * k + k + a * (2 * k) + (j - k) := by
          have : (k + a) * (2 * k) = 2 * k * k + a * (2 * k) := by ring
          omega
        rw [hx, copy_2d_patch_inside _ _ _ _ _ _ _ _ _ _ (by omega) hak (by omega)
          (by simp only [copy_2d_patch_length, List.length_replicate]; omega)]
        simp [hik, hjk]
      · intro a2 b ha hb h
        rw [f3 a2 b ha hb] at h
        have := index_unique (2 * k) (k + a) j (k + a2) b hj (by omega) h
        omega
      · intro a2 b ha hb h
        rw [f4 a2 b ha hb] at h
        have := index_unique (2 * k) (k + a) j a2 (k + b) hj (by omega) h
        omega

end PrimitiveLemmas

/-! ## Properties of the keyed cache -/

section CacheLemmas

variable {V : Type}

theorem SimpleCache.getptr_set_self (c : SimpleCache V) (n l : Int) (v : V) :
    (c.set n l v).getptr n l = some v := by
  simp [SimpleCache.set, SimpleCache.getptr]

theorem SimpleCache.getptr_set_ne (c : SimpleCache V) (n l n2 l2 : Int) (v : V)
    (h : (n, l) ≠ (n2, l2)) : (c.set n l v).getptr n2 l2 = c.getptr n2 l2 := by
  simp [SimpleCache.set, SimpleCache.getptr, h]

theorem SimpleCache.extends_refl (c : SimpleCache V) : c.Extends c := fun _ _ _ h => h

theorem SimpleCache.extends_trans {c d e : SimpleCache V} (h1 : e.Extends d)
    (h2 : d.Extends c) : e.Extends c := fun n l v h => h1 n l v (h2 n l v h)

theorem SimpleCache.extends_set (c : SimpleCache V) (n l : Int) (v : V)
    (h : c.getptr n l = none) : (c.set n l v).Extends c := by
  intro n2 l2 w hw
  by_cases hk : (n, l) = (n2, l2)
  · cases hk
    rw [h] at hw
    cases hw
  · rw [SimpleCache.getptr_set_ne c n l n2 l2 v hk]
    exact hw

theorem SimpleCache.extends_set_of_extends {c d : SimpleCache V} (hdc : d.Extends c)
    (n l : Int) (v : V) (h : c.getptr n l = none) : (d.set n l v).Extends c := by
  intro n2 l2 w hw
  by_cases hk : (n, l) = (n2, l2)
  · cases hk
    rw [h] at hw
    cases hw
  · rw [SimpleCache.getptr_set_ne d n l n2 l2 v hk]
    exact hdc n2 l2 w hw

theorem SimpleCache.getptr_eq_none_iff (c : SimpleCache V) (n l : Int) :
    c.getptr n l = none ↔ (n, l) ∉ c.keys := by
  induction c with
  | nil => simp [SimpleCache.getptr, SimpleCache.keys]
  | cons e rest ih =>
    obtain ⟨key, v⟩ := e
    simp only [SimpleCache.getptr, SimpleCache.keys, List.map_cons, List.mem_cons, not_or]
    by_cases hk : key = (n, l)
    · simp [hk]
    · have hk2 : ¬ (n, l) = key := fun h => hk h.symm
      simp only [hk, if_false, hk2, not_false_eq_true, true_and]
      exact ih

theorem SimpleCache.nodup_set (c : SimpleCache V) (n l : Int) (v : V)
    (h : c.getptr n l = none) (hc : c.keys.Nodup) : (c.set n l v).keys.Nodup := by
  have := (SimpleCache.getptr_eq_none_iff c n l).1 h
  simp only [SimpleCache.set, SimpleCache.keys, List.map_cons, List.nodup_cons]
  exact ⟨this, hc⟩

end CacheLemmas

/-! ## Properties of `get_rnlp` -/

section OperatorLemmas

variable {K : Type} [LinearOrderedField K]

theorem get_rnlp_hit (lib : TensorLib K) (op : Convolution1D K) (n l : Int) (s : Caches K)
    (p : Tensor K) (h : s.rnlp_cache.getptr n l = some p) :
    get_rnlp lib op n l s = (p, s) := by
  rw [get_rnlp]
  simp only [h]

theorem get_rnlp_miss (lib : TensorLib K) (op : Convolution1D K) (n l : Int) (s : Caches K)
    (h : s.rnlp_cache.getptr n l = none) :
    get_rnlp lib op n l s =
      ((rnlp_compute lib op n l s).1,
        { (rnlp_compute lib op n l s).2 with
          rnlp_cache := (rnlp_compute lib op n l s).2.rnlp_cache.set n l
            (rnlp_compute lib op n l s).1 }) := by
  rw [get_rnlp]
  simp only [h, SimpleCache.getptr_set_self, deref, Option.getD_some]
  unfold rnlp_compute
  by_cases h1 : op.issmall n l = true
  · simp [h1]
  · by_cases h2 : n < op.natural_level
    · simp [h1, h2]
    · simp [h1, h2]

theorem rnlp_value_small (lib : TensorLib K) (op : Convolution1D K) (n l : Int)
    (h : op.issmall n l = true) : rnlp_value lib op n l = Tensor.zeros1 (2 * op.k) := by
  rw [rnlp_value.eq_def lib op n l]
  simp [h]

theorem rnlp_value_direct (lib : TensorLib K) (op : Convolution1D K) (n l : Int)
    (h1 : ¬ op.issmall n l = true) (h2 : ¬ n < op.natural_level) :
    rnlp_value lib op n l = op.rnlp n l := by
  rw [rnlp_value.eq_def lib op n l]
  simp [h1, h2]

theorem rnlp_value_rec (lib : TensorLib K) (op : Convolution1D K) (n l : Int)
    (h1 : ¬ op.issmall n l = true) (h2 : n < op.natural_level) :
    rnlp_value lib op n l =
      (lib.transform
        (((Tensor.zeros1 (2 * (2 * op.k))).sliceAssign 0 (2 * op.k - 1)
            (rnlp_value lib op (n + 1) (2 * l))).sliceAssign (2 * op.k) (2 * (2 * op.k) - 1)
            (rnlp_value lib op (n + 1) (2 * l + 1)))
        op.hgT2k).sliceCopy 0 (2 * op.k - 1) := by
  rw [rnlp_value.eq_def lib op n l]
  simp [h1, h2]

theorem rnlp_compute_post (lib : TensorLib K) (op : Convolution1D K) (n l : Int)
    (s : Caches K)
    (ih : n < op.natural_level → ∀ l2 s2,
      RnlpPost lib op (n + 1) l2 s2 (get_rnlp lib op (n + 1) l2 s2)) :
    (rnlp_compute lib op n l s).2.rnlij_cache = s.rnlij_cache ∧
    (rnlp_compute lib op n l s).2.ns_cache = s.ns_cache ∧
    (rnlp_compute lib op n l s).2.rnlp_cache.Extends s.rnlp_cache ∧
    (∀ n2 l2, n2 ≤ n → s.rnlp_cache.getptr n2 l2 = none →
      (rnlp_compute lib op n l s).2.rnlp_cache.getptr n2 l2 = none) ∧
    (s.rnlp_cache.keys.Nodup → (rnlp_compute lib op n l s).2.rnlp_cache.keys.Nodup) ∧
    ((∀ n2 l2 v, s.rnlp_cache.getptr n2 l2 = some v → v = rnlp_value lib op n2 l2) →
      (∀ n2 l2 v, (rnlp_compute lib op n l s).2.rnlp_cache.getptr n2 l2 = some v →
        v = rnlp_value lib op n2 l2) ∧
      (rnlp_compute lib op n l s).1 = rnlp_value lib op n l) ∧
    (∃ added, (rnlp_compute lib op n l s).2.kernel_calls = s.kernel_calls ++ added ∧
      ∀ e ∈ added, op.natural_level ≤ e.1) := by
  unfold rnlp_compute
  by_cases h1 : op.issmall n l = true
  · rw [if_pos h1]
    refine ⟨rfl, rfl, SimpleCache.extends_refl _, fun _ _ _ h => h, id, ?_, ⟨[], by simp⟩⟩
    intro hc
    exact ⟨hc, (rnlp_value_small lib op n l h1).symm⟩
  · by_cases h2 : n < op.natural_level
    · rw [if_neg h1, if_pos h2]
      have pa := ih h2 (2 * l) s
      have pb := ih h2 (2 * l + 1) (get_rnlp lib op (n + 1) (2 * l) s).2
      refine ⟨pb.rnlij_eq.trans pa.rnlij_eq, pb.ns_eq.trans pa.ns_eq, SimpleCache.extends_trans pb.ext pa.ext,
        ?_, fun h => pb.nodup (pa.nodup h), ?_, ?_⟩
      · intro n2 l2 hn hnone
        exact pb.below n2 l2 (by omega) (pa.below n2 l2 (by omega) hnone)
      · intro hc
        obtain ⟨ca, ea⟩ := pa.value hc
        obtain ⟨cb, eb⟩ := pb.value ca
        refine ⟨cb, ?_⟩
        rw [rnlp_value_rec lib op n l h1 h2]
        simp only [ea, eb]
      · obtain ⟨xa, ha, hxa⟩ := pa.calls
        obtain ⟨xb, hb, hxb⟩ := pb.calls
        refine ⟨xa ++ xb, by simp only [hb, ha, List.append_assoc], ?_⟩
        intro e he
        rcases List.mem_append.1 he with h | h
        · exact hxa e h
        · exact hxb e h
    · rw [if_neg h1, if_neg h2]
      refine ⟨rfl, rfl, SimpleCache.extends_refl _, fun _ _ _ h => h, id, ?_, ⟨[(n, l)], rfl, ?_⟩⟩
      · intro hc
        exact ⟨hc, (rnlp_value_direct lib op n l h1 h2).symm⟩
      · intro e he
        simp only [List.mem_singleton] at he
        subst he
        simpa using h2

theorem get_rnlp_post_step (lib : TensorLib K) (op : Convolution1D K) (n l : Int)
    (s : Caches K)
    (ih : n < op.natural_level → ∀ l2 s2,
      RnlpPost lib op (n + 1) l2 s2 (get_rnlp lib op (n + 1) l2 s2)) :
    RnlpPost lib op n l s (get_rnlp lib op n l s) := by
  cases hget : s.rnlp_cache.getptr n l with
  | some p =>
    rw [get_rnlp_hit lib op n l s p hget]
    exact ⟨rfl, rfl, hget, SimpleCache.extends_refl _, fun _ _ _ h => h, id,
      fun hc => ⟨hc, hc n l p hget⟩, ⟨[], by simp⟩⟩
  | none =>
    rw [get_rnlp_miss lib op n l s hget]
    obtain ⟨k1, k2, k3, k4, k5, k6, k7⟩ := rnlp_compute_post lib op n l s ih
    refine ⟨k1, k2, SimpleCache.getptr_set_self _ _ _ _,
      SimpleCache.extends_set_of_extends k3 n l _ hget, ?_, ?_, ?_, k7⟩
    · intro n2 l2 hn hnone
      have hk : (n, l) ≠ (n2, l2) := by
        intro h; cases h; omega
      show (SimpleCache.set _ n l _).getptr n2 l2 = none
      rw [SimpleCache.getptr_set_ne _ n l n2 l2 _ hk]
      exact k4 n2 l2 (by omega) hnone
    · intro hnd
      exact SimpleCache.nodup_set _ n l _ (k4 n l (le_refl n) hget) (k5 hnd)
    · intro hc
      obtain ⟨c1, e1⟩ := k6 hc
      refine ⟨?_, e1⟩
      intro n2 l2 v hv
      by_cases hk : (n, l) = (n2, l2)
      · cases hk
        have hv2 : (SimpleCache.set (rnlp_compute lib op n l s).2.rnlp_cache n l
            (rnlp_compute lib op n l s).1).getptr n l = some v := hv
        rw [SimpleCache.getptr_set_self] at hv2
        cases hv2
        exact e1
      · have hv2 : (SimpleCache.set (rnlp_compute lib op n l s).2.rnlp_cache n l
            (rnlp_compute lib op n l s).1).getptr n2 l2 = some v := hv
        rw [SimpleCache.getptr_set_ne _ n l n2 l2 _ hk] at hv2
        exact c1 n2 l2 v hv2

theorem get_rnlp_post (lib : TensorLib K) (op : Convolution1D K) (n l : Int) (s : Caches K) :
    RnlpPost lib op n l s (get_rnlp lib op n l s) := by
  have aux : ∀ (d : Nat) (n l : Int) (s : Caches K), (op.natural_level - n).toNat ≤ d →
      RnlpPost lib op n l s (get_rnlp lib op n l s) := by
    intro d
    induction d with
    | zero =>
      intro n l s hd
      exact get_rnlp_post_step lib op n l s (fun h => by omega)
    | succ d ih =>
      intro n l s hd
      exact get_rnlp_post_step lib op n l s (fun _ l2 s2 => ih (n + 1) l2 s2 (by omega))
  exact aux _ n l s (le_refl _)

theorem Caches.grows_refl (lib : TensorLib K) (op : Convolution1D K) (s : Caches K) :
    Caches.Grows lib op s s :=
  ⟨⟨SimpleCache.extends_refl _, SimpleCache.extends_refl _, SimpleCache.extends_refl _⟩,
    id, id, id, id, ⟨[], by simp⟩⟩

theorem Caches.grows_trans {lib : TensorLib K} {op : Convolution1D K} {u t s : Caches K}
    (h1 : Caches.Grows lib op u t) (h2 : Caches.Grows lib op t s) : Caches.Grows lib op u s := by
  refine ⟨⟨SimpleCache.extends_trans h1.ext.1 h2.ext.1, SimpleCache.extends_trans h1.ext.2.1 h2.ext.2.1,
      SimpleCache.extends_trans h1.ext.2.2 h2.ext.2.2⟩,
    fun h => h1.nodup_rnlp (h2.nodup_rnlp h), fun h => h1.nodup_rnlij (h2.nodup_rnlij h),
    fun h => h1.nodup_ns (h2.nodup_ns h), fun h => h1.consistent (h2.consistent h), ?_⟩
  obtain ⟨xa, ha, hxa⟩ := h2.calls
  obtain ⟨xb, hb, hxb⟩ := h1.calls
  refine ⟨xa ++ xb, by simp only [hb, ha, List.append_assoc], ?_⟩
  intro e he
  rcases List.mem_append.1 he with h | h
  · exact hxa e h
  · exact hxb e h

theorem get_rnlp_grows (lib : TensorLib K) (op : Convolution1D K) (n l : Int) (s : Caches K) :
    Caches.Grows lib op (get_rnlp lib op n l s).2 s := by
  have p := get_rnlp_post lib op n l s
  refine ⟨⟨p.ext, ?_, ?_⟩, p.nodup, ?_, ?_, ?_, p.calls⟩
  · rw [p.rnlij_eq]; exact SimpleCache.extends_refl _
  · rw [p.ns_eq]; exact SimpleCache.extends_refl _
  · rw [p.rnlij_eq]; exact id
  · rw [p.ns_eq]; exact id
  · intro hc
    refine ⟨(p.value hc.1).1, ?_, ?_⟩
    · rw [p.rnlij_eq]; exact hc.2.1
    · rw [p.ns_eq]; exact hc.2.2

theorem get_rnlp_value (lib : TensorLib K) (op : Convolution1D K) (n l : Int) (s : Caches K)
    (hc : Consistent lib op s) : (get_rnlp lib op n l s).1 = rnlp_value lib op n l :=
  ((get_rnlp_post lib op n l s).value hc.1).2

/-! ## Properties of `rnlij` -/

theorem rnlij_hit (lib : TensorLib K) (op : Convolution1D K) (n l : Int) (s : Caches K)
    (p : Tensor K) (h : s.rnlij_cache.getptr n l = some p) :
    rnlij lib op n l s = (p, s) := by
  unfold rnlij
  simp only [h]

theorem rnlij_post (lib : TensorLib K) (op : Convolution1D K) (n l : Int) (s : Caches K) :
    RnlijPost lib op n l s (rnlij lib op n l s) := by
  cases hget : s.rnlij_cache.getptr n l with
  | some p =>
    rw [rnlij_hit lib op n l s p hget]
    exact ⟨Caches.grows_refl lib op s, rfl, hget, fun hc => hc.2.1 n l p hget⟩
  | none =>
    have pa := get_rnlp_post lib op n (l - 1) s
    have ga := get_rnlp_grows lib op n (l - 1) s
    have pb := get_rnlp_post lib op n l (get_rnlp lib op n (l - 1) s).2
    have gb := get_rnlp_grows lib op n l (get_rnlp lib op n (l - 1) s).2
    have gab := Caches.grows_trans gb ga
    have hij : (get_rnlp lib op n l (get_rnlp lib op n (l - 1) s).2).2.rnlij_cache
        = s.rnlij_cache := pb.rnlij_eq.trans pa.rnlij_eq
    have hval : Consistent lib op s →
        lib.inner op.c
          ((((Tensor.zeros1 (2 * (2 * op.k))).sliceAssign 0 (2 * op.k - 1)
            (get_rnlp lib op n (l - 1) s).1).sliceAssign (2 * op.k) (2 * (2 * op.k) - 1)
            (get_rnlp lib op n l (get_rnlp lib op n (l - 1) s).2).1).scale
            (lib.pow (1 / 2) (1 / 2 * (n : K))))
        = rnlij_value lib op n l := by
      intro hc
      rw [get_rnlp_value lib op n (l - 1) s hc,
        get_rnlp_value lib op n l _ (ga.consistent hc)]
      rfl
    unfold rnlij
    simp only [hget, SimpleCache.getptr_set_self, deref, Option.getD_some]
    refine ⟨⟨⟨gab.ext.1, ?_, gab.ext.2.2⟩, gab.nodup_rnlp, ?_, gab.nodup_ns, ?_, gab.calls⟩,
      pb.ns_eq.trans pa.ns_eq, SimpleCache.getptr_set_self _ _ _ _, hval⟩
    · show (SimpleCache.set _ n l _).Extends s.rnlij_cache
      rw [hij]
      exact SimpleCache.extends_set _ n l _ hget
    · intro hnd
      show (SimpleCache.set _ n l _).keys.Nodup
      rw [hij]
      exact SimpleCache.nodup_set _ n l _ hget hnd
    · intro hc
      have hc2 := gab.consistent hc
      refine ⟨hc2.1, ?_, hc2.2.2⟩
      intro n2 l2 v hv
      simp only [hij] at hv
      by_cases hk : (n, l) = (n2, l2)
      · cases hk
        rw [SimpleCache.getptr_set_self] at hv
        cases hv
        exact hval hc
      · rw [SimpleCache.getptr_set_ne _ n l n2 l2 _ hk] at hv
        exact hc.2.1 n2 l2 v hv

theorem rnlij_value_eq (lib : TensorLib K) (op : Convolution1D K) (n l : Int) (s : Caches K)
    (hc : Consistent lib op s) : (rnlij lib op n l s).1 = rnlij_value lib op n l :=
  (rnlij_post lib op n l s).value hc

/-! ## Properties of `nonstandard` -/

theorem quadrants_p (k : Nat) (r0 rp rm : Tensor K) :
    (quadrants k r0 rp rm).p = assembled k r0.p rp.p rm.p := by
  apply List.ext_getElem?
  intro x
  unfold quadrants
  simp only [List.getElem?_map]
  by_cases hx : x < 2 * k * (2 * k)
  · have hk : 0 < 2 * k := by
      rcases Nat.eq_zero_or_pos (2 * k) with h | h
      · rw [h] at hx; simp at hx
      · exact h
    have hi : x / (2 * k) < 2 * k := by
      rw [Nat.div_lt_iff_lt_mul hk]; exact hx
    have hj : x % (2 * k) < 2 * k := Nat.mod_lt x hk
    have hsplit : x = x / (2 * k) * (2 * k) + x % (2 * k) := by
      have := Nat.div_add_mod x (2 * k)
      rw [Nat.mul_comm] at this
      exact this.symm
    rw [List.getElem?_range hx]
    conv_rhs => rw [hsplit]
    rw [assembled_at k r0.p rp.p rm.p _ _ hi hj]
    rfl
  · rw [List.getElem?_eq_none (by simp; omega)]
    rw [List.getElem?_eq_none (by rw [assembled_length]; omega)]
    rfl

theorem corner_patch (k : Nat) (Rp : List K) :
    copy_2d_patch (List.replicate (k * k) (0 : K)) 0 k Rp 0 (2 * k) k k
      = (List.range (k * k)).map (fun idx => Rp.getD ((idx / k) * (2 * k) + idx % k) 0) := by
  apply List.ext_getElem?
  intro x
  simp only [List.getElem?_map]
  by_cases hx : x < k * k
  · have hk : 0 < k := by
      rcases Nat.eq_zero_or_pos k with h | h
      · rw [h] at hx; simp at hx
      · exact h
    have hi : x / k < k := by
      rw [Nat.div_lt_iff_lt_mul hk]; exact hx
    have hj : x % k < k := Nat.mod_lt x hk
    have hsplit : x = 0 + x / k * k + x % k := by
      have := Nat.div_add_mod x k
      rw [Nat.mul_comm] at this
      omega
    rw [List.getElem?_range hx]
    conv_lhs => rw [hsplit]
    rw [copy_2d_patch_inside _ 0 k Rp 0 (2 * k) k k (x / k) (x % k) (le_refl k) hi hj
      (by simp only [List.length_replicate]; omega)]
    simp
  · have h1 : (copy_2d_patch (List.replicate (k * k) (0 : K)) 0 k Rp 0 (2 * k) k k)[x]? = none :=
      List.getElem?_eq_none (by rw [copy_2d_patch_length]; simp; omega)
    have h2 : (List.range (k * k))[x]? = none := List.getElem?_eq_none (by simp; omega)
    rw [h1, h2]
    rfl

theorem nonstandard_block_value (lib : TensorLib K) (op : Convolution1D K) (n l : Int)
    (s : Caches K) (hc : Consistent lib op s) (hs : op.issmall n l = false) :
    (nonstandard_block lib op n l s).1 = ns_tensors lib op n l := by
  have p0 := rnlij_post lib op (n + 1) (l * 2) s
  have p1 := rnlij_post lib op (n + 1) (l * 2 + 1) (rnlij lib op (n + 1) (l * 2) s).2
  have p2 := rnlij_post lib op (n + 1) (l * 2 - 1)
    (rnlij lib op (n + 1) (l * 2 + 1) (rnlij lib op (n + 1) (l * 2) s).2).2
  have c0 := p0.grows.consistent hc
  have c1 := p1.grows.consistent c0
  have e0 := p0.value hc
  have e1 := p1.value c0
  have e2 := p2.value c1
  unfold nonstandard_block ns_tensors
  simp only [hs, Bool.false_eq_true, if_false, e0, e1, e2, Tensor.zeros2]
  have hA := quadrants_p op.k (rnlij_value lib op (n + 1) (l * 2))
    (rnlij_value lib op (n + 1) (l * 2 + 1)) (rnlij_value lib op (n + 1) (l * 2 - 1))
  unfold assembled at hA
  simp only [] at hA
  have hQ : (⟨[2 * op.k, 2 * op.k],
      copy_2d_patch
        (copy_2d_patch
          (copy_2d_patch
            (copy_2d_patch (List.replicate (2 * op.k * (2 * op.k)) 0) 0 (2 * op.k)
              (rnlij_value lib op (n + 1) (l * 2)).p 0 op.k op.k op.k)
            (2 * op.k * op.k + op.k) (2 * op.k) (rnlij_value lib op (n + 1) (l * 2)).p 0 op.k
            op.k op.k)
          (2 * op.k * op.k) (2 * op.k) (rnlij_value lib op (n + 1) (l * 2 + 1)).p 0 op.k op.k
          op.k)
        op.k (2 * op.k) (rnlij_value lib op (n + 1) (l * 2 - 1)).p 0 op.k op.k op.k⟩ : Tensor K)
      = quadrants op.k (rnlij_value lib op (n + 1) (l * 2))
          (rnlij_value lib op (n + 1) (l * 2 + 1)) (rnlij_value lib op (n + 1) (l * 2 - 1)) := by
    rw [← hA]
    rfl
  rw [hQ, fast_transpose_eq_transpose_flat _ _ _ _ (by simp), corner_patch]

theorem nonstandard_block_grows (lib : TensorLib K) (op : Convolution1D K) (n l : Int)
    (s : Caches K) :
    Caches.Grows lib op (nonstandard_block lib op n l s).2 s ∧
    (nonstandard_block lib op n l s).2.ns_cache = s.ns_cache := by
  have p0 := rnlij_post lib op (n + 1) (l * 2) s
  have p1 := rnlij_post lib op (n + 1) (l * 2 + 1) (rnlij lib op (n + 1) (l * 2) s).2
  have p2 := rnlij_post lib op (n + 1) (l * 2 - 1)
    (rnlij lib op (n + 1) (l * 2 + 1) (rnlij lib op (n + 1) (l * 2) s).2).2
  unfold nonstandard_block
  exact ⟨Caches.grows_trans (Caches.grows_trans p2.grows p1.grows) p0.grows,
    (p2.ns_eq.trans p1.ns_eq).trans p0.ns_eq⟩

/-- The tensors handed to the constructor on a miss, and the caches at that point. -/
theorem ns_inputs_post (lib : TensorLib K) (op : Convolution1D K) (n l : Int) (s : Caches K)
    (rt : (Tensor K × Tensor K) × Caches K)
    (hrt : rt = if (!op.issmall n l) = true then nonstandard_block lib op n l s
      else ((Tensor.empty, Tensor.empty), s)) :
    Caches.Grows lib op rt.2 s ∧ rt.2.ns_cache = s.ns_cache ∧
    (Consistent lib op s → rt.1 = ns_tensors lib op n l) := by
  cases hs : op.issmall n l with
  | true =>
    simp only [hs, Bool.not_true, Bool.false_eq_true, if_false] at hrt
    subst hrt
    refine ⟨Caches.grows_refl lib op s, rfl, fun _ => ?_⟩
    unfold ns_tensors
    simp [hs]
  | false =>
    simp only [hs, Bool.not_false, if_true] at hrt
    subst hrt
    exact ⟨(nonstandard_block_grows lib op n l s).1, (nonstandard_block_grows lib op n l s).2,
      fun hc => nonstandard_block_value lib op n l s hc hs⟩

theorem nonstandard_hit (lib : TensorLib K) (op : Convolution1D K) (n l : Int) (s : Caches K)
    (p : ConvolutionData1D K) (h : s.ns_cache.getptr n l = some p) :
    nonstandard lib op n l s = (p, s) := by
  unfold nonstandard
  simp only [h]

theorem nonstandard_post (lib : TensorLib K) (op : Convolution1D K) (n l : Int)
    (s : Caches K) : NsPost lib op n l s (nonstandard lib op n l s) := by
  cases hget : s.ns_cache.getptr n l with
  | some p =>
    rw [nonstandard_hit lib op n l s p hget]
    exact ⟨Caches.grows_refl lib op s, hget, fun hc => hc.2.2 n l p hget⟩
  | none =>
    obtain ⟨g, hns, hval⟩ := ns_inputs_post lib op n l s _ rfl
    unfold nonstandard
    simp only [hget, SimpleCache.getptr_set_self, deref, Option.getD_some]
    have hv2 : Consistent lib op s → ConvolutionData1D.new lib
        (if (!op.issmall n l) = true then nonstandard_block lib op n l s
          else ((Tensor.empty, Tensor.empty), s)).1.1
        (if (!op.issmall n l) = true then nonstandard_block lib op n l s
          else ((Tensor.empty, Tensor.empty), s)).1.2 = ns_value lib op n l := by
      intro hc
      rw [hval hc]
      rfl
    refine ⟨⟨⟨g.ext.1, g.ext.2.1, ?_⟩, g.nodup_rnlp, g.nodup_rnlij, ?_, ?_, g.calls⟩,
      SimpleCache.getptr_set_self _ _ _ _, hv2⟩
    · show (SimpleCache.set _ n l _).Extends s.ns_cache
      rw [hns]
      exact SimpleCache.extends_set _ n l _ hget
    · intro hnd
      show (SimpleCache.set _ n l _).keys.Nodup
      rw [hns]
      exact SimpleCache.nodup_set _ n l _ hget hnd
    · intro hc
      have hc2 := g.consistent hc
      refine ⟨hc2.1, hc2.2.1, ?_⟩
      intro n2 l2 v hv
      simp only [hns] at hv
      by_cases hk : (n, l) = (n2, l2)
      · cases hk
        rw [SimpleCache.getptr_set_self] at hv
        cases hv
        exact hv2 hc
      · rw [SimpleCache.getptr_set_ne _ n l n2 l2 _ hk] at hv
        exact hc.2.2 n2 l2 v hv

theorem nonstandard_value_eq (lib : TensorLib K) (op : Convolution1D K) (n l : Int)
    (s : Caches K) (hc : Consistent lib op s) :
    (nonstandard lib op n l s).1 = ns_value lib op n l :=
  (nonstandard_post lib op n l s).value hc

/-! ## Reachable states -/

theorem consistent_fresh (lib : TensorLib K) (op : Convolution1D K) :
    Consistent lib op (Caches.fresh : Caches K) := by
  refine ⟨?_, ?_, ?_⟩ <;> intro n l v h <;> simp [Caches.fresh, SimpleCache.getptr] at h

theorem Reachable.consistent {lib : TensorLib K} {op : Convolution1D K} {s : Caches K}
    (h : Reachable lib op s) : Consistent lib op s := by
  induction h with
  | fresh => exact consistent_fresh lib op
  | get_rnlp n l s _ ih => exact (get_rnlp_grows lib op n l s).consistent ih
  | rnlij n l s _ ih => exact (rnlij_post lib op n l s).grows.consistent ih
  | nonstandard n l s _ ih => exact (nonstandard_post lib op n l s).grows.consistent ih

theorem Reachable.nodup {lib : TensorLib K} {op : Convolution1D K} {s : Caches K}
    (h : Reachable lib op s) :
    s.rnlp_cache.keys.Nodup ∧ s.rnlij_cache.keys.Nodup ∧ s.ns_cache.keys.Nodup := by
  induction h with
  | fresh => simp [Caches.fresh, SimpleCache.keys]
  | get_rnlp n l s _ ih =>
    have g := get_rnlp_grows lib op n l s
    exact ⟨g.nodup_rnlp ih.1, g.nodup_rnlij ih.2.1, g.nodup_ns ih.2.2⟩
  | rnlij n l s _ ih =>
    have g := (rnlij_post lib op n l s).grows
    exact ⟨g.nodup_rnlp ih.1, g.nodup_rnlij ih.2.1, g.nodup_ns ih.2.2⟩
  | nonstandard n l s _ ih =>
    have g := (nonstandard_post lib op n l s).grows
    exact ⟨g.nodup_rnlp ih.1, g.nodup_rnlij ih.2.1, g.nodup_ns ih.2.2⟩

theorem new_R (lib : TensorLib K) (R T : Tensor K) : (ConvolutionData1D.new lib R T).R = R := by
  unfold ConvolutionData1D.new
  simp only []
  split <;> rfl

theorem new_T (lib : TensorLib K) (R T : Tensor K) : (ConvolutionData1D.new lib R T).T = T := by
  unfold ConvolutionData1D.new
  simp only []
  split <;> rfl

theorem new_small (lib : TensorLib K) (R T : Tensor K) (h : lib.normf R ≤ tiny) :
    ConvolutionData1D.new lib R T =
      { R := R, T := T, RU := Tensor.empty, RVT := Tensor.empty, TU := Tensor.empty,
        TVT := Tensor.empty, Rs := Tensor.empty, Ts := Tensor.empty,
        Rnorm := 0, Tnorm := 0, Rnormf := 0, Tnormf := 0, NSnormf := 0 } := by
  unfold ConvolutionData1D.new
  simp only []
  rw [if_neg (not_lt.2 h)]

theorem transpose_flat_at {T : Type} [Zero T] (n m : Nat) (a : List T) (i j : Nat)
    (hi : i < n) (hj : j < m) :
    (transpose_flat n m a)[j * n + i]? = some (a.getD (i * m + j) 0) := by
  have hlt : j * n + i < m * n := by
    have h1 : (j + 1) * n ≤ m * n := Nat.mul_le_mul_right n hj
    have h2 : (j + 1) * n = j * n + n := by ring
    omega
  have hs := (index_split n i j (j * n + i) hi).1 rfl
  unfold transpose_flat
  rw [List.getElem?_map, List.getElem?_range hlt]
  simp only [Option.map_some', hs.1, hs.2]

theorem transpose_flat_length {T : Type} [Zero T] (n m : Nat) (a : List T) :
    (transpose_flat n m a).length = m * n := by
  simp [transpose_flat]

theorem ns_tensors_not_small (lib : TensorLib K) (op : Convolution1D K) (n l : Int)
    (h : op.issmall n l = false) :
    (ns_tensors lib op n l).1 = ⟨[2 * op.k, 2 * op.k],
      transpose_flat (2 * op.k) (2 * op.k)
        (lib.transform (quadrants op.k (rnlij_value lib op (n + 1) (l * 2))
          (rnlij_value lib op (n + 1) (l * 2 + 1)) (rnlij_value lib op (n + 1) (l * 2 - 1)))
          op.hgT).p⟩ ∧
    (ns_tensors lib op n l).2 = ⟨[op.k, op.k], (List.range (op.k * op.k)).map (fun idx =>
      (ns_tensors lib op n l).1.p.getD ((idx / op.k) * (2 * op.k) + idx % op.k) 0)⟩ := by
  unfold ns_tensors
  simp [h]

theorem ns_tensors_small (lib : TensorLib K) (op : Convolution1D K) (n l : Int)
    (h : op.issmall n l = true) : ns_tensors lib op n l = (Tensor.empty, Tensor.empty) := by
  unfold ns_tensors
  simp [h]

theorem zeros_assign_assign (k : Nat) (hk : 0 < k) (A B : Tensor K)
    (hA : A.p.length = 2 * k) (hB : B.p.length = 2 * k) :
    ((Tensor.zeros1 (2 * (2 * k))).sliceAssign 0 (2 * k - 1) A).sliceAssign (2 * k)
        (2 * (2 * k) - 1) B
      = ⟨[2 * (2 * k)], A.p ++ B.p⟩ := by
  have hmap : ∀ (l : List K) (m : Nat), l.length = m →
      (List.range m).map (fun i => l.getD i 0) = l := by
    intro l m hl
    apply List.ext_getElem?
    intro x
    rw [List.getElem?_map]
    by_cases hx : x < m
    · rw [List.getElem?_range hx]
      simp only [Option.map_some', List.getD_eq_getElem?_getD]
      rw [List.getElem?_eq_getElem (by omega)]
      rfl
    · rw [List.getElem?_eq_none (by simp; omega), List.getElem?_eq_none (by omega)]
      rfl
  have e1 : 2 * k - 1 + 1 - 0 = 2 * k := by omega
  have e2 : 2 * (2 * k) - 1 + 1 - 2 * k = 2 * k := by omega
  have e3 : 2 * (2 * k) - 1 + 1 = 2 * (2 * k) := by omega
  have e4 : 2 * k - 1 + 1 = 2 * k := by omega
  have step1 : (Tensor.zeros1 (2 * (2 * k)) : Tensor K).sliceAssign 0 (2 * k - 1) A
      = ⟨[2 * (2 * k)], A.p ++ List.replicate (2 * k) 0⟩ := by
    unfold Tensor.sliceAssign Tensor.zeros1
    rw [e1, e4, hmap A.p _ hA]
    congr 1
    rw [List.take_zero, List.nil_append, List.drop_replicate]
    congr 2
    omega
  rw [step1]
  unfold Tensor.sliceAssign
  rw [e2, e3, hmap B.p _ hB]
  congr 1
  rw [List.take_append_of_le_length (by omega), List.take_of_length_le (by omega),
    List.drop_of_length_le (by simp; omega), List.append_nil]

theorem assigned_length (k : Nat) (hk : 0 < k) (A B : Tensor K) :
    (((Tensor.zeros1 (2 * (2 * k)) : Tensor K).sliceAssign 0 (2 * k - 1) A).sliceAssign (2 * k)
        (2 * (2 * k) - 1) B).p.length = 2 * (2 * k) := by
  simp only [Tensor.sliceAssign, Tensor.zeros1, List.length_append, List.length_take,
    List.length_map, List.length_range, List.length_drop, List.length_replicate]
  omega

theorem rnlp_value_length (lib : TensorLib K) (op : Convolution1D K) (hk : 0 < op.k)
    (hkernel : ∀ n l, (op.rnlp n l).p.length = 2 * op.k)
    (htr : ∀ v : Tensor K, v.p.length = 2 * (2 * op.k) →
      (lib.transform v op.hgT2k).p.length = 2 * (2 * op.k))
    (n l : Int) : (rnlp_value lib op n l).p.length = 2 * op.k := by
  by_cases h1 : op.issmall n l = true
  · rw [rnlp_value_small lib op n l h1]
    simp [Tensor.zeros1]
  · by_cases h2 : n < op.natural_level
    · rw [rnlp_value_rec lib op n l h1 h2]
      simp only [Tensor.sliceCopy, List.drop_zero, List.length_take]
      rw [htr _ (assigned_length op.k hk _ _)]
      omega
    · rw [rnlp_value_direct lib op n l h1 h2]
      exact hkernel n l

/-! ## The claims -/

/-- C9: whenever the Frobenius norm of `R` is at most `1e-20`, the constructed
block has `Rnorm`, `Tnorm`, `Rnormf`, `Tnormf` and `NSnormf` equal to 0 and the
six SVD fields `RU`, `Rs`, `RVT`, `TU`, `Ts`, `TVT` empty, and the result does
not depend on `svd` at all (no decomposition is performed). -/
theorem C9_sentinel_norms_and_svd_fields (lib : TensorLib K) (R T : Tensor K)
    (h : lib.normf R ≤ tiny) :
    (ConvolutionData1D.new lib R T).Rnorm = 0 ∧
    (ConvolutionData1D.new lib R T).Tnorm = 0 ∧
    (ConvolutionData1D.new lib R T).Rnormf = 0 ∧
    (ConvolutionData1D.new lib R T).Tnormf = 0 ∧
    (ConvolutionData1D.new lib R T).NSnormf = 0 ∧
    (ConvolutionData1D.new lib R T).RU = Tensor.empty ∧
    (ConvolutionData1D.new lib R T).Rs = Tensor.empty ∧
    (ConvolutionData1D.new lib R T).RVT = Tensor.empty ∧
    (ConvolutionData1D.new lib R T).TU = Tensor.empty ∧
    (ConvolutionData1D.new lib R T).Ts = Tensor.empty ∧
    (ConvolutionData1D.new lib R T).TVT = Tensor.empty ∧
    ∀ svd2 : Tensor K → Tensor K × Tensor K × Tensor K,
      ConvolutionData1D.new { lib with svd := svd2 } R T = ConvolutionData1D.new lib R T := by
  have h0 := new_small lib R T h
  refine ⟨?_, ?_, ?_, ?_, ?_, ?_, ?_, ?_, ?_, ?_, ?_, ?_⟩
  · rw [h0]
  · rw [h0]
  · rw [h0]
  · rw [h0]
  · rw [h0]
  · rw [h0]
  · rw [h0]
  · rw [h0]
  · rw [h0]
  · rw [h0]
  · rw [h0]
  · intro svd2
    rw [h0]
    exact new_small { lib with svd := svd2 } R T h

/-- C9, instance: the zero `2 x 2` block with its zero `1 x 1` corner. -/
theorem C9_sentinel_witness :
    (ConvolutionData1D.new demoLib (Tensor.zeros2 2 2) (Tensor.zeros2 1 1)).Rnorm = 0 ∧
    (ConvolutionData1D.new demoLib (Tensor.zeros2 2 2) (Tensor.zeros2 1 1)).Tnorm = 0 ∧
    (ConvolutionData1D.new demoLib (Tensor.zeros2 2 2) (Tensor.zeros2 1 1)).Rnormf = 0 ∧
    (ConvolutionData1D.new demoLib (Tensor.zeros2 2 2) (Tensor.zeros2 1 1)).Tnormf = 0 ∧
    (ConvolutionData1D.new demoLib (Tensor.zeros2 2 2) (Tensor.zeros2 1 1)).NSnormf = 0 ∧
    (ConvolutionData1D.new demoLib (Tensor.zeros2 2 2) (Tensor.zeros2 1 1)).RU = Tensor.empty ∧
    (ConvolutionData1D.new demoLib (Tensor.zeros2 2 2) (Tensor.zeros2 1 1)).Rs = Tensor.empty ∧
    (ConvolutionData1D.new demoLib (Tensor.zeros2 2 2) (Tensor.zeros2 1 1)).RVT = Tensor.empty ∧
    (ConvolutionData1D.new demoLib (Tensor.zeros2 2 2) (Tensor.zeros2 1 1)).TU = Tensor.empty ∧
    (ConvolutionData1D.new demoLib (Tensor.zeros2 2 2) (Tensor.zeros2 1 1)).Ts = Tensor.empty ∧
    (ConvolutionData1D.new demoLib (Tensor.zeros2 2 2) (Tensor.zeros2 1 1)).TVT = Tensor.empty ∧
    ∀ svd2 : Tensor ℚ → Tensor ℚ × Tensor ℚ × Tensor ℚ,
      ConvolutionData1D.new { demoLib with svd := svd2 } (Tensor.zeros2 2 2) (Tensor.zeros2 1 1)
        = ConvolutionData1D.new demoLib (Tensor.zeros2 2 2) (Tensor.zeros2 1 1) :=
  C9_sentinel_norms_and_svd_fields demoLib (Tensor.zeros2 2 2) (Tensor.zeros2 1 1)
    (by norm_num [demoLib, Tensor.zeros2, tiny])

/-- C6: for each of `get_rnlp`, `rnlij` and `nonstandard`, from any cache state
and for any key, the first call leaves its result stored under the key, and a
second call with the same key returns that stored value and leaves the three
caches and the record of kernel evaluations exactly as they were. -/
theorem C6_second_call_is_a_cache_hit (lib : TensorLib K) (op : Convolution1D K) (n l : Int)
    (s : Caches K) :
    ((get_rnlp lib op n l s).2.rnlp_cache.getptr n l = some (get_rnlp lib op n l s).1 ∧
      get_rnlp lib op n l (get_rnlp lib op n l s).2
        = ((get_rnlp lib op n l s).1, (get_rnlp lib op n l s).2)) ∧
    ((rnlij lib op n l s).2.rnlij_cache.getptr n l = some (rnlij lib op n l s).1 ∧
      rnlij lib op n l (rnlij lib op n l s).2
        = ((rnlij lib op n l s).1, (rnlij lib op n l s).2)) ∧
    ((nonstandard lib op n l s).2.ns_cache.getptr n l = some (nonstandard lib op n l s).1 ∧
      nonstandard lib op n l (nonstandard lib op n l s).2
        = ((nonstandard lib op n l s).1, (nonstandard lib op n l s).2)) := by
  have h1 := (get_rnlp_post lib op n l s).stored
  have h2 := (rnlij_post lib op n l s).stored
  have h3 := (nonstandard_post lib op n l s).stored
  exact ⟨⟨h1, get_rnlp_hit lib op n l _ _ h1⟩, ⟨h2, rnlij_hit lib op n l _ _ h2⟩,
    ⟨h3, nonstandard_hit lib op n l _ _ h3⟩⟩

/-- C7: from every reachable cache state, each of `get_rnlp`, `rnlij` and
`nonstandard` leaves every key that was present in any of the three caches
present with the same value, and no cache ever holds two insertions for one key
(nothing is overwritten). -/
theorem C7_caches_insertion_monotone (lib : TensorLib K) (op : Convolution1D K) (n l : Int)
    (s : Caches K) (hs : Reachable lib op s) :
    ((get_rnlp lib op n l s).2.Extends s ∧
      (get_rnlp lib op n l s).2.rnlp_cache.keys.Nodup ∧
      (get_rnlp lib op n l s).2.rnlij_cache.keys.Nodup ∧
      (get_rnlp lib op n l s).2.ns_cache.keys.Nodup) ∧
    ((rnlij lib op n l s).2.Extends s ∧
      (rnlij lib op n l s).2.rnlp_cache.keys.Nodup ∧
      (rnlij lib op n l s).2.rnlij_cache.keys.Nodup ∧
      (rnlij lib op n l s).2.ns_cache.keys.Nodup) ∧
    ((nonstandard lib op n l s).2.Extends s ∧
      (nonstandard lib op n l s).2.rnlp_cache.keys.Nodup ∧
      (nonstandard lib op n l s).2.rnlij_cache.keys.Nodup ∧
      (nonstandard lib op n l s).2.ns_cache.keys.Nodup) := by
  have g1 := get_rnlp_grows lib op n l s
  have g2 := (rnlij_post lib op n l s).grows
  have g3 := (nonstandard_post lib op n l s).grows
  exact ⟨⟨g1.ext, (Reachable.get_rnlp n l s hs).nodup⟩,
    ⟨g2.ext, (Reachable.rnlij n l s hs).nodup⟩,
    ⟨g3.ext, (Reachable.nonstandard n l s hs).nodup⟩⟩

/-- C7, instance: the unit-Gaussian demo operator, key (5,3), started from the
caches left by `nonstandard(0,0)`. -/
theorem C7_caches_insertion_monotone_witness :
    Reachable demoLib demoGaussian (nonstandard demoLib demoGaussian 0 0 Caches.fresh).2 ∧
    (((get_rnlp demoLib demoGaussian 5 3
          (nonstandard demoLib demoGaussian 0 0 Caches.fresh).2).2.Extends
        (nonstandard demoLib demoGaussian 0 0 Caches.fresh).2 ∧
      (get_rnlp demoLib demoGaussian 5 3
          (nonstandard demoLib demoGaussian 0 0 Caches.fresh).2).2.rnlp_cache.keys.Nodup ∧
      (get_rnlp demoLib demoGaussian 5 3
          (nonstandard demoLib demoGaussian 0 0 Caches.fresh).2).2.rnlij_cache.keys.Nodup ∧
      (get_rnlp demoLib demoGaussian 5 3
          (nonstandard demoLib demoGaussian 0 0 Caches.fresh).2).2.ns_cache.keys.Nodup) ∧
    ((rnlij demoLib demoGaussian 5 3
          (nonstandard demoLib demoGaussian 0 0 Caches.fresh).2).2.Extends
        (nonstandard demoLib demoGaussian 0 0 Caches.fresh).2 ∧
      (rnlij demoLib demoGaussian 5 3
          (nonstandard demoLib demoGaussian 0 0 Caches.fresh).2).2.rnlp_cache.keys.Nodup ∧
      (rnlij demoLib demoGaussian 5 3
          (nonstandard demoLib demoGaussian 0 0 Caches.fresh).2).2.rnlij_cache.keys.Nodup ∧
      (rnlij demoLib demoGaussian 5 3
          (nonstandard demoLib demoGaussian 0 0 Caches.fresh).2).2.ns_cache.keys.Nodup) ∧
    ((nonstandard demoLib demoGaussian 5 3
          (nonstandard demoLib demoGaussian 0 0 Caches.fresh).2).2.Extends
        (nonstandard demoLib demoGaussian 0 0 Caches.fresh).2 ∧
      (nonstandard demoLib demoGaussian 5 3
          (nonstandard demoLib demoGaussian 0 0 Caches.fresh).2).2.rnlp_cache.keys.Nodup ∧
      (nonstandard demoLib demoGaussian 5 3
          (nonstandard demoLib demoGaussian 0 0 Caches.fresh).2).2.rnlij_cache.keys.Nodup ∧
      (nonstandard demoLib demoGaussian 5 3
          (nonstandard demoLib demoGaussian 0 0 Caches.fresh).2).2.ns_cache.keys.Nodup)) :=
  ⟨Reachable.nonstandard 0 0 _ Reachable.fresh,
    C7_caches_insertion_monotone demoLib demoGaussian 5 3 _
      (Reachable.nonstandard 0 0 _ Reachable.fresh)⟩

/-- C8: from every reachable cache state, `get_rnlp`, `rnlij` and `nonstandard`
return for a key the value the same call returns on a freshly constructed
operator, whose caches are empty. -/
theorem C8_results_depend_on_key_only (lib : TensorLib K) (op : Convolution1D K) (n l : Int)
    (s : Caches K) (hs : Reachable lib op s) :
    (get_rnlp lib op n l s).1 = (get_rnlp lib op n l Caches.fresh).1 ∧
    (rnlij lib op n l s).1 = (rnlij lib op n l Caches.fresh).1 ∧
    (nonstandard lib op n l s).1 = (nonstandard lib op n l Caches.fresh).1 := by
  have hc := hs.consistent
  have hf := consistent_fresh lib op
  refine ⟨?_, ?_, ?_⟩
  · rw [get_rnlp_value lib op n l s hc, get_rnlp_value lib op n l _ hf]
  · rw [rnlij_value_eq lib op n l s hc, rnlij_value_eq lib op n l _ hf]
  · rw [nonstandard_value_eq lib op n l s hc, nonstandard_value_eq lib op n l _ hf]

/-- C8, instance: key (0,1) on the demo operator after `nonstandard(0,0)` and
`get_rnlp(5,3)` have filled the caches. -/
theorem C8_results_depend_on_key_only_witness :
    Reachable demoLib demoGaussian
      (get_rnlp demoLib demoGaussian 5 3 (nonstandard demoLib demoGaussian 0 0 Caches.fresh).2).2 ∧
    ((get_rnlp demoLib demoGaussian 0 1
        (get_rnlp demoLib demoGaussian 5 3
          (nonstandard demoLib demoGaussian 0 0 Caches.fresh).2).2).1
      = (get_rnlp demoLib demoGaussian 0 1 Caches.fresh).1 ∧
    (rnlij demoLib demoGaussian 0 1
        (get_rnlp demoLib demoGaussian 5 3
          (nonstandard demoLib demoGaussian 0 0 Caches.fresh).2).2).1
      = (rnlij demoLib demoGaussian 0 1 Caches.fresh).1 ∧
    (nonstandard demoLib demoGaussian 0 1
        (get_rnlp demoLib demoGaussian 5 3
          (nonstandard demoLib demoGaussian 0 0 Caches.fresh).2).2).1
      = (nonstandard demoLib demoGaussian 0 1 Caches.fresh).1) :=
  ⟨Reachable.get_rnlp 5 3 _ (Reachable.nonstandard 0 0 _ Reachable.fresh),
    C8_results_depend_on_key_only demoLib demoGaussian 0 1 _
      (Reachable.get_rnlp 5 3 _ (Reachable.nonstandard 0 0 _ Reachable.fresh))⟩

/-- C1: from every reachable cache state and for every key `(n,l)` that is not
small, the block `R` stored by `nonstandard(n,l)` is a `2k x 2k` tensor whose
entry `(j,i)` is the entry `(i,j)` of `transform(Q, hgT)`, where `Q` has
`rnlij(n+1,2l)` in its top-left and bottom-right quadrants, `rnlij(n+1,2l-1)`
top-right and `rnlij(n+1,2l+1)` bottom-left. -/
theorem C1_stored_block_is_transposed_transform (lib : TensorLib K) (op : Convolution1D K)
    (n l : Int) (s : Caches K) (hs : Reachable lib op s) (hsm : op.issmall n l = false) :
    (nonstandard lib op n l s).1.R.dim = [2 * op.k, 2 * op.k] ∧
    (nonstandard lib op n l s).1.R.p.length = 2 * op.k * (2 * op.k) ∧
    ∀ i j, i < 2 * op.k → j < 2 * op.k →
      (nonstandard lib op n l s).1.R.p[j * (2 * op.k) + i]? =
        some ((lib.transform
          (quadrants op.k (rnlij lib op (n + 1) (2 * l) s).1
            (rnlij lib op (n + 1) (2 * l + 1) s).1 (rnlij lib op (n + 1) (2 * l - 1) s).1)
          op.hgT).p.getD (i * (2 * op.k) + j) 0) := by
  have hc := hs.consistent
  have e : 2 * l = l * 2 := by ring
  rw [nonstandard_value_eq lib op n l s hc, rnlij_value_eq lib op _ _ s hc,
    rnlij_value_eq lib op _ _ s hc, rnlij_value_eq lib op _ _ s hc, e]
  unfold ns_value
  rw [new_R, (ns_tensors_not_small lib op n l hsm).1]
  refine ⟨rfl, by simp [transpose_flat_length], ?_⟩
  intro i j hi hj
  exact transpose_flat_at (2 * op.k) (2 * op.k) _ i j hi hj

/-- C1, instance: the demo operator at key (0,0) with empty caches. -/
theorem C1_stored_block_witness :
    demoGaussian.issmall 0 0 = false ∧
    ((nonstandard demoLib demoGaussian 0 0 Caches.fresh).1.R.dim
        = [2 * demoGaussian.k, 2 * demoGaussian.k] ∧
    (nonstandard demoLib demoGaussian 0 0 Caches.fresh).1.R.p.length
        = 2 * demoGaussian.k * (2 * demoGaussian.k) ∧
    ∀ i j, i < 2 * demoGaussian.k → j < 2 * demoGaussian.k →
      (nonstandard demoLib demoGaussian 0 0 Caches.fresh).1.R.p[j * (2 * demoGaussian.k) + i]? =
        some ((demoLib.transform
          (quadrants demoGaussian.k (rnlij demoLib demoGaussian (0 + 1) (2 * 0) Caches.fresh).1
            (rnlij demoLib demoGaussian (0 + 1) (2 * 0 + 1) Caches.fresh).1
            (rnlij demoLib demoGaussian (0 + 1) (2 * 0 - 1) Caches.fresh).1)
          demoGaussian.hgT).p.getD (i * (2 * demoGaussian.k) + j) 0)) :=
  ⟨by simp [demoGaussian, GaussianConvolution1D.issmall],
    C1_stored_block_is_transposed_transform demoLib demoGaussian 0 0 Caches.fresh
      Reachable.fresh (by simp [demoGaussian, GaussianConvolution1D.issmall])⟩

/-- C2: from every reachable cache state, whenever the block returned by
`nonstandard(n,l)` is non-empty, `T` is a `k x k` tensor, `R` a `2k x 2k`
tensor, and `T(i,j) = R(i,j)` for all `i, j < k`. -/
theorem C2_T_is_top_left_corner_of_R (lib : TensorLib K) (op : Convolution1D K) (n l : Int)
    (s : Caches K) (hs : Reachable lib op s)
    (hne : (nonstandard lib op n l s).1.R ≠ Tensor.empty) :
    (nonstandard lib op n l s).1.T.dim = [op.k, op.k] ∧
    (nonstandard lib op n l s).1.T.p.length = op.k * op.k ∧
    (nonstandard lib op n l s).1.R.dim = [2 * op.k, 2 * op.k] ∧
    (nonstandard lib op n l s).1.R.p.length = 2 * op.k * (2 * op.k) ∧
    ∀ i j, i < op.k → j < op.k →
      (nonstandard lib op n l s).1.T.get2 i j = (nonstandard lib op n l s).1.R.get2 i j := by
  have hc := hs.consistent
  rw [nonstandard_value_eq lib op n l s hc] at hne ⊢
  unfold ns_value at hne ⊢
  rw [new_R] at hne ⊢
  rw [new_T]
  cases hsm : op.issmall n l with
  | true =>
    rw [ns_tensors_small lib op n l hsm] at hne
    exact absurd rfl hne
  | false =>
    obtain ⟨hR, hT⟩ := ns_tensors_not_small lib op n l hsm
    have hRdim : (ns_tensors lib op n l).1.dim = [2 * op.k, 2 * op.k] := by rw [hR]
    have hRlen : (ns_tensors lib op n l).1.p.length = 2 * op.k * (2 * op.k) := by
      rw [hR]; simp [transpose_flat_length]
    refine ⟨by rw [hT], by rw [hT]; simp, hRdim, hRlen, ?_⟩
    intro i j hi hj
    have hlt : i * op.k + j < op.k * op.k := by
      have h1 : (i + 1) * op.k ≤ op.k * op.k := Nat.mul_le_mul_right op.k hi
      have h2 : (i + 1) * op.k = i * op.k + op.k := by ring
      omega
    have hsp := (index_split op.k j i (i * op.k + j) hj).1 rfl
    have hTget : (ns_tensors lib op n l).2.get2 i j
        = (ns_tensors lib op n l).1.p.getD (i * (2 * op.k) + j) 0 := by
      rw [hT]
      simp only [Tensor.get2, Tensor.dimAt, List.getD_eq_getElem?_getD, List.getElem?_map]
      have h1 : ([op.k, op.k] : List Nat)[1]?.getD 0 = op.k := rfl
      rw [h1, List.getElem?_range hlt]
      simp only [Option.map_some', Option.getD_some, hsp.1, hsp.2]
    rw [hTget]
    simp only [Tensor.get2, Tensor.dimAt, hRdim]
    rfl

/-- C2, instance: the block of the demo operator at key (0,0), which is not empty. -/
theorem C2_T_is_top_left_corner_of_R_witness :
    (nonstandard demoLib demoGaussian 0 0 Caches.fresh).1.R ≠ Tensor.empty ∧
    ((nonstandard demoLib demoGaussian 0 0 Caches.fresh).1.T.dim
        = [demoGaussian.k, demoGaussian.k] ∧
    (nonstandard demoLib demoGaussian 0 0 Caches.fresh).1.T.p.length
        = demoGaussian.k * demoGaussian.k ∧
    (nonstandard demoLib demoGaussian 0 0 Caches.fresh).1.R.dim
        = [2 * demoGaussian.k, 2 * demoGaussian.k] ∧
    (nonstandard demoLib demoGaussian 0 0 Caches.fresh).1.R.p.length
        = 2 * demoGaussian.k * (2 * demoGaussian.k) ∧
    ∀ i j, i < demoGaussian.k → j < demoGaussian.k →
      (nonstandard demoLib demoGaussian 0 0 Caches.fresh).1.T.get2 i j
        = (nonstandard demoLib demoGaussian 0 0 Caches.fresh).1.R.get2 i j) := by
  have hne : (nonstandard demoLib demoGaussian 0 0 Caches.fresh).1.R ≠ Tensor.empty := by
    have hsm : demoGaussian.issmall 0 0 = false := by
      simp [demoGaussian, GaussianConvolution1D.issmall]
    rw [nonstandard_value_eq demoLib demoGaussian 0 0 _ (consistent_fresh _ _)]
    unfold ns_value
    rw [new_R, (ns_tensors_not_small demoLib demoGaussian 0 0 hsm).1]
    intro h
    have hd := congrArg Tensor.dim h
    simp [Tensor.empty] at hd
  exact ⟨hne, C2_T_is_top_left_corner_of_R demoLib demoGaussian 0 0 Caches.fresh
    Reachable.fresh hne⟩

/-- C3: when the norm of the empty tensor does not exceed `1e-20` (it is 0),
from every reachable cache state and for every key `(n,l)` with `issmall(n,l)`,
`nonstandard(n,l)` returns the block whose tensors `R`, `T`, `RU`, `RVT`, `TU`,
`TVT`, `Rs`, `Ts` are all empty and whose five norms are all 0, and that block
is what the cache holds for `(n,l)` afterwards. -/
theorem C3_small_key_gives_empty_block (lib : TensorLib K) (op : Convolution1D K) (n l : Int)
    (s : Caches K) (hs : Reachable lib op s) (hnorm : lib.normf Tensor.empty ≤ tiny)
    (hsm : op.issmall n l = true) :
    (nonstandard lib op n l s).1 =
      { R := Tensor.empty, T := Tensor.empty, RU := Tensor.empty, RVT := Tensor.empty,
        TU := Tensor.empty, TVT := Tensor.empty, Rs := Tensor.empty, Ts := Tensor.empty,
        Rnorm := 0, Tnorm := 0, Rnormf := 0, Tnormf := 0, NSnormf := 0 } ∧
    (nonstandard lib op n l s).2.ns_cache.getptr n l = some (nonstandard lib op n l s).1 := by
  refine ⟨?_, (nonstandard_post lib op n l s).stored⟩
  rw [nonstandard_value_eq lib op n l s hs.consistent]
  unfold ns_value
  rw [ns_tensors_small lib op n l hsm]
  exact new_small lib Tensor.empty Tensor.empty hnorm

/-- C3, instance: the unit Gaussian pruning predicate, order 3, key (0,50). -/
theorem C3_small_key_gives_empty_block_witness :
    demoLib.normf Tensor.empty ≤ tiny ∧ demoGaussian.issmall 0 50 = true ∧
    ((nonstandard demoLib demoGaussian 0 50 Caches.fresh).1 =
      { R := Tensor.empty, T := Tensor.empty, RU := Tensor.empty, RVT := Tensor.empty,
        TU := Tensor.empty, TVT := Tensor.empty, Rs := Tensor.empty, Ts := Tensor.empty,
        Rnorm := 0, Tnorm := 0, Rnormf := 0, Tnormf := 0, NSnormf := 0 } ∧
    (nonstandard demoLib demoGaussian 0 50 Caches.fresh).2.ns_cache.getptr 0 50
      = some (nonstandard demoLib demoGaussian 0 50 Caches.fresh).1) :=
  ⟨by norm_num [demoLib, Tensor.empty, tiny],
    by norm_num [demoGaussian, GaussianConvolution1D.issmall, demoLib],
    C3_small_key_gives_empty_block demoLib demoGaussian 0 50 Caches.fresh Reachable.fresh
      (by norm_num [demoLib, Tensor.empty, tiny])
      (by norm_num [demoGaussian, GaussianConvolution1D.issmall, demoLib])⟩

/-- C4: for an operator of order `k > 0` whose kernel returns vectors of length
`2k` and whose `transform` by `hgT2k` keeps the length `4k`, from every
reachable cache state and for every key `(n,l)` with `n < natural_level()` that
is not small, `get_rnlp(n,l)` is the vector of the first `2k` entries of
`transform(v, hgT2k)`, where `v` is `get_rnlp(n+1,2l)` followed by
`get_rnlp(n+1,2l+1)`. -/
theorem C4_get_rnlp_refinement (lib : TensorLib K) (op : Convolution1D K) (n l : Int)
    (s : Caches K) (hs : Reachable lib op s) (hk : 0 < op.k)
    (hkernel : ∀ n l, (op.rnlp n l).p.length = 2 * op.k)
    (htr : ∀ v : Tensor K, v.p.length = 2 * (2 * op.k) →
      (lib.transform v op.hgT2k).p.length = 2 * (2 * op.k))
    (hlt : n < op.natural_level) (hsm : op.issmall n l = false) :
    ((get_rnlp lib op (n + 1) (2 * l) s).1.p ++ (get_rnlp lib op (n + 1) (2 * l + 1) s).1.p).length
      = 4 * op.k ∧
    (get_rnlp lib op n l s).1 =
      ⟨[2 * op.k],
        (lib.transform
          ⟨[2 * (2 * op.k)],
            (get_rnlp lib op (n + 1) (2 * l) s).1.p ++ (get_rnlp lib op (n + 1) (2 * l + 1) s).1.p⟩
          op.hgT2k).p.take (2 * op.k)⟩ := by
  have hc := hs.consistent
  have hA := rnlp_value_length lib op hk hkernel htr (n + 1) (2 * l)
  have hB := rnlp_value_length lib op hk hkernel htr (n + 1) (2 * l + 1)
  have h1 : ¬ op.issmall n l = true := by simp [hsm]
  rw [get_rnlp_value lib op n l s hc, get_rnlp_value lib op _ _ s hc,
    get_rnlp_value lib op _ _ s hc, rnlp_value_rec lib op n l h1 hlt,
    zeros_assign_assign op.k hk _ _ hA hB]
  refine ⟨by rw [List.length_append, hA, hB]; omega, ?_⟩
  have e : 2 * op.k - 1 + 1 - 0 = 2 * op.k := by omega
  simp only [Tensor.sliceCopy, List.drop_zero, e]

/-- C4, instance: the demo operator at key (0,0), below its natural level 1. -/
theorem C4_get_rnlp_refinement_witness :
    0 < demoGaussian.k ∧ (∀ n l, (demoGaussian.rnlp n l).p.length = 2 * demoGaussian.k) ∧
    (∀ v : Tensor ℚ, v.p.length = 2 * (2 * demoGaussian.k) →
      (demoLib.transform v demoGaussian.hgT2k).p.length = 2 * (2 * demoGaussian.k)) ∧
    (0 : Int) < demoGaussian.natural_level ∧ demoGaussian.issmall 0 0 = false ∧
    (((get_rnlp demoLib demoGaussian (0 + 1) (2 * 0) Caches.fresh).1.p ++
        (get_rnlp demoLib demoGaussian (0 + 1) (2 * 0 + 1) Caches.fresh).1.p).length
      = 4 * demoGaussian.k ∧
    (get_rnlp demoLib demoGaussian 0 0 Caches.fresh).1 =
      ⟨[2 * demoGaussian.k],
        (demoLib.transform
          ⟨[2 * (2 * demoGaussian.k)],
            (get_rnlp demoLib demoGaussian (0 + 1) (2 * 0) Caches.fresh).1.p ++
              (get_rnlp demoLib demoGaussian (0 + 1) (2 * 0 + 1) Caches.fresh).1.p⟩
          demoGaussian.hgT2k).p.take (2 * demoGaussian.k)⟩) :=
  ⟨by decide, fun _ _ => rfl, fun _ h => h, by decide,
    by simp [demoGaussian, GaussianConvolution1D.issmall],
    C4_get_rnlp_refinement demoLib demoGaussian 0 0 Caches.fresh Reachable.fresh (by decide)
      (fun _ _ => rfl) (fun _ h => h) (by decide)
      (by simp [demoGaussian, GaussianConvolution1D.issmall])⟩

/-! ## The probing loop of the generic kernel -/

theorem probe_stopped_stable (lib : TensorLib K) (g : GenericConvolution1D K) (t d : Nat)
    (h : (GenericConvolution1D.probe lib g t).stopped = true) :
    GenericConvolution1D.probe lib g (t + d) = GenericConvolution1D.probe lib g t := by
  induction d with
  | zero => rfl
  | succ d ih =>
    show GenericConvolution1D.probe lib g (t + d + 1) = _
    simp only [GenericConvolution1D.probe]
    rw [ih, if_pos h]

theorem probe_succ (lib : TensorLib K) (g : GenericConvolution1D K) (t : Nat) :
    GenericConvolution1D.probe lib g (t + 1)
      = if (GenericConvolution1D.probe lib g t).stopped = true
        then GenericConvolution1D.probe lib g t
        else GenericConvolution1D.probe_step lib g (t : Int)
          (GenericConvolution1D.probe lib g t) := rfl

theorem generic_new_k (lib : TensorLib K) (k : Nat) (quad_x quad_w c hgT hgT2k : Tensor K)
    (integrate : Int → Int → Tensor K) (sar : Int → Int → Int) :
    (GenericConvolution1D.new lib k quad_x quad_w c hgT hgT2k integrate
      sar).1.toConvolution1D.k = k := rfl

theorem new_of_stopped (lib : TensorLib K) (k : Nat) (quad_x quad_w c hgT hgT2k : Tensor K)
    (integrate : Int → Int → Tensor K) (sar : Int → Int → Int) (t d : Nat)
    (hd : t + d = 1 <<< 13)
    (hstop : (GenericConvolution1D.probe lib
      { k := k, quad_x := quad_x, quad_w := quad_w, c := c, hgT := hgT, hgT2k := hgT2k,
        integrate := integrate, sar := sar, maxl := LONG_MAX - 1 } t).stopped = true) :
    GenericConvolution1D.new lib k quad_x quad_w c hgT hgT2k integrate sar =
      ({ k := k, quad_x := quad_x, quad_w := quad_w, c := c, hgT := hgT, hgT2k := hgT2k,
          integrate := integrate, sar := sar,
          maxl := (GenericConvolution1D.probe lib
            { k := k, quad_x := quad_x, quad_w := quad_w, c := c, hgT := hgT, hgT2k := hgT2k,
              integrate := integrate, sar := sar, maxl := LONG_MAX - 1 } t).maxl },
        (GenericConvolution1D.probe lib
          { k := k, quad_x := quad_x, quad_w := quad_w, c := c, hgT := hgT, hgT2k := hgT2k,
            integrate := integrate, sar := sar, maxl := LONG_MAX - 1 } t).caches) := by
  unfold GenericConvolution1D.new
  simp only []
  rw [← hd, probe_stopped_stable lib _ t d hstop]

theorem demo_not_small_during_probe (lx : Int) (h1 : -8 ≤ lx) (h2 : lx ≤ 8) :
    demoGeneric0.toConvolution1D.issmall 13 lx = false := by
  simp only [GenericConvolution1D.toConvolution1D, GenericConvolution1D.issmall, demoGeneric0,
    LONG_MAX]
  by_cases h : lx < 0
  · by_cases h7 : 1 - lx ≤ 7
    · simp [h, h7]
    · simp only [h, h7, if_true, if_false]
      norm_num
      omega
  · by_cases h7 : lx ≤ 7
    · simp [h, h7]
    · simp only [h, h7, if_false]
      norm_num
      omega

theorem demo_probe_value (lx : Int) (s : Caches ℚ)
    (hs : Reachable demoLib demoGeneric0.toConvolution1D s) (h1 : -8 ≤ lx) (h2 : lx ≤ 8) :
    (get_rnlp demoLib demoGeneric0.toConvolution1D 13 lx s).1 = demoIntegrate 13 lx := by
  rw [get_rnlp_value demoLib _ 13 lx s hs.consistent]
  rw [rnlp_value_direct demoLib _ 13 lx
    (by rw [demo_not_small_during_probe lx h1 h2]; simp)
    (by simp [GenericConvolution1D.toConvolution1D])]
  rfl

theorem demo_normf_small (x : Int) :
    demoLib.normf (demoIntegrate 13 x) < 1 / 10 ^ 12 ↔ ¬ (-5 ≤ x ∧ x ≤ 4) := by
  by_cases h : -5 ≤ x ∧ x ≤ 4
  · simp only [demoLib, demoIntegrate, h, and_self, if_true, not_true, iff_false]
    norm_num
  · simp only [demoLib, demoIntegrate, h, if_false, not_false_eq_true, iff_true]
    norm_num [abs_of_pos]

theorem demo_probe_step_eq (t : Nat) (ht : t ≤ 8) (st : ProbeState ℚ)
    (hr : Reachable demoLib demoGeneric0.toConvolution1D st.caches) :
    (GenericConvolution1D.probe_step demoLib demoGeneric0 (t : Int) st).caches
      = (get_rnlp demoLib demoGeneric0.toConvolution1D 13 (-(t : Int))
          (get_rnlp demoLib demoGeneric0.toConvolution1D 13 (t : Int) st.caches).2).2 ∧
    (GenericConvolution1D.probe_step demoLib demoGeneric0 (t : Int) st).nzero
      = (if 6 ≤ t then st.nzero + 1 else st.nzero) ∧
    (GenericConvolution1D.probe_step demoLib demoGeneric0 (t : Int) st).stopped
      = decide ((if 6 ≤ t then st.nzero + 1 else st.nzero) = 3) ∧
    (GenericConvolution1D.probe_step demoLib demoGeneric0 (t : Int) st).maxl
      = (if (if 6 ≤ t then st.nzero + 1 else st.nzero) = 3 then (t : Int) - 2 else st.maxl) := by
  have hrp := demo_probe_value (t : Int) st.caches hr (by omega) (by omega)
  have hrm := demo_probe_value (-(t : Int)) _ (Reachable.get_rnlp 13 (t : Int) _ hr)
    (by omega) (by omega)
  have hcond : (demoLib.normf (demoIntegrate 13 (t : Int)) < 1 / 10 ^ 12 ∧
      demoLib.normf (demoIntegrate 13 (-(t : Int))) < 1 / 10 ^ 12) ↔ 6 ≤ t := by
    rw [demo_normf_small, demo_normf_small]
    omega
  unfold GenericConvolution1D.probe_step
  simp only [hrp, hrm, hcond]
  by_cases h3 : (if 6 ≤ t then st.nzero + 1 else st.nzero) = 3
  · simp [h3]
  · simp [h3]

theorem demo_probe_running (t : Nat) (ht : t ≤ 8) :
    (GenericConvolution1D.probe demoLib demoGeneric0 t).stopped = false ∧
    (GenericConvolution1D.probe demoLib demoGeneric0 t).nzero = t - 6 ∧
    Reachable demoLib demoGeneric0.toConvolution1D
      (GenericConvolution1D.probe demoLib demoGeneric0 t).caches := by
  induction t with
  | zero => exact ⟨rfl, rfl, Reachable.fresh⟩
  | succ t ih =>
    obtain ⟨h1, h2, h3⟩ := ih (by omega)
    obtain ⟨e1, e2, e3, _⟩ := demo_probe_step_eq t (by omega) _ h3
    have hp : GenericConvolution1D.probe demoLib demoGeneric0 (t + 1)
        = GenericConvolution1D.probe_step demoLib demoGeneric0 (t : Int)
            (GenericConvolution1D.probe demoLib demoGeneric0 t) := by
      rw [probe_succ, h1]
      rfl
    rw [hp, e1, e2, e3, h2]
    refine ⟨?_, ?_, Reachable.get_rnlp _ _ _ (Reachable.get_rnlp _ _ _ h3)⟩
    · rw [decide_eq_false_iff_not]
      split <;> omega
    · split <;> omega

/-- The probing loop of the demo operator stops in its ninth iteration (`lx = 8`)
with `maxl = 6`; the key `(13, 8)` is then cached with the kernel value. -/
theorem demo_probe_result :
    demoGeneric.1.maxl = 6 ∧
    demoGeneric.2.rnlp_cache.getptr 13 8 = some (demoIntegrate 13 8) := by
  obtain ⟨h1, h2, h3⟩ := demo_probe_running 8 (le_refl 8)
  obtain ⟨e1, e2, e3, e4⟩ := demo_probe_step_eq 8 (le_refl 8) _ h3
  have hp : GenericConvolution1D.probe demoLib demoGeneric0 9
      = GenericConvolution1D.probe_step demoLib demoGeneric0 ((8 : Nat) : Int)
          (GenericConvolution1D.probe demoLib demoGeneric0 8) := by
    rw [show (9 : Nat) = 8 + 1 from rfl, probe_succ, h1]
    rfl
  have hstop : (GenericConvolution1D.probe demoLib demoGeneric0 9).stopped = true := by
    rw [hp, e3, h2]
    decide
  have hnew := new_of_stopped demoLib 1 (Tensor.zeros1 20) (Tensor.zeros1 20) (Tensor.zeros2 4 1)
    (Tensor.zeros2 2 2) (Tensor.zeros2 4 4) demoIntegrate sar64 9 8183 (by decide) hstop
  have hg : demoGeneric = ({ demoGeneric0 with
        maxl := (GenericConvolution1D.probe demoLib demoGeneric0 9).maxl },
      (GenericConvolution1D.probe demoLib demoGeneric0 9).caches) := hnew
  rw [hg]
  simp only [hp, e1, e4, h2]
  refine ⟨by norm_num, ?_⟩
  have hrp := demo_probe_value ((8 : Nat) : Int) _ h3 (by norm_num) (by norm_num)
  have pst := (get_rnlp_post demoLib demoGeneric0.toConvolution1D 13 ((8 : Nat) : Int)
    (GenericConvolution1D.probe demoLib demoGeneric0 8).caches).stored
  rw [hrp] at pst
  exact (get_rnlp_post demoLib demoGeneric0.toConvolution1D 13 (-((8 : Nat) : Int)) _).ext
    13 8 _ pst

/-- C5 (amended): for an operator whose pruning predicate is the same throughout
(cache states reached from the empty caches by `get_rnlp`, `rnlij` and
`nonstandard` under that predicate), for every key `(n,l)` with `issmall(n,l)`,
`get_rnlp(n,l)` returns the zero vector of length `2k`. -/
theorem C5_small_key_gives_zero_vector (lib : TensorLib K) (op : Convolution1D K) (n l : Int)
    (s : Caches K) (hs : Reachable lib op s) (hsm : op.issmall n l = true) :
    (get_rnlp lib op n l s).1 = ⟨[2 * op.k], List.replicate (2 * op.k) 0⟩ := by
  rw [get_rnlp_value lib op n l s hs.consistent, rnlp_value_small lib op n l hsm]
  rfl

/-- C5 (amended), instance: the demo operator at key (0,50) after
`nonstandard(0,0)` has filled the caches. -/
theorem C5_small_key_gives_zero_vector_witness :
    Reachable demoLib demoGaussian (nonstandard demoLib demoGaussian 0 0 Caches.fresh).2 ∧
    demoGaussian.issmall 0 50 = true ∧
    (get_rnlp demoLib demoGaussian 0 50 (nonstandard demoLib demoGaussian 0 0 Caches.fresh).2).1
      = ⟨[2 * demoGaussian.k], List.replicate (2 * demoGaussian.k) 0⟩ :=
  ⟨Reachable.nonstandard 0 0 _ Reachable.fresh,
    by norm_num [demoGaussian, GaussianConvolution1D.issmall, demoLib],
    C5_small_key_gives_zero_vector demoLib demoGaussian 0 50 _
      (Reachable.nonstandard 0 0 _ Reachable.fresh)
      (by norm_num [demoGaussian, GaussianConvolution1D.issmall, demoLib])⟩

/-- C5, counterexample: the generic operator `demoGeneric` comes out of its
constructor with `maxl = 6`, so that `issmall(13, 8)` holds, while `get_rnlp(13, 8)`
returns the vector `(1e-13, 0)` that the probing loop cached, not the zero vector. -/
theorem C5_generic_constructor_counterexample :
    demoGeneric.1.toConvolution1D.issmall 13 8 = true ∧
    (get_rnlp demoLib demoGeneric.1.toConvolution1D 13 8 demoGeneric.2).1
      = ⟨[2], [1 / 10 ^ 13, 0]⟩ ∧
    (get_rnlp demoLib demoGeneric.1.toConvolution1D 13 8 demoGeneric.2).1
      ≠ ⟨[2 * demoGeneric.1.toConvolution1D.k],
          List.replicate (2 * demoGeneric.1.toConvolution1D.k) 0⟩ := by
  obtain ⟨hmaxl, hcached⟩ := demo_probe_result
  have hval : (get_rnlp demoLib demoGeneric.1.toConvolution1D 13 8 demoGeneric.2).1
      = ⟨[2], [1 / 10 ^ 13, 0]⟩ := by
    rw [get_rnlp_hit demoLib _ 13 8 _ _ hcached]
    simp [demoIntegrate]
  refine ⟨?_, hval, ?_⟩
  · simp only [GenericConvolution1D.toConvolution1D, GenericConvolution1D.issmall, hmaxl]
    norm_num
  · rw [hval]
    intro h
    have hp := congrArg Tensor.p h
    have hk : demoGeneric.1.toConvolution1D.k = 1 :=
      generic_new_k demoLib 1 (Tensor.zeros1 20) (Tensor.zeros1 20) (Tensor.zeros2 4 1)
        (Tensor.zeros2 2 2) (Tensor.zeros2 4 4) demoIntegrate sar64
    rw [hk] at hp
    simp [List.replicate] at hp

theorem demoZero_tensors (n l : Int) (hn : 0 ≤ n) :
    ns_tensors demoLib demoZero n l = (⟨[2, 2], [0, 0, 0, 0]⟩, ⟨[1, 1], [0]⟩) := by
  have hv : ∀ l2 : Int, rnlp_value demoLib demoZero (n + 1) l2 = Tensor.zeros1 2 := by
    intro l2
    rw [rnlp_value_direct demoLib demoZero (n + 1) l2 (by simp [demoZero])
      (by simp only [demoZero]; omega)]
    rfl
  have hij : ∀ l2 : Int, (rnlij_value demoLib demoZero (n + 1) l2).p = [0, 0, 0, 0] := by
    intro l2
    unfold rnlij_value
    simp only [hv]
    simp [demoLib, demoZero, Tensor.scale, Tensor.sliceAssign, Tensor.zeros1, List.range,
      List.range.loop, List.replicate]
  have hk : demoZero.k = 1 := rfl
  have htr : ∀ t u : Tensor ℚ, demoLib.transform t u = t := fun _ _ => rfl
  unfold ns_tensors
  rw [if_neg (by simp [demoZero])]
  simp only [quadrants, hij, hk, htr]
  simp [transpose_flat, List.range, List.range.loop]

/-- C10: on the zero `2 x 2` block with its zero `1 x 1` corner the constructor
sets `Rnormf` to zero and nevertheless keeps both tensors: the stored `R` has
four entries and the stored `T` one, neither is the empty tensor.  The operator
`demoZero` reaches this through `nonstandard(0,0)`, a key that is not small. -/
theorem C10_zero_norm_block_keeps_tensors :
    ((ConvolutionData1D.new demoLib (Tensor.zeros2 2 2) (Tensor.zeros2 1 1)).Rnormf = 0 ∧
      (ConvolutionData1D.new demoLib (Tensor.zeros2 2 2) (Tensor.zeros2 1 1)).R
        = ⟨[2, 2], [0, 0, 0, 0]⟩ ∧
      (ConvolutionData1D.new demoLib (Tensor.zeros2 2 2) (Tensor.zeros2 1 1)).T
        = ⟨[1, 1], [0]⟩ ∧
      (ConvolutionData1D.new demoLib (Tensor.zeros2 2 2) (Tensor.zeros2 1 1)).R ≠ Tensor.empty ∧
      (ConvolutionData1D.new demoLib (Tensor.zeros2 2 2) (Tensor.zeros2 1 1)).T ≠ Tensor.empty) ∧
    (demoZero.issmall 0 0 = false ∧
      (nonstandard demoLib demoZero 0 0 Caches.fresh).1.Rnormf = 0 ∧
      (nonstandard demoLib demoZero 0 0 Caches.fresh).1.R = ⟨[2, 2], [0, 0, 0, 0]⟩ ∧
      (nonstandard demoLib demoZero 0 0 Caches.fresh).1.T = ⟨[1, 1], [0]⟩) := by
  have h : demoLib.normf (Tensor.zeros2 2 2) ≤ tiny := by
    norm_num [demoLib, Tensor.zeros2, tiny]
  have h2 : demoLib.normf (⟨[2, 2], [0, 0, 0, 0]⟩ : Tensor ℚ) ≤ tiny := by
    norm_num [demoLib, tiny]
  constructor
  · rw [new_small demoLib _ _ h]
    refine ⟨rfl, ?_, ?_, ?_, ?_⟩
    · simp [Tensor.zeros2, List.replicate]
    · simp [Tensor.zeros2]
    · simp [Tensor.zeros2, Tensor.empty]
    · simp [Tensor.zeros2, Tensor.empty]
  · rw [nonstandard_value_eq demoLib demoZero 0 0 _ (consistent_fresh _ _)]
    unfold ns_value
    rw [demoZero_tensors 0 0 (le_refl 0), new_small demoLib _ _ h2]
    exact ⟨rfl, rfl, rfl, rfl⟩

/-! ## Properties of `make_approx` -/

theorem tensor_get_set (t : Tensor K) (q x : Nat) (v : K) :
    (Tensor.get { t with p := t.p.set q v } x) = if q = x ∧ x < t.p.length then v else t.get x := by
  simp only [Tensor.get, List.getD_eq_getElem?_getD, getElem?_set_cond]
  split <;> rfl

theorem cumulate_length (n : Nat) (Rs : Tensor K) (t : Nat) :
    (cumulate n Rs t).p.length = Rs.p.length := by
  induction t with
  | zero => rfl
  | succ t ih => simp [cumulate, ih]

theorem drop_sum_step (l : List K) (i : Nat) (hi : i < l.length) :
    (l.drop i).sum = l.getD i 0 + (l.drop (i + 1)).sum := by
  rw [List.drop_eq_getElem_cons hi, List.sum_cons, List.getD_eq_getElem?_getD,
    List.getElem?_eq_getElem hi]
  rfl

/-- After `t` iterations of the cumulative loop the entries from index `n-1-t` on
hold the sums of the original entries from their index on; the entries before
are untouched. -/
theorem cumulate_get (n : Nat) (Rs : Tensor K) (hlen : Rs.p.length = n) (t : Nat)
    (ht : t ≤ n - 2) (idx : Nat) (hidx : idx < n) :
    (cumulate n Rs t).get idx
      = if n - 1 - t ≤ idx then (Rs.p.drop idx).sum else Rs.get idx := by
  induction t generalizing idx with
  | zero =>
    simp only [cumulate, Nat.sub_zero]
    by_cases h : n - 1 ≤ idx
    · have hi : idx = n - 1 := by omega
      rw [if_pos h, drop_sum_step Rs.p idx (by omega), List.drop_of_length_le (by omega)]
      simp [Tensor.get]
    · rw [if_neg h]
  | succ t ih =>
    have hn : 3 ≤ n := by omega
    simp only [cumulate]
    rw [tensor_get_set, cumulate_length, hlen]
    by_cases h1 : n - 1 - t - 1 = idx
    · rw [if_pos ⟨h1, hidx⟩, ih (by omega) (n - 1 - t - 1) (by omega),
        ih (by omega) (n - 1 - t) (by omega), if_neg (by omega), if_pos (le_refl _),
        if_pos (by omega), ← h1, drop_sum_step Rs.p (n - 1 - t - 1) (by omega)]
      have e : n - 1 - t - 1 + 1 = n - 1 - t := by omega
      rw [e]
      rfl
    · rw [if_neg (fun h => h1 h.1), ih (by omega) idx hidx]
      by_cases h2 : n - 1 - t ≤ idx
      · rw [if_pos h2, if_pos (by omega)]
      · rw [if_neg h2, if_neg (by omega)]

theorem cumulate_get_zero (n : Nat) (Rs : Tensor K) (t : Nat) (ht : t ≤ n - 2) :
    (cumulate n Rs t).get 0 = Rs.get 0 := by
  induction t with
  | zero => rfl
  | succ t ih =>
    simp only [cumulate]
    rw [tensor_get_set, if_neg (by omega), ih (by omega)]

/-- The four outputs of `make_approx` in closed form. -/
theorem make_approx_eq (lib : TensorLib K) (R : Tensor K) :
    make_approx lib R =
      ((lib.svd R).1,
        (if (lib.svd R).2.1.get 0 > 0 then
          rescale (1 / (lib.svd R).2.1.get 0)
            (cumulate (R.dimAt 0) (lib.svd R).2.1 (R.dimAt 0 - 2)) (R.dimAt 0)
        else cumulate (R.dimAt 0) (lib.svd R).2.1 (R.dimAt 0 - 2)),
        scale_vt (lib.svd R).2.1 (R.dimAt 0) (lib.svd R).2.2 (R.dimAt 0),
        (lib.svd R).2.1.get 0) := by
  unfold make_approx
  simp only [cumulate_get_zero _ _ _ (le_refl _)]

theorem get_nonneg_of_nonneg (s : Tensor K) (hnn : ∀ x ∈ s.p, 0 ≤ x) (i : Nat) :
    0 ≤ s.get i := by
  simp only [Tensor.get, List.getD_eq_getElem?_getD]
  by_cases hi : i < s.p.length
  · rw [List.getElem?_eq_getElem hi]
    exact hnn _ (List.getElem_mem hi)
  · rw [List.getElem?_eq_none (by omega)]
    exact le_refl _

theorem le_head_of_sorted (s : Tensor K) (hsort : s.p.Sorted (fun a b => a ≥ b)) :
    ∀ x ∈ s.p, x ≤ s.get 0 := by
  intro x hx
  cases hp : s.p with
  | nil => rw [hp] at hx; cases hx
  | cons a t =>
    rw [hp] at hx hsort
    have h0 : s.get 0 = a := by simp [Tensor.get, hp]
    rw [h0]
    rcases List.mem_cons.1 hx with h | h
    · rw [h]
    · exact (List.sorted_cons.1 hsort).1 x h

/-- C11 (amended): when `svd` returns as many singular values as the matrix has
rows, the cumulative loop of `make_approx` leaves `sigma[0] = s[0]` as it is
and turns every later entry into the sum of the singular values from its index
on, `sigma[i] = sum over j >= i of s[j]` for `i = 1 .. m-1`; the last entry is
therefore unchanged.  The array stored is this one, rescaled when `s[0] > 0`. -/
theorem C11_suffix_sums_from_index_one (lib : TensorLib K) (R : Tensor K)
    (hlen : (lib.svd R).2.1.p.length = R.dimAt 0) :
    (cumulate (R.dimAt 0) (lib.svd R).2.1 (R.dimAt 0 - 2)).get 0 = (lib.svd R).2.1.get 0 ∧
    (∀ i, 1 ≤ i → i < R.dimAt 0 →
      (cumulate (R.dimAt 0) (lib.svd R).2.1 (R.dimAt 0 - 2)).get i
        = ((lib.svd R).2.1.p.drop i).sum) ∧
    (cumulate (R.dimAt 0) (lib.svd R).2.1 (R.dimAt 0 - 2)).get (R.dimAt 0 - 1)
      = (lib.svd R).2.1.get (R.dimAt 0 - 1) ∧
    (make_approx lib R).2.1 =
      (if (lib.svd R).2.1.get 0 > 0 then
        rescale (1 / (lib.svd R).2.1.get 0)
          (cumulate (R.dimAt 0) (lib.svd R).2.1 (R.dimAt 0 - 2)) (R.dimAt 0)
      else cumulate (R.dimAt 0) (lib.svd R).2.1 (R.dimAt 0 - 2)) := by
  refine ⟨cumulate_get_zero _ _ _ (le_refl _), ?_, ?_, by rw [make_approx_eq]⟩
  · intro i h1 h2
    rw [cumulate_get _ _ hlen _ (le_refl _) i h2, if_pos (by omega)]
  · rcases Nat.lt_or_ge (R.dimAt 0) 2 with h | h
    · have e : R.dimAt 0 - 1 = 0 := by omega
      rw [e]
      exact cumulate_get_zero _ _ _ (le_refl _)
    · rw [cumulate_get _ _ hlen _ (le_refl _) _ (by omega), if_pos (by omega),
        drop_sum_step _ _ (by omega), List.drop_of_length_le (by omega)]
      simp [Tensor.get]

/-- C11 (amended), instance: the `3 x 3` identity, whose singular values are `(1,1,1)`. -/
theorem C11_suffix_sums_from_index_one_witness :
    (diagLib.svd (identity ℚ 3)).2.1.p.length = (identity ℚ 3).dimAt 0 ∧
    ((cumulate ((identity ℚ 3).dimAt 0) (diagLib.svd (identity ℚ 3)).2.1
        ((identity ℚ 3).dimAt 0 - 2)).get 0 = (diagLib.svd (identity ℚ 3)).2.1.get 0 ∧
    (∀ i, 1 ≤ i → i < (identity ℚ 3).dimAt 0 →
      (cumulate ((identity ℚ 3).dimAt 0) (diagLib.svd (identity ℚ 3)).2.1
          ((identity ℚ 3).dimAt 0 - 2)).get i
        = ((diagLib.svd (identity ℚ 3)).2.1.p.drop i).sum) ∧
    (cumulate ((identity ℚ 3).dimAt 0) (diagLib.svd (identity ℚ 3)).2.1
        ((identity ℚ 3).dimAt 0 - 2)).get ((identity ℚ 3).dimAt 0 - 1)
      = (diagLib.svd (identity ℚ 3)).2.1.get ((identity ℚ 3).dimAt 0 - 1) ∧
    (make_approx diagLib (identity ℚ 3)).2.1 =
      (if (diagLib.svd (identity ℚ 3)).2.1.get 0 > 0 then
        rescale (1 / (diagLib.svd (identity ℚ 3)).2.1.get 0)
          (cumulate ((identity ℚ 3).dimAt 0) (diagLib.svd (identity ℚ 3)).2.1
            ((identity ℚ 3).dimAt 0 - 2)) ((identity ℚ 3).dimAt 0)
      else cumulate ((identity ℚ 3).dimAt 0) (diagLib.svd (identity ℚ 3)).2.1
        ((identity ℚ 3).dimAt 0 - 2))) :=
  ⟨by simp [diagLib, identity, Tensor.dimAt],
    C11_suffix_sums_from_index_one diagLib (identity ℚ 3)
      (by simp [diagLib, identity, Tensor.dimAt])⟩

theorem identity3_singular_values :
    (diagLib.svd (identity ℚ 3)).2.1 = ⟨[3], [1, 1, 1]⟩ := by
  simp [diagLib, identity, Tensor.dimAt, Tensor.get2, List.range, List.range.loop]

theorem identity3_cumulated :
    cumulate 3 (⟨[3], [1, 1, 1]⟩ : Tensor ℚ) 1 = ⟨[3], [1, 2, 1]⟩ := by
  simp [cumulate, Tensor.get]
  norm_num

theorem identity3_dim : (identity ℚ 3).dimAt 0 = 3 := rfl

theorem identity3_make_approx :
    (make_approx diagLib (identity ℚ 3)).2.1 = ⟨[3], [1, 2, 1]⟩ ∧
    (make_approx diagLib (identity ℚ 3)).2.2.2 = 1 := by
  rw [make_approx_eq, identity3_singular_values, identity3_dim]
  have h : (Tensor.get (⟨[3], [1, 1, 1]⟩ : Tensor ℚ) 0) = 1 := rfl
  have hc : cumulate 3 (⟨[3], [1, 1, 1]⟩ : Tensor ℚ) (3 - 2) = ⟨[3], [1, 2, 1]⟩ :=
    identity3_cumulated
  simp only [h, hc]
  constructor
  · norm_num [rescale, Tensor.get]
  · trivial

/-- C11, counterexample: for the `3 x 3` identity `svd` returns `(1,1,1)`; after the
cumulative loop `sigma[0]` is still 1, whereas the sum of the singular values
from index 0 on is 3. -/
theorem C11_index_zero_counterexample :
    (diagLib.svd (identity ℚ 3)).2.1 = ⟨[3], [1, 1, 1]⟩ ∧
    (cumulate ((identity ℚ 3).dimAt 0) (diagLib.svd (identity ℚ 3)).2.1
      ((identity ℚ 3).dimAt 0 - 2)).get 0 = 1 ∧
    ((diagLib.svd (identity ℚ 3)).2.1.p.drop 0).sum = 3 ∧
    (cumulate ((identity ℚ 3).dimAt 0) (diagLib.svd (identity ℚ 3)).2.1
      ((identity ℚ 3).dimAt 0 - 2)).get 0 ≠ ((diagLib.svd (identity ℚ 3)).2.1.p.drop 0).sum := by
  rw [identity3_singular_values, identity3_dim]
  have h : cumulate 3 (⟨[3], [1, 1, 1]⟩ : Tensor ℚ) (3 - 2) = ⟨[3], [1, 2, 1]⟩ :=
    identity3_cumulated
  rw [h]
  refine ⟨rfl, rfl, by norm_num, by norm_num [Tensor.get]⟩

/-- C12 (amended): the norm that `make_approx` outputs is `sigma[0]` as the
cumulative loop leaves it, and that is the first singular value `s[0]` returned
by `svd` (the largest one when `svd` orders them), whatever the other singular
values are.  The constructor stores it as `Rnorm` for `R` and as `Tnorm` for `T`
whenever it runs `make_approx`, that is when `Rnormf > 1e-20`. -/
theorem C12_norm_is_first_singular_value (lib : TensorLib K) (R : Tensor K) :
    (make_approx lib R).2.2.2
      = (cumulate (R.dimAt 0) (lib.svd R).2.1 (R.dimAt 0 - 2)).get 0 ∧
    (make_approx lib R).2.2.2 = (lib.svd R).2.1.get 0 ∧
    (∀ T : Tensor K, lib.normf R > tiny →
      (ConvolutionData1D.new lib R T).Rnorm = (lib.svd R).2.1.get 0 ∧
      (ConvolutionData1D.new lib R T).Tnorm = (lib.svd T).2.1.get 0) := by
  refine ⟨?_, ?_, ?_⟩
  · rw [make_approx_eq]
    exact (cumulate_get_zero _ _ _ (le_refl _)).symm
  · rw [make_approx_eq]
  · intro T h
    unfold ConvolutionData1D.new
    simp only []
    rw [if_pos h]
    simp only [make_approx_eq, and_self]

/-- C12, counterexample: for the `3 x 3` identity, whose singular values `(1,1,1)`
add up to 3, `make_approx` outputs the norm 1. -/
theorem C12_total_sum_counterexample :
    (diagLib.svd (identity ℚ 3)).2.1 = ⟨[3], [1, 1, 1]⟩ ∧
    (make_approx diagLib (identity ℚ 3)).2.2.2 = 1 ∧
    (diagLib.svd (identity ℚ 3)).2.1.p.sum = 3 ∧
    (make_approx diagLib (identity ℚ 3)).2.2.2 ≠ (diagLib.svd (identity ℚ 3)).2.1.p.sum := by
  rw [identity3_make_approx.2, identity3_singular_values]
  refine ⟨rfl, rfl, by norm_num, by norm_num⟩

/-! ## The Gaussian kernel -/

theorem trunc_of_nonneg [FloorRing K] (x : K) (h : 0 ≤ x) : trunc x = ⌊x⌋ := by
  simp [trunc, h]

theorem gauss_add_length (ee : K) (phix : List K) (v : Tensor K) (p : Nat) :
    (gauss_add ee phix v p).p.length = v.p.length := by
  induction p with
  | zero => rfl
  | succ p ih => simp [gauss_add, ih]

theorem gauss_points_length (m : LibM K) (legendre : K → Nat → List K)
    (quad_x quad_w : Tensor K) (twok : Nat) (scaledcoeff beta h xlo : K) (lx : Int)
    (v : Tensor K) (i : Nat) :
    (gauss_points m legendre quad_x quad_w twok scaledcoeff beta h xlo lx v i).p.length
      = v.p.length := by
  induction i with
  | zero => rfl
  | succ i ih => simp [gauss_points, gauss_add_length, ih]

theorem gauss_boxes_length (m : LibM K) (legendre : K → Nat → List K)
    (quad_x quad_w : Tensor K) (npt twok : Nat) (scaledcoeff beta h argmax : K) (lx : Int)
    (v : Tensor K) (t : Nat) :
    (gauss_boxes m legendre quad_x quad_w npt twok scaledcoeff beta h argmax lx v t).1.p.length
      = v.p.length := by
  induction t with
  | zero => rfl
  | succ t ih =>
    simp only [gauss_boxes]
    split
    · exact ih
    · split
      · exact ih
      · simp [gauss_points_length, ih]

theorem rnlp_core_length [FloorRing K] (lib : TensorLib K) (m : LibM K)
    (legendre : K → Nat → List K) (g : GaussianConvolution1D K) (n lx : Int) :
    (GaussianConvolution1D.rnlp_core lib m legendre g n lx).p.length = 2 * g.k := by
  unfold GaussianConvolution1D.rnlp_core
  simp [gauss_boxes_length, Tensor.zeros1]

theorem flip_odd_length (v : Tensor K) (t : Nat) : (flip_odd v t).p.length = v.p.length := by
  induction t with
  | zero => rfl
  | succ t ih => simp [flip_odd, ih]

theorem flip_odd_get (v : Tensor K) (t p : Nat) :
    (flip_odd v t).get p
      = if p % 2 = 1 ∧ p < 2 * t ∧ p < v.p.length then -(v.get p) else v.get p := by
  induction t generalizing p with
  | zero =>
    simp only [flip_odd]
    rw [if_neg (by omega)]
  | succ t ih =>
    simp only [flip_odd]
    rw [tensor_get_set, flip_odd_length, ih p, ih (2 * t + 1)]
    by_cases h1 : 2 * t + 1 = p
    · subst h1
      by_cases h2 : 2 * t + 1 < v.p.length
      · rw [if_pos ⟨rfl, h2⟩, if_neg (by omega), if_pos ⟨by omega, by omega, h2⟩]
      · rw [if_neg (fun h => h2 h.2), if_neg (by omega), if_neg (fun h => h2 h.2.2)]
    · rw [if_neg (fun h => h1 h.1)]
      by_cases h3 : p % 2 = 1 ∧ p < 2 * t ∧ p < v.p.length
      · rw [if_pos h3, if_pos ⟨h3.1, by omega, h3.2.2⟩]
      · rw [if_neg h3, if_neg (by omega)]

/-- Flipping the odd entries of a vector of length `2k` multiplies entry `p` by
`(-1)^p`. -/
theorem flip_odd_sign (v : Tensor K) (k : Nat) (hlen : v.p.length = 2 * k) (p : Nat) :
    (flip_odd v (2 * k / 2)).get p = (-1) ^ p * v.get p := by
  have hk : 2 * k / 2 = k := by omega
  rw [flip_odd_get, hk, hlen]
  by_cases hp : p < 2 * k
  · rcases Nat.even_or_odd p with he | ho
    · rw [if_neg (by have := Nat.even_iff.1 he; omega), he.neg_one_pow, one_mul]
    · rw [if_pos ⟨Nat.odd_iff.1 ho, hp, hp⟩, ho.neg_one_pow]
      ring
  · have h0 : v.get p = 0 := by
      simp only [Tensor.get, List.getD_eq_getElem?_getD]
      rw [List.getElem?_eq_none (by omega)]
      rfl
    rw [if_neg (by omega), h0, mul_zero]

/-- C17: for the Gaussian kernel, every level `n`, every translation `l` and every
index `p`, `rnlp(n, -l-1)[p] = (-1)^p * rnlp(n, l)[p]`. -/
theorem C17_gaussian_reflection [FloorRing K] (lib : TensorLib K) (m : LibM K)
    (legendre : K → Nat → List K) (g : GaussianConvolution1D K) (n l : Int) (p : Nat) :
    (GaussianConvolution1D.rnlp lib m legendre g n (-l - 1)).get p
      = (-1) ^ p * (GaussianConvolution1D.rnlp lib m legendre g n l).get p := by
  unfold GaussianConvolution1D.rnlp
  simp only []
  by_cases hl : l < 0
  · have h1 : ¬ (-l - 1 < 0) := by omega
    rw [if_neg h1, if_neg h1, if_pos hl, if_pos hl,
      flip_odd_sign _ g.k (rnlp_core_length lib m legendre g n _), ← mul_assoc, ← pow_add,
      Even.neg_one_pow ⟨p, rfl⟩, one_mul]
  · have h1 : -l - 1 < 0 := by omega
    have h2 : -(-l - 1) - 1 = l := by ring
    rw [if_pos h1, if_pos h1, if_neg hl, if_neg hl, h2,
      flip_odd_sign _ g.k (rnlp_core_length lib m legendre g n _)]

theorem gauss_add_get (ee : K) (phix : List K) (v : Tensor K) (t idx : Nat) :
    (gauss_add ee phix v t).get idx
      = if idx < t ∧ idx < v.p.length then v.get idx + ee * phix.getD idx 0
        else v.get idx := by
  induction t generalizing idx with
  | zero =>
    simp only [gauss_add]
    rw [if_neg (by omega)]
  | succ t ih =>
    simp only [gauss_add]
    rw [tensor_get_set, gauss_add_length, ih idx, ih t]
    by_cases h1 : t = idx
    · subst h1
      by_cases h2 : t < v.p.length
      · rw [if_pos ⟨rfl, h2⟩, if_neg (by omega), if_pos ⟨by omega, h2⟩]
      · rw [if_neg (fun h => h2 h.2), if_neg (by omega), if_neg (fun h => h2 h.2)]
    · rw [if_neg (fun h => h1 h.1)]
      by_cases h3 : idx < t ∧ idx < v.p.length
      · rw [if_pos h3, if_pos ⟨by omega, h3.2⟩]
      · rw [if_neg h3, if_neg (by omega)]

/-- Entry 0 of the vector after `i` quadrature points of one box: each point adds
its weight `ee` times the first scaling function. -/
theorem gauss_points_get_zero (m : LibM K) (legendre : K → Nat → List K)
    (quad_x quad_w : Tensor K) (twok : Nat) (scaledcoeff beta h xlo : K) (lx : Int)
    (v : Tensor K) (i : Nat) (htwok : 0 < twok) (hv : 0 < v.p.length) :
    (gauss_points m legendre quad_x quad_w twok scaledcoeff beta h xlo lx v i).get 0
      = v.get 0 + Finset.sum (Finset.range i) (fun j =>
          scaledcoeff * m.exp (-beta * (xlo + h * quad_x.get j) * (xlo + h * quad_x.get j))
              * quad_w.get j * h
            * (legendre (xlo + h * quad_x.get j - (lx : K)) twok).getD 0 0) := by
  induction i with
  | zero => simp [gauss_points]
  | succ i ih =>
    simp only [gauss_points]
    rw [gauss_add_get, gauss_points_length, if_pos ⟨htwok, hv⟩, ih, Finset.sum_range_succ,
      add_assoc]

theorem exp_hundred_le : Real.exp 100 ≤ 3 ^ 100 := by
  have h : Real.exp 100 = Real.exp 1 ^ 100 := by
    rw [← Real.exp_nat_mul]
    norm_num
  rw [h]
  exact pow_le_pow_left₀ (le_of_lt (Real.exp_pos 1))
    (by have := Real.exp_one_lt_d9; linarith) 100

theorem two_le_log_ten : (2 : ℝ) ≤ Real.log 10 := by
  rw [Real.le_log_iff_exp_le (by norm_num)]
  have h : Real.exp 2 = Real.exp 1 ^ 2 := by
    rw [← Real.exp_nat_mul]
    norm_num
  rw [h]
  have h1 := Real.exp_one_lt_d9
  have h0 := Real.exp_pos 1
  nlinarith

/-- The Gaussian kernel with coefficient `10^30` and exponent 1 at level 0 and
translation 9 runs one box, which the coefficient-aware test of `rnlp` does not skip. -/
theorem large_coeff_rnlp (legendre : ℝ → Nat → List ℝ) (quad_x quad_w c hgT hgT2k : Tensor ℝ) :
    GaussianConvolution1D.rnlp ⟨fun _ => 0, fun t => (t, t, t), fun t _ => t, fun _ t => t,
        fun x y => x ^ y⟩ ⟨Real.exp, Real.log, Real.sqrt⟩ legendre
        (GaussianConvolution1D.new ⟨Real.exp, Real.log, Real.sqrt⟩ 1 (10 ^ 30) 1 1
          quad_x quad_w c hgT hgT2k) 0 9
      = gauss_points ⟨Real.exp, Real.log, Real.sqrt⟩ legendre quad_x quad_w 2 (10 ^ 30) 1 1 9 9
          (Tensor.zeros1 2) 12 := by
  have ht : trunc (1 : ℝ) = 1 := by
    rw [trunc_of_nonneg _ (by norm_num)]
    exact Int.floor_one
  unfold GaussianConvolution1D.rnlp GaussianConvolution1D.rnlp_core GaussianConvolution1D.new
  simp only [Int.cast_zero, Real.rpow_zero, mul_one, Real.sqrt_one, div_one, ht, Int.cast_one,
    one_mul, Int.toNat_one]
  have h9 : ¬ ((9 : ℤ) < 0) := by norm_num
  have h11 : ¬ ((1 : ℤ) < 1) := by norm_num
  have harg : |Real.log (1 / 10 ^ 22 / |(10 : ℝ) ^ 30|)| = 52 * Real.log 10 := by
    have h1 : (1 : ℝ) / 10 ^ 22 / |(10 : ℝ) ^ 30| = ((10 : ℝ) ^ 52)⁻¹ := by
      rw [abs_of_pos (by positivity)]
      norm_num
    rw [h1, Real.log_inv, Real.log_pow, abs_neg, abs_of_nonneg]
    · norm_num
    · have := two_le_log_ten
      push_cast
      linarith
  have hx : ((0 : ℕ) : ℝ) + ((9 : ℤ) : ℝ) = 9 := by norm_num
  have hbox : ¬ ((1 : ℝ) * 9 * 9 > 52 * Real.log 10) := by
    have := two_le_log_ten
    norm_num
    linarith
  simp only [if_neg h9, if_neg h11, Int.cast_one, div_one, mul_one, Int.toNat_one, gauss_boxes,
    harg, hx, if_neg hbox, Bool.false_eq_true, if_false]

/-- C18, failing input: coefficient `10^30`, exponent 1, level 0, translation 9.
`issmall(0, 9)` answers true (`1 * 8^2 = 64 > 49`), while entry 0 of `rnlp(0, 9)`,
computed by any quadrature rule with nodes in `[0,1]` and non-negative weights of
sum 1 and with first scaling function 1, is at least `10^30 * exp(-100) > 1e-20`. -/
theorem C18_large_coefficient_not_negligible (legendre : ℝ → Nat → List ℝ)
    (quad_x quad_w c hgT hgT2k : Tensor ℝ)
    (hx : ∀ i, i < 12 → 0 ≤ quad_x.get i ∧ quad_x.get i ≤ 1)
    (hw : ∀ i, i < 12 → 0 ≤ quad_w.get i)
    (hsum : Finset.sum (Finset.range 12) (fun i => quad_w.get i) = 1)
    (hleg : ∀ z, (legendre z 2).getD 0 0 = 1) :
    GaussianConvolution1D.issmall ⟨fun _ => 0, fun t => (t, t, t), fun t _ => t, fun _ t => t,
        fun x y => x ^ y⟩ (1 : ℝ) 0 9 = true ∧
    tiny ≤ |(GaussianConvolution1D.rnlp ⟨fun _ => 0, fun t => (t, t, t), fun t _ => t,
        fun _ t => t, fun x y => x ^ y⟩ ⟨Real.exp, Real.log, Real.sqrt⟩ legendre
        (GaussianConvolution1D.new ⟨Real.exp, Real.log, Real.sqrt⟩ 1 (10 ^ 30) 1 1
          quad_x quad_w c hgT hgT2k) 0 9).get 0| := by
  constructor
  · simp only [GaussianConvolution1D.issmall, Int.cast_zero, Real.rpow_zero, mul_one,
      decide_eq_true_eq]
    norm_num
  · rw [large_coeff_rnlp, gauss_points_get_zero _ _ _ _ _ _ _ _ _ _ _ _ (by norm_num)
      (by simp [Tensor.zeros1])]
    have hterm : ∀ j ∈ Finset.range 12,
        (10 : ℝ) ^ 30 * (3 ^ 100)⁻¹ * quad_w.get j
          ≤ 10 ^ 30 * Real.exp (-1 * (9 + 1 * quad_x.get j) * (9 + 1 * quad_x.get j))
              * quad_w.get j * 1 * (legendre (9 + 1 * quad_x.get j - ((9 : ℤ) : ℝ)) 2).getD 0 0 := by
      intro j hj
      have hj12 : j < 12 := Finset.mem_range.1 hj
      obtain ⟨h0, h1⟩ := hx j hj12
      have hwj := hw j hj12
      rw [hleg, mul_one, mul_one]
      have hexp : (3 ^ 100 : ℝ)⁻¹ ≤ Real.exp (-1 * (9 + 1 * quad_x.get j) * (9 + 1 * quad_x.get j)) := by
        calc (3 ^ 100 : ℝ)⁻¹ ≤ (Real.exp 100)⁻¹ :=
              inv_anti₀ (Real.exp_pos 100) exp_hundred_le
          _ = Real.exp (-100) := (Real.exp_neg 100).symm
          _ ≤ _ := Real.exp_le_exp.2 (by nlinarith)
      exact mul_le_mul_of_nonneg_right
        (mul_le_mul_of_nonneg_left hexp (by positivity)) hwj
    have hs := Finset.sum_le_sum hterm
    rw [← Finset.mul_sum, hsum, mul_one] at hs
    have hz : (Tensor.zeros1 2 : Tensor ℝ).get 0 = 0 := by simp [Tensor.zeros1, Tensor.get]
    rw [hz, zero_add]
    have hlow : (tiny : ℝ) ≤ 10 ^ 30 * (3 ^ 100)⁻¹ := by
      unfold tiny
      rw [div_le_iff₀ (by positivity), mul_assoc, mul_comm _ ((10 : ℝ) ^ 20), ← mul_assoc,
        ← pow_add, ← div_eq_mul_inv, le_div_iff₀ (by positivity)]
      norm_num
    exact le_trans hlow (le_trans hs (le_abs_self _))

/-- C18, an input of the failing kind: midpoint nodes with equal weights. -/
theorem C18_large_coefficient_witness :
    GaussianConvolution1D.issmall ⟨fun _ => 0, fun t => (t, t, t), fun t _ => t, fun _ t => t,
        fun x y => x ^ y⟩ (1 : ℝ) 0 9 = true ∧
    tiny ≤ |(GaussianConvolution1D.rnlp ⟨fun _ => 0, fun t => (t, t, t), fun t _ => t,
        fun _ t => t, fun x y => x ^ y⟩ ⟨Real.exp, Real.log, Real.sqrt⟩
        (fun _ n => List.replicate n 1)
        (GaussianConvolution1D.new ⟨Real.exp, Real.log, Real.sqrt⟩ 1 (10 ^ 30) 1 1
          ⟨[12], List.replicate 12 (1 / 2)⟩ ⟨[12], List.replicate 12 (1 / 12)⟩
          (Tensor.zeros2 4 1) (Tensor.zeros2 2 2) (Tensor.zeros2 4 4)) 0 9).get 0| :=
  C18_large_coefficient_not_negligible (fun _ n => List.replicate n 1)
    ⟨[12], List.replicate 12 (1 / 2)⟩ ⟨[12], List.replicate 12 (1 / 12)⟩
    (Tensor.zeros2 4 1) (Tensor.zeros2 2 2) (Tensor.zeros2 4 4)
    (by
      intro i hi
      interval_cases i <;> simp [Tensor.get] <;> norm_num)
    (by
      intro i hi
      interval_cases i <;> simp [Tensor.get])
    (by simp [Finset.sum_range_succ, Tensor.get]; norm_num)
    (by intro z; simp [List.replicate])

/-! ## The periodic kernel -/

theorem gaxpy_length (r : Tensor K) (a : K) (t : Tensor K) (b : K) :
    (r.gaxpy a t b).p.length = r.p.length := by
  simp [Tensor.gaxpy]

theorem gaxpy_get (r : Tensor K) (a : K) (t : Tensor K) (b : K) (i : Nat)
    (hi : i < r.p.length) : (r.gaxpy a t b).get i = a * r.get i + b * t.get i := by
  simp [Tensor.gaxpy, Tensor.get, List.getD_eq_getElem?_getD, List.getElem?_map,
    List.getElem?_range hi, hi]

theorem periodic_sum_length (lib : TensorLib K) (g : Convolution1D K) (maxR n twon lx : Int)
    (r : Tensor K) (sg : Caches K) (t : Nat) :
    (periodic_sum lib g maxR n twon lx r sg t).1.p.length = r.p.length := by
  induction t with
  | zero => rfl
  | succ t ih => simp [periodic_sum, gaxpy_length, ih]

theorem periodic_sum_consistent (lib : TensorLib K) (g : Convolution1D K)
    (maxR n twon lx : Int) (r : Tensor K) (sg : Caches K) (hc : Consistent lib g sg) (t : Nat) :
    Consistent lib g (periodic_sum lib g maxR n twon lx r sg t).2 := by
  induction t with
  | zero => exact hc
  | succ t ih =>
    simp only [periodic_sum]
    exact (get_rnlp_grows lib g n _ _).consistent ih

/-- Entry `p` of the vector after `t` iterations of the image sum: the start value
plus the values of the inner operator at the translations visited so far. -/
theorem periodic_sum_get (lib : TensorLib K) (g : Convolution1D K) (maxR n twon lx : Int)
    (r : Tensor K) (sg : Caches K) (hc : Consistent lib g sg) (p : Nat) (hp : p < r.p.length)
    (t : Nat) :
    (periodic_sum lib g maxR n twon lx r sg t).1.get p
      = r.get p + Finset.sum (Finset.range t) (fun j =>
          (rnlp_value lib g n ((-maxR + (j : Int)) * twon + lx)).get p) := by
  induction t with
  | zero => simp [periodic_sum]
  | succ t ih =>
    simp only [periodic_sum]
    rw [gaxpy_get _ _ _ _ _ (by rw [periodic_sum_length]; exact hp), ih,
      get_rnlp_value lib g n _ _ (periodic_sum_consistent lib g maxR n twon lx r sg hc t),
      Finset.sum_range_succ]
    ring

/-- C19: for every cache state the inner Gaussian can be in, every level `n >= 0`,
every translation `l` and every index `p` of the result, entry `p` of the periodic
kernel's `rnlp(n, l)` is the sum, over `R = -maxR, ..., maxR` in this order, of
entry `p` of the inner Gaussian's `get_rnlp(n, R*2^n + l)`. -/
theorem C19_periodic_rnlp_is_image_sum [FloorRing K] (lib : TensorLib K) (m : LibM K)
    (legendre : K → Nat → List K) (pg : PeriodicGaussianConvolution1D K) (n : Nat) (l : Int)
    (sg : Caches K) (p : Nat)
    (hs : Reachable lib (pg.g.toConvolution1D lib m legendre) sg) (hp : p < 2 * pg.k) :
    (PeriodicGaussianConvolution1D.rnlp lib m legendre pg (n : Int) l sg).1.get p
      = Finset.sum (Finset.range (2 * pg.maxR + 1).toNat) (fun t =>
          (get_rnlp lib (pg.g.toConvolution1D lib m legendre) (n : Int)
            ((-pg.maxR + (t : Int)) * 2 ^ n + l) sg).1.get p) := by
  unfold PeriodicGaussianConvolution1D.rnlp
  simp only [Int.toNat_ofNat]
  rw [periodic_sum_get lib _ _ _ _ _ _ _ hs.consistent p (by simp [Tensor.zeros1]; exact hp)]
  have hz : (Tensor.zeros1 (2 * pg.k) : Tensor K).get p = 0 := by
    simp [Tensor.zeros1, Tensor.get, List.getD_eq_getElem?_getD, List.getElem?_replicate, hp]
  rw [hz, zero_add]
  refine Finset.sum_congr rfl (fun t _ => ?_)
  rw [get_rnlp_value lib _ _ _ sg hs.consistent]

/-- C19, instance: `maxR = 2`, exponent 1, level 0, translation 0 on a fresh
operator of order 1: entry 0 of the result is the sum of the five values of
`get_rnlp` at the translations -2, -1, 0, 1, 2. -/
theorem C19_periodic_rnlp_is_image_sum_witness :
    (PeriodicGaussianConvolution1D.rnlp
        ⟨fun _ => 0, fun t => (t, t, t), fun t _ => t, fun _ t => t, fun x y => x ^ y⟩
        ⟨Real.exp, Real.log, Real.sqrt⟩ (fun _ n => List.replicate n 1)
        (PeriodicGaussianConvolution1D.new ⟨Real.exp, Real.log, Real.sqrt⟩ 1 2 1 1 1
          ⟨[12], List.replicate 12 (1 / 2)⟩ ⟨[12], List.replicate 12 (1 / 12)⟩
          (Tensor.zeros2 4 1) (Tensor.zeros2 2 2) (Tensor.zeros2 4 4))
        0 0 Caches.fresh).1.get 0
      = ((([-2, -1, 0, 1, 2] : List Int).map (fun t =>
          (get_rnlp
            ⟨fun _ => 0, fun t => (t, t, t), fun t _ => t, fun _ t => t, fun x y => x ^ y⟩
            (GaussianConvolution1D.toConvolution1D
              ⟨fun _ => 0, fun t => (t, t, t), fun t _ => t, fun _ t => t, fun x y => x ^ y⟩
              ⟨Real.exp, Real.log, Real.sqrt⟩ (fun _ n => List.replicate n 1)
              (GaussianConvolution1D.new ⟨Real.exp, Real.log, Real.sqrt⟩ 1 1 1 1
                ⟨[12], List.replicate 12 (1 / 2)⟩ ⟨[12], List.replicate 12 (1 / 12)⟩
                (Tensor.zeros2 4 1) (Tensor.zeros2 2 2) (Tensor.zeros2 4 4)))
            0 t Caches.fresh).1.get 0)).sum : ℝ) := by
  have h := C19_periodic_rnlp_is_image_sum
    ⟨fun _ => 0, fun t => (t, t, t), fun t _ => t, fun _ t => t, fun x y => x ^ y⟩
    ⟨Real.exp, Real.log, Real.sqrt⟩ (fun _ n => List.replicate n 1)
    (PeriodicGaussianConvolution1D.new ⟨Real.exp, Real.log, Real.sqrt⟩ 1 2 1 1 1
      ⟨[12], List.replicate 12 (1 / 2)⟩ ⟨[12], List.replicate 12 (1 / 12)⟩
      (Tensor.zeros2 4 1) (Tensor.zeros2 2 2) (Tensor.zeros2 4 4))
    0 0 Caches.fresh 0 Reachable.fresh (by decide)
  refine Eq.trans h ?_
  show Finset.sum (Finset.range 5) _ = _
  simp only [PeriodicGaussianConvolution1D.new, Finset.sum_range_succ, Finset.sum_range_zero,
    List.map, List.sum_cons, List.sum_nil]
  norm_num
  ring

/-! ## The probing loop counts zeros that are not successive -/

theorem generic_not_small_during_probe (g : GenericConvolution1D K)
    (hm : g.maxl = LONG_MAX - 1) (lx : Int) (h1 : -8 ≤ lx) (h2 : lx ≤ 8) :
    g.toConvolution1D.issmall 13 lx = false := by
  simp only [GenericConvolution1D.toConvolution1D, GenericConvolution1D.issmall, hm, LONG_MAX]
  by_cases h : lx < 0
  · by_cases h7 : 1 - lx ≤ 7
    · simp [h, h7]
    · simp only [h, h7, if_true, if_false]
      norm_num
      omega
  · by_cases h7 : lx ≤ 7
    · simp [h, h7]
    · simp only [h, h7, if_false]
      norm_num
      omega

theorem generic_probe_value (lib : TensorLib K) (g : GenericConvolution1D K)
    (hm : g.maxl = LONG_MAX - 1) (lx : Int) (s : Caches K)
    (hs : Reachable lib g.toConvolution1D s) (h1 : -8 ≤ lx) (h2 : lx ≤ 8) :
    (get_rnlp lib g.toConvolution1D 13 lx s).1 = g.integrate 13 lx := by
  rw [get_rnlp_value lib _ 13 lx s hs.consistent]
  rw [rnlp_value_direct lib _ 13 lx
    (by rw [generic_not_small_during_probe g hm lx h1 h2]; simp)
    (by simp [GenericConvolution1D.toConvolution1D])]
  rfl

/-- One iteration of the probing loop at a translation `t <= 8`, in terms of the
kernel integrals at `t` and `-t`. -/
theorem generic_probe_step_eq (lib : TensorLib K) (g : GenericConvolution1D K)
    (hm : g.maxl = LONG_MAX - 1) (t : Nat) (ht : t ≤ 8) (st : ProbeState K)
    (hr : Reachable lib g.toConvolution1D st.caches) (z : Prop) [Decidable z]
    (hz : (lib.normf (g.integrate 13 (t : Int)) < 1 / 10 ^ 12 ∧
      lib.normf (g.integrate 13 (-(t : Int))) < 1 / 10 ^ 12) ↔ z) :
    Reachable lib g.toConvolution1D (GenericConvolution1D.probe_step lib g (t : Int) st).caches ∧
    (GenericConvolution1D.probe_step lib g (t : Int) st).nzero
      = (if z then st.nzero + 1 else st.nzero) ∧
    (GenericConvolution1D.probe_step lib g (t : Int) st).stopped
      = decide ((if z then st.nzero + 1 else st.nzero) = 3) ∧
    (GenericConvolution1D.probe_step lib g (t : Int) st).maxl
      = (if (if z then st.nzero + 1 else st.nzero) = 3 then (t : Int) - 2 else st.maxl) := by
  have hrp := generic_probe_value lib g hm (t : Int) st.caches hr (by omega) (by omega)
  have hrm := generic_probe_value lib g hm (-(t : Int)) _ (Reachable.get_rnlp 13 (t : Int) _ hr)
    (by omega) (by omega)
  have hc : (GenericConvolution1D.probe_step lib g (t : Int) st).caches
      = (get_rnlp lib g.toConvolution1D 13 (-(t : Int))
          (get_rnlp lib g.toConvolution1D 13 (t : Int) st.caches).2).2 := by
    unfold GenericConvolution1D.probe_step
    simp only []
    split <;> split <;> rfl
  refine ⟨?_, ?_⟩
  · rw [hc]
    exact Reachable.get_rnlp _ _ _ (Reachable.get_rnlp _ _ _ hr)
  · unfold GenericConvolution1D.probe_step
    simp only [hrp, hrm, hz]
    by_cases h3 : (if z then st.nzero + 1 else st.nzero) = 3
    · simp [h3]
    · simp [h3]

theorem ring_normf_small (x : Int) :
    demoLib.normf (ringIntegrate 13 x) < 1 / 10 ^ 12
      ↔ ¬ ((2 ≤ x ∧ x ≤ 3) ∨ (-3 ≤ x ∧ x ≤ -2)) := by
  by_cases h : (2 ≤ x ∧ x ≤ 3) ∨ (-3 ≤ x ∧ x ≤ -2)
  · simp only [demoLib, ringIntegrate, h, if_true, not_true, iff_false]
    norm_num
  · simp only [demoLib, ringIntegrate, h, if_false, not_false_eq_true, iff_true]
    norm_num

theorem ring_zero_iff (t : Nat) :
    (demoLib.normf (ringGeneric0.integrate 13 (t : Int)) < 1 / 10 ^ 12 ∧
      demoLib.normf (ringGeneric0.integrate 13 (-(t : Int))) < 1 / 10 ^ 12)
      ↔ (t < 2 ∨ 4 ≤ t) := by
  show (demoLib.normf (ringIntegrate 13 (t : Int)) < 1 / 10 ^ 12 ∧
      demoLib.normf (ringIntegrate 13 (-(t : Int))) < 1 / 10 ^ 12) ↔ _
  rw [ring_normf_small, ring_normf_small]
  omega

/-- The probing loop on the ring kernel over its first four iterations: it is
still running, and two zeros (at 0 and 1) have been counted from the second
iteration on. -/
theorem ring_probe_running (t : Nat) (ht : t ≤ 4) :
    (GenericConvolution1D.probe demoLib ringGeneric0 t).stopped = false ∧
    (GenericConvolution1D.probe demoLib ringGeneric0 t).nzero = min t 2 ∧
    Reachable demoLib ringGeneric0.toConvolution1D
      (GenericConvolution1D.probe demoLib ringGeneric0 t).caches := by
  induction t with
  | zero => exact ⟨rfl, rfl, Reachable.fresh⟩
  | succ t ih =>
    obtain ⟨h1, h2, h3⟩ := ih (by omega)
    obtain ⟨e1, e2, e3, _⟩ := generic_probe_step_eq demoLib ringGeneric0 rfl t (by omega) _ h3
      _ (ring_zero_iff t)
    have hp : GenericConvolution1D.probe demoLib ringGeneric0 (t + 1)
        = GenericConvolution1D.probe_step demoLib ringGeneric0 (t : Int)
            (GenericConvolution1D.probe demoLib ringGeneric0 t) := by
      rw [probe_succ, h1]
      rfl
    rw [hp, e2, e3, h2]
    refine ⟨?_, ?_, e1⟩
    · rw [decide_eq_false_iff_not]
      split <;> omega
    · split <;> omega

/-- C20, failing input: a kernel that vanishes on the boxes 0, 1 and -1, is of size 1
on the boxes 2, 3, -2, -3 and vanishes from 4 on.  The zero translations are
0, 1, 4, 5, 6, ..., so the first three successive ones are 4, 5, 6 and would give
`maxl = 4`; the constructor counts 0, 1 and 4 and stops at `lx = 4` with
`maxl = 2`. -/
theorem C20_probe_counts_separated_zeros :
    ringGeneric.1.maxl = 2 ∧
    (∀ t : Nat, t ≤ 6 →
      ((demoLib.normf (get_rnlp demoLib ringGeneric0.toConvolution1D 13 (t : Int)
            Caches.fresh).1 < 1 / 10 ^ 12 ∧
        demoLib.normf (get_rnlp demoLib ringGeneric0.toConvolution1D 13 (-(t : Int))
            Caches.fresh).1 < 1 / 10 ^ 12)
        ↔ (t ≤ 1 ∨ 4 ≤ t))) := by
  constructor
  · obtain ⟨h1, h2, h3⟩ := ring_probe_running 4 (le_refl 4)
    obtain ⟨_, e2, e3, e4⟩ := generic_probe_step_eq demoLib ringGeneric0 rfl 4 (by decide) _ h3
      _ (ring_zero_iff 4)
    have hp : GenericConvolution1D.probe demoLib ringGeneric0 5
        = GenericConvolution1D.probe_step demoLib ringGeneric0 ((4 : Nat) : Int)
            (GenericConvolution1D.probe demoLib ringGeneric0 4) := by
      rw [show (5 : Nat) = 4 + 1 from rfl, probe_succ, h1]
      rfl
    have hstop : (GenericConvolution1D.probe demoLib ringGeneric0 5).stopped = true := by
      rw [hp, e3, h2]
      decide
    have hnew := new_of_stopped demoLib 1 (Tensor.zeros1 20) (Tensor.zeros1 20)
      (Tensor.zeros2 4 1) (Tensor.zeros2 2 2) (Tensor.zeros2 4 4) ringIntegrate sar64 5 8187
      (by decide) hstop
    have hg : ringGeneric = ({ ringGeneric0 with
          maxl := (GenericConvolution1D.probe demoLib ringGeneric0 5).maxl },
        (GenericConvolution1D.probe demoLib ringGeneric0 5).caches) := hnew
    rw [hg]
    simp only [hp, e4, h2]
    norm_num
  · intro t ht
    rw [generic_probe_value demoLib ringGeneric0 rfl (t : Int) _ Reachable.fresh (by omega)
        (by omega),
      generic_probe_value demoLib ringGeneric0 rfl (-(t : Int)) _ Reachable.fresh (by omega)
        (by omega), ring_zero_iff]
    omega

/-! ## The pruning predicate of the generic kernel -/

/-- C21: for the generic kernel, every level `n`, every value of `maxl` and every
translation `l` with `-6 <= l <= 7`, the folded value (`l` if `l >= 0`, else
`1 - l`) is at most 7 and `issmall(n,l)` is false; these are all the
translations whose folded value is at most 7. -/
theorem C21_nearest_neighbours_never_small (g : GenericConvolution1D K) (n l : Int)
    (h1 : -6 ≤ l) (h2 : l ≤ 7) :
    (if l < 0 then 1 - l else l) ≤ 7 ∧
    g.issmall n l = false ∧
    g.toConvolution1D.issmall n l = false ∧
    (∀ l2 : Int, (if l2 < 0 then 1 - l2 else l2) ≤ 7 ↔ (-6 ≤ l2 ∧ l2 ≤ 7)) := by
  have hfold : (if l < 0 then 1 - l else l) ≤ 7 := by
    split <;> omega
  have hsm : g.issmall n l = false := by
    unfold GenericConvolution1D.issmall
    simp only []
    rw [if_pos hfold]
  refine ⟨hfold, hsm, hsm, ?_⟩
  intro l2
  split <;> omega

/-- C21, instance: `maxl = 0`, level 13, translation -6 (folded value 7). -/
theorem C21_nearest_neighbours_never_small_witness :
    (if (-6 : Int) < 0 then 1 - (-6 : Int) else -6) ≤ 7 ∧
    GenericConvolution1D.issmall { demoGeneric0 with maxl := 0 } 13 (-6) = false ∧
    (GenericConvolution1D.toConvolution1D { demoGeneric0 with maxl := 0 }).issmall 13 (-6)
      = false ∧
    (∀ l2 : Int, (if l2 < 0 then 1 - l2 else l2) ≤ 7 ↔ (-6 ≤ l2 ∧ l2 ≤ 7)) :=
  C21_nearest_neighbours_never_small { demoGeneric0 with maxl := 0 } 13 (-6) (by decide)
    (by decide)

/-- C22, failing input: the operator `demoGeneric` (`maxl = 6`) on a machine whose
right shift uses the low six bits of the count, level 14 (one above the natural
level 13), translation 12.  The code evaluates `12 >> -1`, which gives 0, and
answers false, whereas the translation rescaled to the natural level,
`floor(12 / 2^(14-13)) = 6`, is `>= maxl`. -/
theorem C22_shift_count_is_negative :
    demoGeneric.1.maxl = 6 ∧
    demoGeneric.1.sar 12 (13 - 14) = 0 ∧
    demoGeneric.1.issmall 14 12 = false ∧
    (12 : Int) / 2 ^ (14 - 13) ≥ demoGeneric.1.maxl := by
  have hm := demo_probe_result.1
  have hs : demoGeneric.1.sar = sar64 := rfl
  refine ⟨hm, ?_, ?_, ?_⟩
  · rw [hs]
    decide
  · unfold GenericConvolution1D.issmall
    simp only [hs, hm]
    decide
  · rw [hm]
    decide

/-! ## The transform primitives against their specification -/

theorem naive_transpose_row_eq {T : Type} [Zero T] (n m : Nat) (a : List T) (i : Nat)
    (b : List T) (j : Nat) : naive_transpose_row n m a i b j = ft_rem_row n m a i b j := by
  induction j with
  | zero => rfl
  | succ j ih => simp only [naive_transpose_row, ft_rem_row, ih]

theorem naive_transpose_rows_eq {T : Type} [Zero T] (n m : Nat) (a b : List T) (r : Nat) :
    naive_transpose_rows n m a b r = ft_rem n m a 0 b r := by
  induction r with
  | zero => rfl
  | succ r ih => simp only [naive_transpose_rows, ft_rem, ih, naive_transpose_row_eq, Nat.zero_add]

/-- The naive double loop computes the transpose in closed form. -/
theorem naive_transpose_eq_transpose_flat {T : Type} [Zero T] (n m : Nat) (a b : List T)
    (hb : b.length = n * m) : naive_transpose n m a b = transpose_flat n m a := by
  unfold naive_transpose
  rw [naive_transpose_rows_eq]
  apply List.ext_getElem?
  intro x
  rw [ft_rem_getElem? n m a 0 b n x (by omega), hb]
  unfold transpose_flat
  rw [List.getElem?_map]
  by_cases hx : x < n * m
  · have hnpos : 0 < n := by
      rcases Nat.eq_zero_or_pos n with h | h
      · subst h; simp at hx
      · exact h
    have hmod : x % n < n := Nat.mod_lt x hnpos
    have hdiv : x / n < m := by
      rw [Nat.div_lt_iff_lt_mul hnpos, Nat.mul_comm]; exact hx
    rw [List.getElem?_range (by rw [Nat.mul_comm]; exact hx)]
    simp [hmod, hdiv, hx]
  · have h1 : (List.range (m * n))[x]? = none :=
      List.getElem?_eq_none (by rw [List.length_range, Nat.mul_comm]; omega)
    have h2 : b[x]? = none := List.getElem?_eq_none (by omega)
    rw [h1, h2]
    simp [hx]

/-- C23: for `n >= 1`, `m >= 1`, a source `a` of `n*m` elements and a destination
`b` of `n*m` elements, `fast_transpose(n,m,a,b)` leaves `b[j*n+i] = a[i*m+j]` for
every `i < n`, `j < m`, and its result is the one of the naive double loop,
whichever of the three code paths runs. -/
theorem C23_fast_transpose_is_naive_transpose {T : Type} [Zero T] (n m : Nat) (a b : List T)
    (hn : 1 ≤ n) (hm : 1 ≤ m) (ha : a.length = n * m) (hb : b.length = n * m) :
    (∀ i j, i < n → j < m → (fast_transpose n m a b)[j * n + i]? = a[i * m + j]? ∧
      a[i * m + j]?.isSome) ∧
    fast_transpose n m a b = naive_transpose n m a b := by
  have hnm : 0 < n * m := Nat.mul_pos hn hm
  refine ⟨?_, ?_⟩
  · intro i j hi hj
    have hlt : i * m + j < a.length := by
      have h1 : (i + 1) * m ≤ n * m := Nat.mul_le_mul_right m hi
      have h2 : (i + 1) * m = i * m + m := by ring
      omega
    rw [fast_transpose_eq_transpose_flat n m a b hb, transpose_flat_at n m a i j hi hj,
      List.getElem?_eq_getElem hlt, List.getD_eq_getElem?_getD, List.getElem?_eq_getElem hlt]
    simp
  · rw [fast_transpose_eq_transpose_flat n m a b hb, naive_transpose_eq_transpose_flat n m a b hb]

/-- C23, instance: a `5 x 3` matrix, which takes the blocked loop for the rows
0..3 and the remainder loop for row 4. -/
theorem C23_fast_transpose_witness :
    (∀ i j, i < 5 → j < 3 →
      (fast_transpose 5 3 [1, 2, 3, 4, 5, 6, 7, 8, 9, 10, 11, 12, 13, 14, 15]
          (List.replicate 15 (0 : Int)))[j * 5 + i]?
        = ([1, 2, 3, 4, 5, 6, 7, 8, 9, 10, 11, 12, 13, 14, 15] : List Int)[i * 3 + j]? ∧
      ([1, 2, 3, 4, 5, 6, 7, 8, 9, 10, 11, 12, 13, 14, 15] : List Int)[i * 3 + j]?.isSome) ∧
    fast_transpose 5 3 [1, 2, 3, 4, 5, 6, 7, 8, 9, 10, 11, 12, 13, 14, 15]
        (List.replicate 15 (0 : Int))
      = naive_transpose 5 3 [1, 2, 3, 4, 5, 6, 7, 8, 9, 10, 11, 12, 13, 14, 15]
        (List.replicate 15 (0 : Int)) :=
  C23_fast_transpose_is_naive_transpose 5 3 [1, 2, 3, 4, 5, 6, 7, 8, 9, 10, 11, 12, 13, 14, 15]
    (List.replicate 15 (0 : Int)) (by decide) (by decide) (by decide) (by decide)

/-- C24: for `ldout >= ncol` and a destination that holds the whole patch,
`copy_2d_patch(dst, ldout, src, ldin, nrow, ncol)` leaves
`dst[i*ldout + j] = src[i*ldin + j]` for every `i < nrow`, `j < ncol` (the source
holding these elements), keeps the length of `dst`, and leaves every element of
`dst` at an index that is not of the form `i*ldout + j` with `i < nrow`,
`j < ncol` unchanged. -/
theorem C24_copy_2d_patch_copies_and_frames {T : Type} [Zero T] (dst src : List T)
    (ldout ldin nrow ncol : Nat) (hout : ncol ≤ ldout)
    (hdst : ∀ i j, i < nrow → j < ncol → i * ldout + j < dst.length)
    (hsrc : ∀ i j, i < nrow → j < ncol → i * ldin + j < src.length) :
    (∀ i j, i < nrow → j < ncol →
      (copy_2d_patch dst 0 ldout src 0 ldin nrow ncol)[i * ldout + j]? = src[i * ldin + j]? ∧
      src[i * ldin + j]?.isSome) ∧
    (copy_2d_patch dst 0 ldout src 0 ldin nrow ncol).length = dst.length ∧
    (∀ x, (∀ i j, i < nrow → j < ncol → x ≠ i * ldout + j) →
      (copy_2d_patch dst 0 ldout src 0 ldin nrow ncol)[x]? = dst[x]?) := by
  refine ⟨?_, copy_2d_patch_length _ _ _ _ _ _ _ _, ?_⟩
  · intro i j hi hj
    have h := copy_2d_patch_inside dst 0 ldout src 0 ldin nrow ncol i j hout hi hj
      (by have := hdst i j hi hj; omega)
    have hs := hsrc i j hi hj
    simp only [Nat.zero_add] at h
    rw [h, List.getD_eq_getElem?_getD, List.getElem?_eq_getElem hs]
    simp
  · intro x hx
    exact copy_2d_patch_frame dst 0 ldout src 0 ldin nrow ncol x
      (fun i j hi hj => by have := hx i j hi hj; omega)

/-- C24, instance: a `2 x 2` patch from a source with rows of length 3 into a
destination with rows of length 4; the destination keeps its entries 7 in the
columns 2, 3 and in the third row. -/
theorem C24_copy_2d_patch_witness :
    copy_2d_patch (List.replicate 12 (7 : Int)) 0 4 [1, 2, 3, 4, 5, 6] 0 3 2 2
      = [1, 2, 7, 7, 4, 5, 7, 7, 7, 7, 7, 7] ∧
    ((∀ i j, i < 2 → j < 2 →
      (copy_2d_patch (List.replicate 12 (7 : Int)) 0 4 [1, 2, 3, 4, 5, 6] 0 3 2 2)[i * 4 + j]?
        = ([1, 2, 3, 4, 5, 6] : List Int)[i * 3 + j]? ∧
      ([1, 2, 3, 4, 5, 6] : List Int)[i * 3 + j]?.isSome) ∧
    (copy_2d_patch (List.replicate 12 (7 : Int)) 0 4 [1, 2, 3, 4, 5, 6] 0 3 2 2).length
      = (List.replicate 12 (7 : Int)).length ∧
    (∀ x, (∀ i j, i < 2 → j < 2 → x ≠ i * 4 + j) →
      (copy_2d_patch (List.replicate 12 (7 : Int)) 0 4 [1, 2, 3, 4, 5, 6] 0 3 2 2)[x]?
        = (List.replicate 12 (7 : Int))[x]?)) :=
  ⟨by decide,
    C24_copy_2d_patch_copies_and_frames (List.replicate 12 (7 : Int)) [1, 2, 3, 4, 5, 6] 4 3 2 2
      (by decide)
      (fun i j hi hj => by simp; omega)
      (fun i j hi hj => by simp; omega)⟩

/-! ## The plotting utility -/

/-- C25, failing input: the lines `real` and `plot`.  `read` leaves the data type
`"real"`, which is not the data type `"double"` of a plotter that read no
data-type keyword, and `plot()` then throws `uknown data type`; with the line
`plot` alone `plot()` redirects to the real-valued plot in 3 dimensions.  No
plotter whose data type is `"real"` gets past `plot()`. -/
theorem C25_real_keyword_is_not_the_default {D : Type} [Zero D] [One D]
    (parse_int : String → Option Int) (parse_double : String → Option D) :
    (∃ p : Plotter D,
      Plotter.read parse_int parse_double Plotter.new
          [Item.word "real", Item.eol, Item.word "plot", Item.eol] = Run.done (p, [Item.eol]) ∧
      p.data_type = "real" ∧ p.plot = Run.raised "uknown data type") ∧
    (∃ q : Plotter D,
      Plotter.read parse_int parse_double Plotter.new
          [Item.word "plot", Item.eol] = Run.done (q, [Item.eol]) ∧
      q.data_type = "double" ∧ q.plot = Run.done (Doplot1.real_valued 3)) ∧
    (Plotter.new : Plotter D).data_type = "double" ∧
    (∀ p : Plotter D, p.data_type = "real" → p.plot = Run.raised "uknown data type") := by
  refine ⟨⟨_, rfl, rfl, rfl⟩, ⟨_, rfl, rfl, rfl⟩, rfl, ?_⟩
  intro p hp
  unfold Plotter.plot
  rw [hp]
  rfl

/-! ## Termination of `get_rnlp` -/

theorem get_rnlp_body_eq (lib : TensorLib K) (op : Convolution1D K)
    (child : Int → Int → Caches K → Option (Tensor K × Caches K)) (n l : Int) (s : Caches K)
    (hchild : n < op.natural_level → ∀ l2 s2,
      child (n + 1) l2 s2 = some (get_rnlp lib op (n + 1) l2 s2)) :
    get_rnlp_body lib op child n l s = some (get_rnlp lib op n l s) := by
  unfold get_rnlp_body
  cases hget : s.rnlp_cache.getptr n l with
  | some p =>
    rw [get_rnlp_hit lib op n l s p hget]
  | none =>
    rw [get_rnlp_miss lib op n l s hget]
    unfold rnlp_compute
    simp only []
    by_cases h1 : op.issmall n l = true
    · simp [h1, SimpleCache.getptr_set_self, deref]
    · by_cases h2 : n < op.natural_level
      · simp [h1, h2, hchild h2, SimpleCache.getptr_set_self, deref]
      · simp [h1, h2, SimpleCache.getptr_set_self, deref]

theorem get_rnlp_bounded_eq (lib : TensorLib K) (op : Convolution1D K) (d : Nat) :
    ∀ (n l : Int) (s : Caches K), (op.natural_level - n).toNat ≤ d →
      get_rnlp_bounded lib op d n l s = some (get_rnlp lib op n l s) := by
  induction d with
  | zero =>
    intro n l s hd
    exact get_rnlp_body_eq lib op _ n l s (fun h => by omega)
  | succ d ih =>
    intro n l s hd
    exact get_rnlp_body_eq lib op _ n l s (fun _ l2 s2 => ih (n + 1) l2 s2 (by omega))

/-- C26: `get_rnlp(n,l)` returns for every level, translation and cache state: run
with room for `max(0, natural_level() - n)` nested calls of itself (each made at
level `n+1`, and only while `n < natural_level()`) it gives its result, and so it
does with any larger bound; every kernel evaluation it adds to the log happens
at a level `>= natural_level()`. -/
theorem C26_get_rnlp_recursion_depth (lib : TensorLib K) (op : Convolution1D K) (n l : Int)
    (s : Caches K) :
    ((op.natural_level - n).toNat : Int) = max 0 (op.natural_level - n) ∧
    get_rnlp_bounded lib op (op.natural_level - n).toNat n l s
      = some (get_rnlp lib op n l s) ∧
    (∀ d, (op.natural_level - n).toNat ≤ d →
      get_rnlp_bounded lib op d n l s = some (get_rnlp lib op n l s)) ∧
    (∃ added, (get_rnlp lib op n l s).2.kernel_calls = s.kernel_calls ++ added ∧
      ∀ e ∈ added, op.natural_level ≤ e.1) := by
  refine ⟨by omega, get_rnlp_bounded_eq lib op _ n l s (le_refl _),
    fun d hd => get_rnlp_bounded_eq lib op d n l s hd, (get_rnlp_post lib op n l s).calls⟩

/-! ## The factors kept by `make_approx` -/

theorem scale_vt_row_dim (Rs : Tensor K) (i : Nat) (RVT : Tensor K) (j : Nat) :
    (scale_vt_row Rs i RVT j).dim = RVT.dim := by
  induction j with
  | zero => rfl
  | succ j ih => simp only [scale_vt_row, Tensor.set2, ih]

theorem scale_vt_row_length (Rs : Tensor K) (i : Nat) (RVT : Tensor K) (j : Nat) :
    (scale_vt_row Rs i RVT j).p.length = RVT.p.length := by
  induction j with
  | zero => rfl
  | succ j ih => simp only [scale_vt_row, Tensor.set2, List.length_set, ih]

theorem scale_vt_row_get (Rs : Tensor K) (i : Nat) (RVT : Tensor K) (j x : Nat) :
    (scale_vt_row Rs i RVT j).get x
      = if i * RVT.dimAt 1 ≤ x ∧ x < i * RVT.dimAt 1 + j ∧ x < RVT.p.length
        then RVT.get x * Rs.get i else RVT.get x := by
  induction j generalizing x with
  | zero =>
    simp only [scale_vt_row]
    rw [if_neg (by omega)]
  | succ j ih =>
    have hd : (scale_vt_row Rs i RVT j).dimAt 1 = RVT.dimAt 1 := by
      simp only [Tensor.dimAt, scale_vt_row_dim]
    have hg : (scale_vt_row Rs i RVT j).get2 i j = RVT.get (i * RVT.dimAt 1 + j) := by
      show (scale_vt_row Rs i RVT j).get (i * (scale_vt_row Rs i RVT j).dimAt 1 + j) = _
      rw [hd, ih, if_neg (by omega)]
    simp only [scale_vt_row, Tensor.set2]
    rw [tensor_get_set, hd, hg, scale_vt_row_length, ih x]
    by_cases h1 : i * RVT.dimAt 1 + j = x
    · subst h1
      by_cases h2 : i * RVT.dimAt 1 + j < RVT.p.length
      · rw [if_pos ⟨rfl, h2⟩, if_pos ⟨by omega, by omega, h2⟩]
      · rw [if_neg (fun h => h2 h.2), if_neg (by omega), if_neg (fun h => h2 h.2.2)]
    · rw [if_neg (fun h => h1 h.1)]
      by_cases h3 : i * RVT.dimAt 1 ≤ x ∧ x < i * RVT.dimAt 1 + j ∧ x < RVT.p.length
      · rw [if_pos h3, if_pos ⟨h3.1, by omega, h3.2.2⟩]
      · rw [if_neg h3, if_neg (by omega)]

theorem scale_vt_dim (Rs : Tensor K) (n : Nat) (RVT : Tensor K) (t : Nat) :
    (scale_vt Rs n RVT t).dim = RVT.dim := by
  induction t with
  | zero => rfl
  | succ t ih => simp only [scale_vt, scale_vt_row_dim, ih]

theorem scale_vt_length (Rs : Tensor K) (n : Nat) (RVT : Tensor K) (t : Nat) :
    (scale_vt Rs n RVT t).p.length = RVT.p.length := by
  induction t with
  | zero => rfl
  | succ t ih => simp only [scale_vt, scale_vt_row_length, ih]

/-- After `t` rows of the scaling loop the entries of the rows `0..t-1` of an
`n`-column right factor have been multiplied by the singular value of their
row. -/
theorem scale_vt_get (Rs : Tensor K) (n : Nat) (RVT : Tensor K) (hw : RVT.dimAt 1 = n)
    (t x : Nat) :
    (scale_vt Rs n RVT t).get x
      = if x < t * n ∧ x < RVT.p.length then RVT.get x * Rs.get (x / n) else RVT.get x := by
  induction t with
  | zero =>
    simp only [scale_vt]
    rw [if_neg (by omega)]
  | succ t ih =>
    have hd : (scale_vt Rs n RVT t).dimAt 1 = n := by
      simp only [Tensor.dimAt, scale_vt_dim]
      exact hw
    simp only [scale_vt]
    rw [scale_vt_row_get, hd, scale_vt_length, ih]
    have hsucc : (t + 1) * n = t * n + n := by ring
    by_cases h1 : t * n ≤ x ∧ x < t * n + n ∧ x < RVT.p.length
    · have hq : x / n = t := Nat.div_eq_of_lt_le h1.1 (by omega)
      rw [if_pos h1, if_neg (by omega), if_pos ⟨by omega, h1.2.2⟩, hq]
    · rw [if_neg h1]
      by_cases h2 : x < t * n ∧ x < RVT.p.length
      · rw [if_pos h2, if_pos ⟨by omega, h2.2⟩]
      · rw [if_neg h2, if_neg (by omega)]

/-- C27: when the right factor returned by `svd` is an `n x n` tensor and the
factors satisfy `M = U * diag(s) * VT` entry by entry, `make_approx` hands `U`
back as `RU`, multiplies row `i` of `VT` by the singular value `s[i]` as `svd`
returned it (before the cumulative loop changes the array), and the stored
factors reproduce the input: `(RU * RVT)(i,j) = M(i,j)`. -/
theorem C27_scaled_factors_reproduce_input (lib : TensorLib K) (M : Tensor K)
    (hw : (lib.svd M).2.2.dimAt 1 = M.dimAt 0)
    (hlen : (lib.svd M).2.2.p.length = M.dimAt 0 * M.dimAt 0)
    (hsvd : ∀ i j, i < M.dimAt 0 → j < M.dimAt 0 →
      M.get2 i j = Finset.sum (Finset.range (M.dimAt 0)) (fun k =>
        (lib.svd M).1.get2 i k * ((lib.svd M).2.1.get k * (lib.svd M).2.2.get2 k j))) :
    (make_approx lib M).1 = (lib.svd M).1 ∧
    (∀ i j, i < M.dimAt 0 → j < M.dimAt 0 →
      (make_approx lib M).2.2.1.get2 i j
        = (lib.svd M).2.1.get i * (lib.svd M).2.2.get2 i j) ∧
    (∀ i j, i < M.dimAt 0 → j < M.dimAt 0 →
      Finset.sum (Finset.range (M.dimAt 0)) (fun k =>
        (make_approx lib M).1.get2 i k * (make_approx lib M).2.2.1.get2 k j) = M.get2 i j) := by
  have hrow : ∀ i j, i < M.dimAt 0 → j < M.dimAt 0 →
      (make_approx lib M).2.2.1.get2 i j
        = (lib.svd M).2.1.get i * (lib.svd M).2.2.get2 i j := by
    intro i j hi hj
    rw [make_approx_eq]
    show (scale_vt (lib.svd M).2.1 (M.dimAt 0) (lib.svd M).2.2 (M.dimAt 0)).get
      (i * (scale_vt (lib.svd M).2.1 (M.dimAt 0) (lib.svd M).2.2 (M.dimAt 0)).dimAt 1 + j) = _
    have hd : (scale_vt (lib.svd M).2.1 (M.dimAt 0) (lib.svd M).2.2 (M.dimAt 0)).dimAt 1
        = M.dimAt 0 := by
      simp only [Tensor.dimAt, scale_vt_dim]
      exact hw
    have hlt : i * M.dimAt 0 + j < M.dimAt 0 * M.dimAt 0 := by
      have h1 : (i + 1) * M.dimAt 0 ≤ M.dimAt 0 * M.dimAt 0 := Nat.mul_le_mul_right _ hi
      have h2 : (i + 1) * M.dimAt 0 = i * M.dimAt 0 + M.dimAt 0 := by ring
      omega
    have hq : (i * M.dimAt 0 + j) / M.dimAt 0 = i :=
      Nat.div_eq_of_lt_le (by omega) (by
        have h2 : (i + 1) * M.dimAt 0 = i * M.dimAt 0 + M.dimAt 0 := by ring
        omega)
    rw [hd, scale_vt_get _ _ _ hw, hlen, if_pos ⟨hlt, hlt⟩, hq, mul_comm]
    show _ * (lib.svd M).2.2.get (i * M.dimAt 0 + j)
      = _ * (lib.svd M).2.2.get (i * (lib.svd M).2.2.dimAt 1 + j)
    rw [hw]
  refine ⟨by rw [make_approx_eq], hrow, ?_⟩
  intro i j hi hj
  rw [hsvd i j hi hj]
  refine Finset.sum_congr rfl (fun k hk => ?_)
  rw [hrow k j (Finset.mem_range.1 hk) hj, make_approx_eq]

/-- C27, instance: the diagonal matrix with diagonal `(3, 2, 1)`, for which `svd`
returns the identity twice and the diagonal. -/
theorem C27_scaled_factors_witness :
    (make_approx diagLib ⟨[3, 3], [3, 0, 0, 0, 2, 0, 0, 0, 1]⟩).2.2.1
      = ⟨[3, 3], [3, 0, 0, 0, 2, 0, 0, 0, 1]⟩ ∧
    ((make_approx diagLib ⟨[3, 3], [3, 0, 0, 0, 2, 0, 0, 0, 1]⟩).1
      = (diagLib.svd ⟨[3, 3], [3, 0, 0, 0, 2, 0, 0, 0, 1]⟩).1 ∧
    (∀ i j, i < 3 → j < 3 →
      (make_approx diagLib ⟨[3, 3], [3, 0, 0, 0, 2, 0, 0, 0, 1]⟩).2.2.1.get2 i j
        = (diagLib.svd ⟨[3, 3], [3, 0, 0, 0, 2, 0, 0, 0, 1]⟩).2.1.get i
          * (diagLib.svd ⟨[3, 3], [3, 0, 0, 0, 2, 0, 0, 0, 1]⟩).2.2.get2 i j) ∧
    (∀ i j, i < 3 → j < 3 →
      Finset.sum (Finset.range 3) (fun k =>
        (make_approx diagLib ⟨[3, 3], [3, 0, 0, 0, 2, 0, 0, 0, 1]⟩).1.get2 i k
          * (make_approx diagLib ⟨[3, 3], [3, 0, 0, 0, 2, 0, 0, 0, 1]⟩).2.2.1.get2 k j)
        = (⟨[3, 3], [3, 0, 0, 0, 2, 0, 0, 0, 1]⟩ : Tensor ℚ).get2 i j)) := by
  have hs : diagLib.svd ⟨[3, 3], [3, 0, 0, 0, 2, 0, 0, 0, 1]⟩
      = (⟨[3, 3], [1, 0, 0, 0, 1, 0, 0, 0, 1]⟩, ⟨[3], [3, 2, 1]⟩,
          ⟨[3, 3], [1, 0, 0, 0, 1, 0, 0, 0, 1]⟩) := by
    simp [diagLib, identity, Tensor.dimAt, Tensor.get2, List.range, List.range.loop]
  refine ⟨?_, C27_scaled_factors_reproduce_input diagLib ⟨[3, 3], [3, 0, 0, 0, 2, 0, 0, 0, 1]⟩
    (by rw [hs]; rfl) (by rw [hs]; rfl) ?_⟩
  · rw [make_approx_eq, hs]
    simp [scale_vt, scale_vt_row, Tensor.set2, Tensor.get2, Tensor.get, Tensor.dimAt]
  · intro i j hi hj
    rw [hs]
    have h3 : (⟨[3, 3], [3, 0, 0, 0, 2, 0, 0, 0, 1]⟩ : Tensor ℚ).dimAt 0 = 3 := rfl
    rw [h3] at hi hj ⊢
    interval_cases i <;> interval_cases j <;>
      simp [Finset.sum_range_succ, Tensor.get2, Tensor.get, Tensor.dimAt]

/-! ## The norms kept in a block -/

theorem zero_row_dim (i : Nat) (NS : Tensor K) (j : Nat) : (zero_row i NS j).dim = NS.dim := by
  induction j with
  | zero => rfl
  | succ j ih => simp only [zero_row, Tensor.set2, ih]

theorem zero_row_length (i : Nat) (NS : Tensor K) (j : Nat) :
    (zero_row i NS j).p.length = NS.p.length := by
  induction j with
  | zero => rfl
  | succ j ih => simp only [zero_row, Tensor.set2, List.length_set, ih]

theorem zero_row_get (i : Nat) (NS : Tensor K) (j x : Nat) :
    (zero_row i NS j).get x
      = if i * NS.dimAt 1 ≤ x ∧ x < i * NS.dimAt 1 + j ∧ x < NS.p.length
        then 0 else NS.get x := by
  induction j with
  | zero =>
    simp only [zero_row]
    rw [if_neg (by omega)]
  | succ j ih =>
    have hd : (zero_row i NS j).dimAt 1 = NS.dimAt 1 := by
      simp only [Tensor.dimAt, zero_row_dim]
    simp only [zero_row, Tensor.set2]
    rw [tensor_get_set, hd, zero_row_length, ih]
    by_cases h1 : i * NS.dimAt 1 + j = x
    · subst h1
      by_cases h2 : i * NS.dimAt 1 + j < NS.p.length
      · rw [if_pos ⟨rfl, h2⟩, if_pos ⟨by omega, by omega, h2⟩]
      · rw [if_neg (fun h => h2 h.2), if_neg (by omega), if_neg (fun h => h2 h.2.2)]
    · rw [if_neg (fun h => h1 h.1)]
      by_cases h3 : i * NS.dimAt 1 ≤ x ∧ x < i * NS.dimAt 1 + j ∧ x < NS.p.length
      · rw [if_pos h3, if_pos ⟨h3.1, by omega, h3.2.2⟩]
      · rw [if_neg h3, if_neg (by omega)]

theorem zero_block_dim (k : Nat) (NS : Tensor K) (t : Nat) :
    (zero_block k NS t).dim = NS.dim := by
  induction t with
  | zero => rfl
  | succ t ih => simp only [zero_block, zero_row_dim, ih]

theorem zero_block_length (k : Nat) (NS : Tensor K) (t : Nat) :
    (zero_block k NS t).p.length = NS.p.length := by
  induction t with
  | zero => rfl
  | succ t ih => simp only [zero_block, zero_row_length, ih]

theorem row_window_iff (t w k x : Nat) (hk : k ≤ w) :
    (t * w ≤ x ∧ x < t * w + k) ↔ (x / w = t ∧ x % w < k) := by
  have hdm := Nat.div_add_mod x w
  constructor
  · rintro ⟨h1, h2⟩
    have hq : x / w = t := Nat.div_eq_of_lt_le h1 (by
      have : (t + 1) * w = t * w + w := by ring
      omega)
    rw [hq, Nat.mul_comm] at hdm
    exact ⟨hq, by omega⟩
  · rintro ⟨h1, h2⟩
    rw [h1, Nat.mul_comm] at hdm
    omega

/-- After `t` rows of the zeroing loop the entries in the first `k` columns of
the rows `0..t-1` are zero and all others are as before. -/
theorem zero_block_get (k w : Nat) (NS : Tensor K) (hw : NS.dimAt 1 = w) (hk : k ≤ w)
    (t x : Nat) :
    (zero_block k NS t).get x
      = if x / w < t ∧ x % w < k ∧ x < NS.p.length then 0 else NS.get x := by
  induction t with
  | zero =>
    simp only [zero_block]
    rw [if_neg (fun h => Nat.not_lt_zero _ h.1)]
  | succ t ih =>
    have hd : (zero_block k NS t).dimAt 1 = w := by
      simp only [Tensor.dimAt, zero_block_dim]
      exact hw
    simp only [zero_block]
    rw [zero_row_get, hd, zero_block_length, ih]
    have hiff := row_window_iff t w k x hk
    by_cases h1 : t * w ≤ x ∧ x < t * w + k ∧ x < NS.p.length
    · have h2 := hiff.1 ⟨h1.1, h1.2.1⟩
      rw [if_pos h1, if_pos ⟨by omega, h2.2, h1.2.2⟩]
    · rw [if_neg h1]
      by_cases h2 : x / w < t ∧ x % w < k ∧ x < NS.p.length
      · rw [if_pos h2, if_pos ⟨by omega, h2.2⟩]
      · rw [if_neg h2, if_neg]
        rintro ⟨h3, h4, h5⟩
        by_cases h6 : x / w = t
        · exact h1 ⟨(hiff.2 ⟨h6, h4⟩).1, (hiff.2 ⟨h6, h4⟩).2, h5⟩
        · exact h2 ⟨by omega, h4, h5⟩

theorem list_sum_map_range (l : List K) (f : K → K) :
    (l.map f).sum = Finset.sum (Finset.range l.length) (fun x => f (l.getD x 0)) := by
  induction l with
  | nil => simp
  | cons a l ih =>
    rw [List.map_cons, List.sum_cons, List.length_cons, Finset.sum_range_succ', ih, add_comm]
    simp

theorem corner_index (k w idx : Nat) (hk : k ≤ w) (hidx : idx < k * k) :
    (idx / k * w + idx % k) / w = idx / k ∧ (idx / k * w + idx % k) % w = idx % k ∧
    idx / k < k ∧ idx % k < k ∧ idx / k * w + idx % k < w * w := by
  have hkpos : 0 < k := by
    rcases Nat.eq_zero_or_pos k with h | h
    · subst h; simp at hidx
    · exact h
  have h1 : idx % k < k := Nat.mod_lt _ hkpos
  have h2 : idx / k < k := by
    rw [Nat.div_lt_iff_lt_mul hkpos]; exact hidx
  have h3 := (row_window_iff (idx / k) w w (idx / k * w + idx % k) (le_refl _)).1
    ⟨by omega, by omega⟩
  have h4 : (idx / k + 1) * w ≤ w * w := Nat.mul_le_mul_right w (by omega)
  have h5 : (idx / k + 1) * w = idx / k * w + w := by ring
  refine ⟨h3.1, ?_, h2, h1, by omega⟩
  have hdm := Nat.div_add_mod (idx / k * w + idx % k) w
  rw [h3.1, Nat.mul_comm] at hdm
  omega

/-- The sum of the squares over the top-left `k x k` corner of a `w x w` buffer,
once as a filtered sum over the buffer and once over the `k*k` entries of the
corner. -/
theorem corner_sum (k w : Nat) (hk : k ≤ w) (g : Nat → K) :
    Finset.sum (Finset.range (w * w)) (fun x => if x / w < k ∧ x % w < k then g x else 0)
      = Finset.sum (Finset.range (k * k)) (fun idx => g (idx / k * w + idx % k)) := by
  rw [← Finset.sum_filter]
  symm
  refine Finset.sum_nbij' (fun idx => idx / k * w + idx % k) (fun x => x / w * k + x % w)
    ?_ ?_ ?_ ?_ ?_
  · intro idx hidx
    obtain ⟨c1, c2, c3, c4, c5⟩ := corner_index k w idx hk (Finset.mem_range.1 hidx)
    rw [Finset.mem_filter, Finset.mem_range, c1, c2]
    exact ⟨c5, c3, c4⟩
  · intro x hx
    rw [Finset.mem_filter, Finset.mem_range] at hx
    rw [Finset.mem_range]
    show x / w * k + x % w < k * k
    have h1 : (x / w + 1) * k ≤ k * k := Nat.mul_le_mul_right k hx.2.1
    have h2 : (x / w + 1) * k = x / w * k + k := by ring
    have h3 := hx.2.2
    omega
  · intro idx hidx
    obtain ⟨c1, c2, _, _, _⟩ := corner_index k w idx hk (Finset.mem_range.1 hidx)
    show (idx / k * w + idx % k) / w * k + (idx / k * w + idx % k) % w = idx
    rw [c1, c2, Nat.mul_comm]
    exact Nat.div_add_mod idx k
  · intro x hx
    rw [Finset.mem_filter, Finset.mem_range] at hx
    show (x / w * k + x % w) / k * w + (x / w * k + x % w) % k = x
    have h3 := (row_window_iff (x / w) k k (x / w * k + x % w) (le_refl _)).1
      ⟨by omega, by omega⟩
    have hdm := Nat.div_add_mod (x / w * k + x % w) k
    rw [h3.1, Nat.mul_comm] at hdm
    have hm : (x / w * k + x % w) % k = x % w := by omega
    rw [h3.1, hm, Nat.mul_comm]
    exact Nat.div_add_mod x w
  · intro idx _
    rfl

theorem sumsq_zero_block (k w : Nat) (R : Tensor K) (hw : R.dimAt 1 = w)
    (hlen : R.p.length = w * w) (hk : k ≤ w) :
    ((zero_block k R k).p.map (fun x => x ^ 2)).sum
      = (R.p.map (fun x => x ^ 2)).sum
        - Finset.sum (Finset.range (k * k))
            (fun idx => (R.p.getD (idx / k * w + idx % k) 0) ^ 2) := by
  rw [list_sum_map_range, list_sum_map_range, zero_block_length, hlen,
    ← corner_sum k w hk (fun x => (R.p.getD x 0) ^ 2), eq_sub_iff_add_eq,
    ← Finset.sum_add_distrib]
  refine Finset.sum_congr rfl (fun x hx => ?_)
  have hx2 : x < w * w := Finset.mem_range.1 hx
  have hg : (zero_block k R k).p.getD x 0
      = if x / w < k ∧ x % w < k ∧ x < R.p.length then 0 else R.get x :=
    zero_block_get k w R hw hk k x
  rw [hg, hlen]
  by_cases hc : x / w < k ∧ x % w < k
  · rw [if_pos ⟨hc.1, hc.2, hx2⟩, if_pos hc]
    simp
  · rw [if_neg (fun h => hc ⟨h.1, h.2.1⟩), if_neg hc]
    simp [Tensor.get]

/-! ## Pruning and refinement for the Gaussian kernel -/

/-- A small key of the Gaussian kernel has small children. -/
theorem gaussian_issmall_children (lib : TensorLib K) (expnt : K) (n l : Int)
    (hn : lib.pow (1 / 4) (n : K) = (4 : K) ^ (-n))
    (hn1 : lib.pow (1 / 4) ((n + 1 : Int) : K) = (4 : K) ^ (-(n + 1)))
    (hsm : GaussianConvolution1D.issmall lib expnt n l = true) :
    GaussianConvolution1D.issmall lib expnt (n + 1) (2 * l) = true ∧
    GaussianConvolution1D.issmall lib expnt (n + 1) (2 * l + 1) = true := by
  have h4 : (4 : K) ^ (-(n + 1)) = (4 : K) ^ (-n) / 4 := by
    rw [neg_add, zpow_add₀ (by norm_num : (4 : K) ≠ 0), zpow_neg_one]
    ring
  unfold GaussianConvolution1D.issmall at hsm ⊢
  simp only [decide_eq_true_eq] at hsm ⊢
  rw [hn] at hsm
  rw [hn1, h4]
  have hP : expnt * ((4 : K) ^ (-n) / 4) = (expnt * (4 : K) ^ (-n)) / 4 := by ring
  rw [hP]
  generalize expnt * (4 : K) ^ (-n) = P at hsm ⊢
  rcases lt_trichotomy l 0 with h | h | h
  · have e0 : (if l > 0 then l - 1 else if l < 0 then -1 - l else 0) = -1 - l := by
      rw [if_neg (by omega), if_pos h]
    have e1 : (if 2 * l > 0 then 2 * l - 1 else if 2 * l < 0 then -1 - 2 * l else 0)
        = -1 - 2 * l := by
      rw [if_neg (by omega), if_pos (by omega)]
    have e2 : (if 2 * l + 1 > 0 then 2 * l + 1 - 1
        else if 2 * l + 1 < 0 then -1 - (2 * l + 1) else 0) = -1 - (2 * l + 1) := by
      rw [if_neg (by omega), if_pos (by omega)]
    rw [e0] at hsm
    rw [e1, e2]
    have hl : (l : K) ≤ -1 := by exact_mod_cast (by omega : l ≤ -1)
    push_cast at hsm ⊢
    have hPpos : 0 < P := by
      by_contra hneg
      have h1 : P * (-1 - (l : K)) * (-1 - (l : K)) ≤ 0 := by
        have h2 : 0 ≤ (-1 - (l : K)) * (-1 - (l : K)) := mul_self_nonneg _
        nlinarith
      linarith
    constructor <;> nlinarith
  · subst h
    simp at hsm
    linarith
  · have e0 : (if l > 0 then l - 1 else if l < 0 then -1 - l else 0) = l - 1 := by
      rw [if_pos h]
    have e1 : (if 2 * l > 0 then 2 * l - 1 else if 2 * l < 0 then -1 - 2 * l else 0)
        = 2 * l - 1 := by
      rw [if_pos (by omega)]
    have e2 : (if 2 * l + 1 > 0 then 2 * l + 1 - 1
        else if 2 * l + 1 < 0 then -1 - (2 * l + 1) else 0) = 2 * l + 1 - 1 := by
      rw [if_pos (by omega)]
    rw [e0] at hsm
    rw [e1, e2]
    have hl : (1 : K) ≤ (l : K) := by exact_mod_cast (by omega : 1 ≤ l)
    push_cast at hsm ⊢
    have hPpos : 0 < P := by
      by_contra hneg
      have h1 : P * ((l : K) - 1) * ((l : K) - 1) ≤ 0 := by
        have h2 : 0 ≤ ((l : K) - 1) * ((l : K) - 1) := mul_self_nonneg _
        nlinarith
      linarith
    constructor <;> nlinarith

/-- C29: for the Gaussian kernel, when `pow(0.25, j)` is `4^(-j)`, a key `(n,l)`
with `issmall(n,l)` has both children `(n+1, 2l)` and `(n+1, 2l+1)` small; from
every reachable cache state `get_rnlp` then returns the zero vector of length
`2k` for the key and for both children, and, `transform` mapping the zero vector
of length `4k` to itself, the refinement of the children's vectors (the first
`2k` entries of the transform of their concatenation) is the vector returned
for the key. -/
theorem C29_small_keys_have_small_children [FloorRing K] (lib : TensorLib K) (m : LibM K)
    (legendre : K → Nat → List K) (g : GaussianConvolution1D K) (n l : Int) (s : Caches K)
    (hpow : ∀ j : Int, lib.pow (1 / 4) (j : K) = (4 : K) ^ (-j))
    (htr : lib.transform (Tensor.zeros1 (2 * (2 * g.k))) g.hgT2k
      = Tensor.zeros1 (2 * (2 * g.k)))
    (hs : Reachable lib (g.toConvolution1D lib m legendre) s)
    (hsm : GaussianConvolution1D.issmall lib g.expnt n l = true) :
    GaussianConvolution1D.issmall lib g.expnt (n + 1) (2 * l) = true ∧
    GaussianConvolution1D.issmall lib g.expnt (n + 1) (2 * l + 1) = true ∧
    (get_rnlp lib (g.toConvolution1D lib m legendre) n l s).1 = Tensor.zeros1 (2 * g.k) ∧
    (get_rnlp lib (g.toConvolution1D lib m legendre) (n + 1) (2 * l) s).1
      = Tensor.zeros1 (2 * g.k) ∧
    (get_rnlp lib (g.toConvolution1D lib m legendre) (n + 1) (2 * l + 1) s).1
      = Tensor.zeros1 (2 * g.k) ∧
    (⟨[2 * g.k],
        (lib.transform
          ⟨[2 * (2 * g.k)],
            (get_rnlp lib (g.toConvolution1D lib m legendre) (n + 1) (2 * l) s).1.p
              ++ (get_rnlp lib (g.toConvolution1D lib m legendre) (n + 1) (2 * l + 1) s).1.p⟩
          g.hgT2k).p.take (2 * g.k)⟩ : Tensor K)
      = (get_rnlp lib (g.toConvolution1D lib m legendre) n l s).1 := by
  obtain ⟨c1, c2⟩ := gaussian_issmall_children lib g.expnt n l (hpow n) (hpow (n + 1)) hsm
  have hc := hs.consistent
  have v0 : (get_rnlp lib (g.toConvolution1D lib m legendre) n l s).1
      = Tensor.zeros1 (2 * g.k) := by
    rw [get_rnlp_value lib _ n l s hc]
    exact rnlp_value_small lib _ n l hsm
  have v1 : (get_rnlp lib (g.toConvolution1D lib m legendre) (n + 1) (2 * l) s).1
      = Tensor.zeros1 (2 * g.k) := by
    rw [get_rnlp_value lib _ _ _ s hc]
    exact rnlp_value_small lib _ _ _ c1
  have v2 : (get_rnlp lib (g.toConvolution1D lib m legendre) (n + 1) (2 * l + 1) s).1
      = Tensor.zeros1 (2 * g.k) := by
    rw [get_rnlp_value lib _ _ _ s hc]
    exact rnlp_value_small lib _ _ _ c2
  refine ⟨c1, c2, v0, v1, v2, ?_⟩
  rw [v0, v1, v2]
  have hcat : (⟨[2 * (2 * g.k)],
      (Tensor.zeros1 (2 * g.k) : Tensor K).p ++ (Tensor.zeros1 (2 * g.k) : Tensor K).p⟩ : Tensor K)
      = Tensor.zeros1 (2 * (2 * g.k)) := by
    simp only [Tensor.zeros1, List.append_replicate_replicate]
    have e2 : 2 * g.k + 2 * g.k = 2 * (2 * g.k) := by omega
    rw [e2]
  rw [hcat, htr]
  simp only [Tensor.zeros1, List.take_replicate]
  congr 2
  omega

/-- C29, instance: the unit Gaussian of order 1 over the reals at key `(0, 50)`,
whose children are `(1, 100)` and `(1, 101)`, on fresh caches. -/
theorem C29_small_keys_witness :
    GaussianConvolution1D.issmall
        ⟨fun _ => 0, fun t => (t, t, t), fun t _ => t, fun _ t => t, fun x y => x ^ y⟩
        (1 : ℝ) 0 50 = true ∧
    (GaussianConvolution1D.issmall
        ⟨fun _ => 0, fun t => (t, t, t), fun t _ => t, fun _ t => t, fun x y => x ^ y⟩
        (1 : ℝ) (0 + 1) (2 * 50) = true ∧
    GaussianConvolution1D.issmall
        ⟨fun _ => 0, fun t => (t, t, t), fun t _ => t, fun _ t => t, fun x y => x ^ y⟩
        (1 : ℝ) (0 + 1) (2 * 50 + 1) = true) := by
  have hpow : ∀ j : Int, ((1 / 4 : ℝ)) ^ ((j : Int) : ℝ) = (4 : ℝ) ^ (-j) := by
    intro j
    rw [Real.rpow_intCast, one_div, inv_zpow, zpow_neg]
  have hsm : GaussianConvolution1D.issmall
      ⟨fun _ => 0, fun t => (t, t, t), fun t _ => t, fun _ t => t, fun x y => x ^ y⟩
      (1 : ℝ) 0 50 = true := by
    simp only [GaussianConvolution1D.issmall, Int.cast_zero, Real.rpow_zero, mul_one,
      decide_eq_true_eq]
    norm_num
  have h := C29_small_keys_have_small_children
    ⟨fun _ => 0, fun t => (t, t, t), fun t _ => t, fun _ t => t, fun x y => x ^ y⟩
    ⟨Real.exp, Real.log, Real.sqrt⟩ (fun _ n => List.replicate n 1)
    (GaussianConvolution1D.new ⟨Real.exp, Real.log, Real.sqrt⟩ 1 1 1 1
      (Tensor.zeros1 12) (Tensor.zeros1 12) (Tensor.zeros2 4 1) (Tensor.zeros2 2 2)
      (Tensor.zeros2 4 4))
    0 50 Caches.fresh hpow rfl Reachable.fresh hsm
  exact ⟨hsm, h.1, h.2.1⟩

/-! ## Rounding to binary64 -/

/-- What `rne` returns: the nearest integer, or of two nearest the even one. -/
theorem rne_char (q : ℚ) :
    |(rne q : ℚ) - q| < 1 / 2 ∨ (|(rne q : ℚ) - q| = 1 / 2 ∧ rne q % 2 = 0) := by
  have h1 : (⌊q⌋ : ℚ) ≤ q := Int.floor_le q
  have h2 : q < ⌊q⌋ + 1 := Int.lt_floor_add_one q
  unfold rne
  simp only []
  by_cases c1 : q - ⌊q⌋ < 1 / 2
  · rw [if_pos c1]
    left
    rw [abs_lt]
    constructor <;> linarith
  · rw [if_neg c1]
    by_cases c2 : q - ⌊q⌋ > 1 / 2
    · rw [if_pos c2]
      left
      push_cast
      rw [abs_lt]
      constructor <;> linarith
    · rw [if_neg c2]
      have c3 : q - ⌊q⌋ = 1 / 2 := le_antisymm (not_lt.1 c2) (not_lt.1 c1)
      right
      by_cases c4 : ⌊q⌋ % 2 = 0
      · rw [if_pos c4]
        refine ⟨?_, c4⟩
        rw [abs_sub_comm, c3]
        norm_num
      · rw [if_neg c4]
        refine ⟨?_, by omega⟩
        push_cast
        have : (⌊q⌋ : ℚ) + 1 - q = 1 / 2 := by linarith
        rw [this]
        norm_num

/-- The integer described by `rne_char` is unique. -/
theorem rne_unique (q : ℚ) (z1 z2 : ℤ)
    (h1 : |(z1 : ℚ) - q| < 1 / 2 ∨ (|(z1 : ℚ) - q| = 1 / 2 ∧ z1 % 2 = 0))
    (h2 : |(z2 : ℚ) - q| < 1 / 2 ∨ (|(z2 : ℚ) - q| = 1 / 2 ∧ z2 % 2 = 0)) : z1 = z2 := by
  have b1 : |(z1 : ℚ) - q| ≤ 1 / 2 := by
    rcases h1 with h | h
    · exact le_of_lt h
    · exact le_of_eq h.1
  have b2 : |(z2 : ℚ) - q| ≤ 1 / 2 := by
    rcases h2 with h | h
    · exact le_of_lt h
    · exact le_of_eq h.1
  have a1 := abs_le.1 b1
  have a2 := abs_le.1 b2
  have hd1 : ((z1 - z2 : ℤ) : ℚ) ≤ 1 := by push_cast; linarith
  have hd2 : (-1 : ℚ) ≤ ((z1 - z2 : ℤ) : ℚ) := by push_cast; linarith
  have hd1' : z1 - z2 ≤ 1 := by exact_mod_cast hd1
  have hd2' : -1 ≤ z1 - z2 := by exact_mod_cast hd2
  by_contra hne
  have hcase : z1 - z2 = 1 ∨ z1 - z2 = -1 := by omega
  have s1 : ¬ |(z1 : ℚ) - q| < 1 / 2 := by
    intro h
    have := abs_lt.1 h
    rcases hcase with hc | hc
    · have : (z1 : ℚ) = z2 + 1 := by
        have : ((z1 - z2 : ℤ) : ℚ) = 1 := by exact_mod_cast hc
        push_cast at this; linarith
      linarith
    · have : (z1 : ℚ) = z2 - 1 := by
        have : ((z1 - z2 : ℤ) : ℚ) = -1 := by exact_mod_cast hc
        push_cast at this; linarith
      linarith
  have s2 : ¬ |(z2 : ℚ) - q| < 1 / 2 := by
    intro h
    have := abs_lt.1 h
    rcases hcase with hc | hc
    · have : (z1 : ℚ) = z2 + 1 := by
        have : ((z1 - z2 : ℤ) : ℚ) = 1 := by exact_mod_cast hc
        push_cast at this; linarith
      linarith
    · have : (z1 : ℚ) = z2 - 1 := by
        have : ((z1 - z2 : ℤ) : ℚ) = -1 := by exact_mod_cast hc
        push_cast at this; linarith
      linarith
  have e1 : z1 % 2 = 0 := by rcases h1 with h | h; exact absurd h s1; exact h.2
  have e2 : z2 % 2 = 0 := by rcases h2 with h | h; exact absurd h s2; exact h.2
  omega

theorem rne_eq (q : ℚ) (z : ℤ)
    (h : |(z : ℚ) - q| < 1 / 2 ∨ (|(z : ℚ) - q| = 1 / 2 ∧ z % 2 = 0)) : rne q = z :=
  rne_unique q _ _ (rne_char q) h

theorem rne_intCast (z : ℤ) : rne (z : ℚ) = z :=
  rne_eq _ z (Or.inl (by simp))

theorem rne_neg (q : ℚ) : rne (-q) = -rne q := by
  apply rne_eq
  have h := rne_char q
  have e : ((-rne q : ℤ) : ℚ) - -q = -((rne q : ℚ) - q) := by push_cast; ring
  rw [e, abs_neg]
  rcases h with h | h
  · exact Or.inl h
  · exact Or.inr ⟨h.1, by omega⟩

theorem rne_mono : Monotone rne := by
  intro x y hxy
  by_contra hlt
  have hlt : rne y < rne x := not_le.1 hlt
  have hx : |(rne x : ℚ) - x| ≤ 1 / 2 := by
    rcases rne_char x with h | h; exact le_of_lt h; exact le_of_eq h.1
  have hy : |(rne y : ℚ) - y| ≤ 1 / 2 := by
    rcases rne_char y with h | h; exact le_of_lt h; exact le_of_eq h.1
  have ax := abs_le.1 hx
  have ay := abs_le.1 hy
  have h1 : (rne y : ℚ) + 1 ≤ rne x := by exact_mod_cast hlt
  -- then x = y, the midpoint between `rne y` and `rne x = rne y + 1`
  have hxy2 : x = y := by linarith
  subst hxy2
  exact absurd rfl (ne_of_gt hlt)

theorem grid64_neg (q : ℚ) : grid64 (-q) = grid64 q := by
  unfold grid64
  rw [abs_neg]

theorem round64_zero : round64 0 = 0 := by
  simp [round64]

theorem round64_neg (q : ℚ) : round64 (-q) = -round64 q := by
  unfold round64
  by_cases h : q = 0
  · simp [h]
  · rw [if_neg h, if_neg (neg_ne_zero.2 h), grid64_neg, neg_div, rne_neg]
    push_cast
    ring

theorem round64_nonneg (q : ℚ) (h : 0 ≤ q) : 0 ≤ round64 q := by
  unfold round64
  split
  · exact le_refl _
  · have h1 : 0 ≤ q / 2 ^ grid64 q := div_nonneg h (by positivity)
    have h2 : rne 0 ≤ rne (q / 2 ^ grid64 q) := rne_mono h1
    have h3 : rne (0 : ℚ) = 0 := by exact_mod_cast rne_intCast 0
    rw [h3] at h2
    have h4 : (0 : ℚ) ≤ rne (q / 2 ^ grid64 q) := by exact_mod_cast h2
    positivity

theorem log_eq_of_bounds (q : ℚ) (e : ℤ) (hlo : (2 : ℚ) ^ e ≤ |q|)
    (hhi : |q| < 2 ^ (e + 1)) :
    Int.log 2 |q| = e := by
  have hpos : 0 < |q| := lt_of_lt_of_le (by positivity) hlo
  have h1 : e ≤ Int.log 2 |q| :=
    (Int.zpow_le_iff_le_log (by norm_num) hpos).1 (by exact_mod_cast hlo)
  have h2 : Int.log 2 |q| < e + 1 :=
    (Int.lt_zpow_iff_log_lt (by norm_num) hpos).1 (by exact_mod_cast hhi)
  omega

theorem round64_of_multiple (q : ℚ) (w : ℤ) (h : q / 2 ^ grid64 q = w) : round64 q = q := by
  unfold round64
  by_cases h0 : q = 0
  · rw [if_pos h0, h0]
  · rw [if_neg h0, h, rne_intCast, ← h]
    field_simp

theorem zpow_two_intCast (k : ℤ) (hk : 0 ≤ k) :
    ((2 : ℚ) ^ k) = ((2 ^ k.toNat : ℤ) : ℚ) := by
  obtain ⟨n, rfl⟩ := Int.eq_ofNat_of_zero_le hk
  simp

/-- A multiple `z * 2^g` of a power of two not below `2^-1074`, with `|z| <= 2^53`,
is a double: rounding leaves it as it is. -/
theorem round64_fixed (q : ℚ) (z g : ℤ) (hq : q = z * 2 ^ g) (hz : |z| ≤ 2 ^ 53)
    (hg : -1074 ≤ g) : round64 q = q := by
  by_cases h0 : q = 0
  · rw [h0, round64_zero]
  have hpos : 0 < |q| := abs_pos.2 h0
  have habs : |q| = |(z : ℚ)| * 2 ^ g := by
    rw [hq, abs_mul, abs_of_pos (by positivity : (0 : ℚ) < 2 ^ g)]
  obtain ⟨G, hGdef⟩ : ∃ G, G = grid64 q := ⟨_, rfl⟩
  by_cases hlt : |z| < 2 ^ 53
  · -- the grid of q is not coarser than 2^g
    have hzq : |(z : ℚ)| < 2 ^ (53 : ℤ) := by
      have h : ((|z| : ℤ) : ℚ) < ((2 ^ 53 : ℤ) : ℚ) := by exact_mod_cast hlt
      rw [Int.cast_abs] at h
      norm_num at h ⊢
      exact h
    have hlt2 : |q| < 2 ^ (53 + g) := by
      rw [habs, zpow_add₀ (by norm_num)]
      exact mul_lt_mul_of_pos_right hzq (by positivity)
    have hlog : Int.log 2 |q| < 53 + g :=
      (Int.lt_zpow_iff_log_lt (by norm_num) hpos).1 (by exact_mod_cast hlt2)
    have hG : G ≤ g := by
      rw [hGdef]
      unfold grid64
      exact max_le (by omega) hg
    apply round64_of_multiple q (z * 2 ^ (g - G).toNat)
    rw [← hGdef, hq, mul_div_assoc, ← zpow_sub₀ (by norm_num), zpow_two_intCast _ (by omega)]
    push_cast
    ring
  · -- q is 2^53 * 2^g up to sign
    have hzeq : |z| = 2 ^ 53 := le_antisymm hz (not_lt.1 hlt)
    have hzq : |(z : ℚ)| = 2 ^ (53 : ℤ) := by
      have h : ((|z| : ℤ) : ℚ) = ((2 ^ 53 : ℤ) : ℚ) := by exact_mod_cast hzeq
      rw [Int.cast_abs] at h
      norm_num at h ⊢
      exact h
    have heq : |q| = 2 ^ (53 + g) := by
      rw [habs, zpow_add₀ (by norm_num), hzq]
    have hlog : Int.log 2 |q| = 53 + g := by
      rw [heq, show ((2 : ℚ) ^ (53 + g)) = ((2 : ℕ) : ℚ) ^ (53 + g) by norm_num,
        Int.log_zpow (by norm_num)]
    have hG : G = g + 1 := by
      rw [hGdef]
      unfold grid64
      rw [hlog, max_eq_left (by omega)]
      ring
    have hz2 : ∃ w : ℤ, z = 2 * w := by
      rcases abs_choice z with h | h
      · exact ⟨2 ^ 52, by rw [← h, hzeq]; norm_num⟩
      · exact ⟨-2 ^ 52, by
          have : z = -|z| := by rw [h]; ring
          rw [this, hzeq]; norm_num⟩
    obtain ⟨w, hw⟩ := hz2
    apply round64_of_multiple q w
    rw [← hGdef, hG, hq, hw, zpow_add₀ (by norm_num)]
    push_cast
    field_simp
    ring

theorem round64_intCast (z : ℤ) (hz : |z| ≤ 2 ^ 53) : round64 (z : ℚ) = z :=
  round64_fixed _ z 0 (by simp) hz (by norm_num)

/-- Evaluation of `round64` in a binade: for `2^e <= |q| < 2^(e+1)` with
`e >= -1022` the result is `z * 2^(e-52)` for the integer `z` nearest to
`q / 2^(e-52)`. -/
theorem round64_eq (q : ℚ) (e z : ℤ) (hlo : (2 : ℚ) ^ e ≤ |q|) (hhi : |q| < 2 ^ (e + 1))
    (he : -1022 ≤ e)
    (hz : |(z : ℚ) - q / 2 ^ (e - 52)| < 1 / 2 ∨
      (|(z : ℚ) - q / 2 ^ (e - 52)| = 1 / 2 ∧ z % 2 = 0)) :
    round64 q = z * 2 ^ (e - 52) := by
  have hq0 : q ≠ 0 := by
    intro h
    rw [h, abs_zero] at hlo
    exact absurd hlo (not_le.2 (by positivity))
  have hG : grid64 q = e - 52 := by
    unfold grid64
    rw [log_eq_of_bounds q e hlo hhi, max_eq_left (by omega)]
  unfold round64
  rw [if_neg hq0, hG, rne_eq _ z hz]

/-- Every value of `round64` is a double, so rounding it again changes nothing. -/
theorem round64_idem (q : ℚ) : round64 (round64 q) = round64 q := by
  by_cases h0 : q = 0
  · rw [h0, round64_zero, round64_zero]
  have hpos : 0 < |q| := abs_pos.2 h0
  have hr : round64 q = (rne (q / 2 ^ grid64 q) : ℚ) * 2 ^ grid64 q := by
    unfold round64
    rw [if_neg h0]
  refine round64_fixed _ (rne (q / 2 ^ grid64 q)) (grid64 q) hr ?_ (le_max_right _ _)
  -- |q / 2^grid| < 2^53, hence the rounded integer is at most 2^53 in size
  have hlt : |q| < 2 ^ (Int.log 2 |q| + 1) := by
    have := Int.lt_zpow_succ_log_self (b := 2) (by norm_num) |q|
    exact_mod_cast this
  have hG : Int.log 2 |q| + 1 - grid64 q ≤ 53 := by
    unfold grid64
    have := le_max_left (Int.log 2 |q| - 52) (-1074)
    omega
  have hb : |q / 2 ^ grid64 q| ≤ 2 ^ (53 : ℤ) := by
    rw [abs_div, abs_of_pos (by positivity : (0 : ℚ) < 2 ^ grid64 q), div_le_iff₀ (by positivity),
      ← zpow_add₀ (by norm_num)]
    refine le_trans (le_of_lt hlt) ?_
    exact zpow_le_zpow_right₀ (by norm_num) (by omega)
  have hb2 := abs_le.1 hb
  have u1 : rne (q / 2 ^ grid64 q) ≤ rne ((2 ^ 53 : ℤ) : ℚ) :=
    rne_mono (by push_cast; norm_num at hb2 ⊢; exact hb2.2)
  have u2 : rne ((-2 ^ 53 : ℤ) : ℚ) ≤ rne (q / 2 ^ grid64 q) :=
    rne_mono (by push_cast; norm_num at hb2 ⊢; exact hb2.1)
  rw [rne_intCast] at u1 u2
  rw [abs_le]
  exact ⟨u2, u1⟩

theorem round64_pos_eq (q : ℚ) (h0 : q ≠ 0) :
    round64 q = (rne (q / 2 ^ grid64 q) : ℚ) * 2 ^ grid64 q := by
  unfold round64
  rw [if_neg h0]

theorem round64_le_pow (x : ℚ) (hx : 0 < x) (E : ℤ) (hE : x ≤ 2 ^ E) (hg : grid64 x ≤ E) :
    round64 x ≤ 2 ^ E := by
  rw [round64_pos_eq x (ne_of_gt hx)]
  have h1 : x / 2 ^ grid64 x ≤ ((2 ^ (E - grid64 x).toNat : ℤ) : ℚ) := by
    rw [← zpow_two_intCast _ (by omega), zpow_sub₀ (by norm_num)]
    exact div_le_div_of_nonneg_right hE (by positivity)
  have h2 := rne_mono h1
  rw [rne_intCast] at h2
  have h3 : (rne (x / 2 ^ grid64 x) : ℚ) ≤ ((2 ^ (E - grid64 x).toNat : ℤ) : ℚ) := by
    exact_mod_cast h2
  rw [← zpow_two_intCast _ (by omega)] at h3
  calc (rne (x / 2 ^ grid64 x) : ℚ) * 2 ^ grid64 x
      ≤ 2 ^ (E - grid64 x) * 2 ^ grid64 x := mul_le_mul_of_nonneg_right h3 (by positivity)
    _ = 2 ^ E := by rw [← zpow_add₀ (by norm_num)]; congr 1; ring

theorem pow52_mul (e : ℤ) : (((2 : ℤ) ^ 52 : ℤ) : ℚ) * 2 ^ (e - 52) = 2 ^ e := by
  have h : (((2 : ℤ) ^ 52 : ℤ) : ℚ) = (2 : ℚ) ^ (52 : ℤ) := by norm_num
  rw [h, ← zpow_add₀ (by norm_num)]
  congr 1
  ring

theorem round64_ge_pow (y : ℚ) (hy : 0 < y) (hg : grid64 y = Int.log 2 |y| - 52) :
    (2 : ℚ) ^ Int.log 2 |y| ≤ round64 y := by
  rw [round64_pos_eq y (ne_of_gt hy), hg]
  have hlo : (2 : ℚ) ^ Int.log 2 |y| ≤ y := by
    have := Int.zpow_log_le_self (b := 2) (r := |y|) (by norm_num) (abs_pos.2 (ne_of_gt hy))
    rw [abs_of_pos hy] at this ⊢
    exact_mod_cast this
  have h1 : (((2 : ℤ) ^ 52 : ℤ) : ℚ) ≤ y / 2 ^ (Int.log 2 |y| - 52) := by
    rw [le_div_iff₀ (by positivity)]
    rw [pow52_mul]
    exact hlo
  have h2 := rne_mono h1
  rw [rne_intCast] at h2
  have h3 : (((2 : ℤ) ^ 52 : ℤ) : ℚ) ≤ (rne (y / 2 ^ (Int.log 2 |y| - 52)) : ℚ) := by
    exact_mod_cast h2
  calc (2 : ℚ) ^ Int.log 2 |y| = (((2 : ℤ) ^ 52 : ℤ) : ℚ) * 2 ^ (Int.log 2 |y| - 52) :=
        (pow52_mul _).symm
    _ ≤ _ := mul_le_mul_of_nonneg_right h3 (by positivity)

theorem round64_mono_pos (x y : ℚ) (hx : 0 < x) (hxy : x ≤ y) : round64 x ≤ round64 y := by
  have hy : 0 < y := lt_of_lt_of_le hx hxy
  have hlog : Int.log 2 |x| ≤ Int.log 2 |y| :=
    Int.log_mono_right (abs_pos.2 (ne_of_gt hx)) (by rw [abs_of_pos hx, abs_of_pos hy]; exact hxy)
  have hg : grid64 x ≤ grid64 y := max_le_max (by omega) (le_refl _)
  rcases eq_or_lt_of_le hg with heq | hlt
  · rw [round64_pos_eq x (ne_of_gt hx), round64_pos_eq y (ne_of_gt hy), heq]
    have h1 : x / 2 ^ grid64 y ≤ y / 2 ^ grid64 y :=
      div_le_div_of_nonneg_right hxy (by positivity)
    have h2 : (rne (x / 2 ^ grid64 y) : ℚ) ≤ rne (y / 2 ^ grid64 y) := by
      exact_mod_cast rne_mono h1
    exact mul_le_mul_of_nonneg_right h2 (by positivity)
  · have hgx : -1074 ≤ grid64 x := le_max_right _ _
    have hgy : grid64 y = Int.log 2 |y| - 52 := by
      unfold grid64 at hlt ⊢
      rcases max_choice (Int.log 2 |y| - 52) (-1074) with h | h
      · exact h
      · rw [h] at hlt
        have := le_max_right (Int.log 2 |x| - 52) (-1074)
        omega
    have hlogx : Int.log 2 |x| - 52 ≤ grid64 x := le_max_left _ _
    have hlt2 : Int.log 2 |x| + 1 ≤ Int.log 2 |y| := by omega
    have hxE : x ≤ 2 ^ Int.log 2 |y| := by
      have h1 : |x| < 2 ^ (Int.log 2 |x| + 1) := by
        have := Int.lt_zpow_succ_log_self (b := 2) (by norm_num) |x|
        exact_mod_cast this
      exact le_trans (le_abs_self x)
        (le_trans (le_of_lt h1) (zpow_le_zpow_right₀ (by norm_num) hlt2))
    exact le_trans (round64_le_pow x hx _ hxE (by omega)) (round64_ge_pow y hy hgy)

/-- Rounding to binary64 is monotone. -/
theorem round64_mono : Monotone round64 := by
  intro x y hxy
  rcases lt_trichotomy x 0 with hx | hx | hx
  · rcases lt_or_le y 0 with hy | hy
    · have h := round64_mono_pos (-y) (-x) (by linarith) (by linarith)
      rw [round64_neg, round64_neg] at h
      linarith
    · have h1 := round64_nonneg (-x) (by linarith)
      rw [round64_neg] at h1
      have h2 := round64_nonneg y hy
      linarith
  · rw [hx, round64_zero]
    exact round64_nonneg y (by rw [← hx]; exact hxy)
  · exact round64_mono_pos x y hx hxy


theorem rne_err (q : ℚ) : |(rne q : ℚ) - q| ≤ 1 / 2 := by
  rcases rne_char q with h | h
  · exact le_of_lt h
  · exact le_of_eq h.1

/-- Relative accuracy of the rounding in the normal range: the error is at most
`2^-53` of the value. -/
theorem round64_rel (q : ℚ) (h : (2 : ℚ) ^ (-1022 : ℤ) ≤ |q|) :
    |round64 q - q| ≤ |q| / 2 ^ 53 := by
  have hpos : 0 < |q| := lt_of_lt_of_le (by positivity) h
  have hq0 : q ≠ 0 := abs_pos.1 hpos
  have hlog : -1022 ≤ Int.log 2 |q| :=
    (Int.zpow_le_iff_le_log (by norm_num) hpos).1 (by exact_mod_cast h)
  have hG : grid64 q = Int.log 2 |q| - 52 := by
    unfold grid64
    exact max_eq_left (by omega)
  have hlo : (2 : ℚ) ^ Int.log 2 |q| ≤ |q| := by
    exact_mod_cast Int.zpow_log_le_self (b := 2) (r := |q|) (by norm_num) hpos
  rw [round64_pos_eq q hq0, hG]
  obtain ⟨g, hgdef⟩ : ∃ g, g = Int.log 2 |q| - 52 := ⟨_, rfl⟩
  rw [← hgdef]
  have hg : (0 : ℚ) < 2 ^ g := by positivity
  have h1 := rne_err (q / 2 ^ g)
  have h2 : (rne (q / 2 ^ g) : ℚ) * 2 ^ g - q
      = ((rne (q / 2 ^ g) : ℚ) - q / 2 ^ g) * 2 ^ g := by
    field_simp
  have h3 : (2 : ℚ) ^ Int.log 2 |q| = 2 ^ g * 2 ^ (52 : ℤ) := by
    rw [← zpow_add₀ (by norm_num), hgdef]
    congr 1
    ring
  rw [h2, abs_mul, abs_of_pos hg]
  calc |(rne (q / 2 ^ g) : ℚ) - q / 2 ^ g| * 2 ^ g
      ≤ 1 / 2 * 2 ^ g := mul_le_mul_of_nonneg_right h1 (le_of_lt hg)
    _ = 2 ^ Int.log 2 |q| / 2 ^ 53 := by
        rw [h3]
        norm_num
        ring
    _ ≤ |q| / 2 ^ 53 := div_le_div_of_nonneg_right hlo (by positivity)

theorem round64_le_rel (q : ℚ) (h : (2 : ℚ) ^ (-1022 : ℤ) ≤ q) :
    round64 q ≤ q * (1 + 1 / 2 ^ 53) := by
  have hq : 0 ≤ q := le_trans (by positivity) h
  have h1 := round64_rel q (by rw [abs_of_nonneg hq]; exact h)
  rw [abs_of_nonneg hq] at h1
  have h2 := (abs_le.1 h1).2
  linarith

theorem round64_ge_rel (q : ℚ) (h : (2 : ℚ) ^ (-1022 : ℤ) ≤ q) :
    q * (1 - 1 / 2 ^ 53) ≤ round64 q := by
  have hq : 0 ≤ q := le_trans (by positivity) h
  have h1 := round64_rel q (by rw [abs_of_nonneg hq]; exact h)
  rw [abs_of_nonneg hq] at h1
  have h2 := (abs_le.1 h1).1
  linarith

/-- The tie `1 + 2^-53` rounds to the even neighbour `1`. -/
theorem round64_one_add : round64 (1 + 1 / 2 ^ 53) = 1 := by
  have h := round64_eq (1 + 1 / 2 ^ 53) 0 (2 ^ 52) (by norm_num [abs_of_pos])
    (by norm_num [abs_of_pos]) (by norm_num) (Or.inr ⟨by norm_num [abs_of_pos], by norm_num⟩)
  rw [h]
  norm_num

/-- The number `1 - 2^-53` is a double. -/
theorem round64_one_sub : round64 (1 - 1 / 2 ^ 53) = 1 - 1 / 2 ^ 53 :=
  round64_fixed _ (2 ^ 53 - 1) (-53) (by norm_num) (by norm_num [abs_of_pos]) (by norm_num)


/-! ## `make_approx` in binary64 -/

theorem finite64_eq (x v : ℚ) (h : finite64 x = some v) : v = round64 x := by
  unfold finite64 at h
  split at h
  · exact (Option.some.inj h).symm
  · exact absurd h (by simp)

theorem get_double_of_double (s : Tensor ℚ) (hd : ∀ x ∈ s.p, round64 x = x) (i : Nat) :
    round64 (s.get i) = s.get i := by
  simp only [Tensor.get, List.getD_eq_getElem?_getD]
  by_cases hi : i < s.p.length
  · rw [List.getElem?_eq_getElem hi]
    exact hd _ (List.getElem_mem hi)
  · rw [List.getElem?_eq_none (by omega)]
    exact round64_zero

/-- The state of the summation loop in binary64 after `t` iterations: the entries
below index `n-1-t` are untouched, every entry is a non-negative double, and the
entries from index `n-1-t` on do not increase. -/
theorem cumulate64_inv (n : Nat) (Rs : Tensor ℚ) (hlen : Rs.p.length = n)
    (hnn : ∀ x, 0 ≤ Rs.get x) (hdbl : ∀ x, round64 (Rs.get x) = Rs.get x) :
    ∀ t, t ≤ n - 2 → ∀ c, cumulate64 n Rs t = some c →
      c.p.length = n ∧
      (∀ x, x < n - 1 - t → c.get x = Rs.get x) ∧
      (∀ x, 0 ≤ c.get x) ∧ (∀ x, round64 (c.get x) = c.get x) ∧
      (∀ x, n - 1 - t ≤ x → x + 1 < n → c.get (x + 1) ≤ c.get x) := by
  intro t
  induction t with
  | zero =>
    intro _ c hc
    simp only [cumulate64, Option.some.injEq] at hc
    subst hc
    exact ⟨hlen, fun _ _ => rfl, hnn, hdbl, fun x h1 h2 => by omega⟩
  | succ t ih =>
    intro ht c hc
    simp only [cumulate64, Option.bind_eq_some, Option.some.injEq] at hc
    obtain ⟨s, hs, v, hv, rfl⟩ := hc
    obtain ⟨i1, i2, i3, i4, i5⟩ := ih (by omega) s hs
    have hv2 : v = round64 (s.get (n - 1 - t - 1) + s.get (n - 1 - t)) := finite64_eq _ _ hv
    have hv0 : 0 ≤ v := by
      rw [hv2]
      exact round64_nonneg _ (add_nonneg (i3 _) (i3 _))
    have hvd : round64 v = v := by
      rw [hv2]
      exact round64_idem _
    have hvge : s.get (n - 1 - t) ≤ v := by
      rw [hv2, ← i4 (n - 1 - t)]
      refine round64_mono ?_
      rw [i4]
      linarith [i3 (n - 1 - t - 1)]
    refine ⟨by rw [List.length_set]; exact i1, ?_, ?_, ?_, ?_⟩
    · intro x hx
      rw [tensor_get_set, if_neg (by omega)]
      exact i2 x (by omega)
    · intro x
      rw [tensor_get_set]
      split
      · exact hv0
      · exact i3 x
    · intro x
      rw [tensor_get_set]
      split
      · exact hvd
      · exact i4 x
    · intro x hx1 hx2
      rw [tensor_get_set, tensor_get_set, if_neg (by omega)]
      by_cases hx : n - 1 - t - 1 = x
      · rw [if_pos ⟨hx, by omega⟩]
        have : x + 1 = n - 1 - t := by omega
        rw [this]
        exact hvge
      · rw [if_neg (fun h => hx h.1)]
        exact i5 x (by omega) hx2

/-- The state of the rescaling loop in binary64 after `i` iterations. -/
theorem rescale64_get (rn : ℚ) (Rs : Tensor ℚ) :
    ∀ i c, rescale64 rn Rs i = some c →
      c.p.length = Rs.p.length ∧
      ∀ x, c.get x = if x < i ∧ x < Rs.p.length then round64 (Rs.get x * rn) else Rs.get x := by
  intro i
  induction i with
  | zero =>
    intro c hc
    simp only [rescale64, Option.some.injEq] at hc
    subst hc
    exact ⟨rfl, fun x => by rw [if_neg (by omega)]⟩
  | succ i ih =>
    intro c hc
    simp only [rescale64, Option.bind_eq_some, Option.some.injEq] at hc
    obtain ⟨s, hs, v, hv, rfl⟩ := hc
    obtain ⟨i1, i2⟩ := ih s hs
    have hv2 : v = round64 (s.get i * rn) := finite64_eq _ _ hv
    refine ⟨by rw [List.length_set]; exact i1, ?_⟩
    intro x
    rw [tensor_get_set, i1]
    by_cases h1 : i = x
    · subst h1
      by_cases h2 : i < Rs.p.length
      · rw [if_pos ⟨rfl, h2⟩, if_pos ⟨by omega, h2⟩, hv2, i2 i, if_neg (by omega)]
      · rw [if_neg (fun h => h2 h.2), if_neg (fun h => h2 h.2), i2 i, if_neg (by omega)]
    · rw [if_neg (fun h => h1 h.1), i2 x]
      by_cases h3 : x < i ∧ x < Rs.p.length
      · rw [if_pos h3, if_pos ⟨by omega, h3.2⟩]
      · rw [if_neg h3, if_neg (by omega)]

/-- The array stored by `make_approx` in binary64: the result of the summation
loop, rescaled by the rounded `1/Rs[0]` when `Rs[0] > 0`. -/
theorem make_approx64_sigma (lib : TensorLib ℚ) (R : Tensor ℚ)
    (r : Tensor ℚ × Tensor ℚ × Tensor ℚ × ℚ) (hres : make_approx64 lib R = some r) :
    ∃ c, cumulate64 (R.dimAt 0) (lib.svd R).2.1 (R.dimAt 0 - 2) = some c ∧
      ((c.get 0 > 0 ∧ ∃ rn, rn = round64 (1 / c.get 0) ∧
          rescale64 rn c (R.dimAt 0) = some r.2.1) ∨
       (¬ c.get 0 > 0 ∧ r.2.1 = c)) := by
  simp only [make_approx64, Option.bind_eq_some] at hres
  obtain ⟨RVT, -, c, hc, hrest⟩ := hres
  refine ⟨c, hc, ?_⟩
  by_cases h0 : c.get 0 > 0
  · rw [if_pos h0] at hrest
    simp only [Option.bind_eq_some, Option.some.injEq] at hrest
    obtain ⟨rn, hrn, Rs2, hRs2, rfl⟩ := hrest
    refine Or.inl ⟨h0, rn, ?_, hRs2⟩
    unfold div64 at hrn
    rw [if_neg (ne_of_gt h0)] at hrn
    exact finite64_eq _ _ hrn
  · rw [if_neg h0] at hrest
    simp only [Option.some.injEq] at hrest
    subst hrest
    exact Or.inr ⟨h0, rfl⟩

theorem cumulate64_get_zero (n : Nat) (Rs : Tensor ℚ) :
    ∀ t, t ≤ n - 2 → ∀ c, cumulate64 n Rs t = some c →
      c.p.length = Rs.p.length ∧ c.get 0 = Rs.get 0 := by
  intro t
  induction t with
  | zero =>
    intro _ c hc
    simp only [cumulate64, Option.some.injEq] at hc
    subst hc
    exact ⟨rfl, rfl⟩
  | succ t ih =>
    intro ht c hc
    simp only [cumulate64, Option.bind_eq_some, Option.some.injEq] at hc
    obtain ⟨s, hs, v, -, rfl⟩ := hc
    obtain ⟨i1, i2⟩ := ih (by omega) s hs
    refine ⟨by rw [List.length_set]; exact i1, ?_⟩
    rw [tensor_get_set, if_neg (by omega)]
    exact i2

/-- The product of a positive double `s <= 2^1022` with its rounded reciprocal,
rounded: it is `1` or the double next below `1`, never above `1`. -/
theorem round64_mul_recip (s : ℚ) (hs : 0 < s) (hr : s ≤ 2 ^ 1022) :
    1 - 1 / 2 ^ 53 ≤ round64 (s * round64 (1 / s)) ∧ round64 (s * round64 (1 / s)) ≤ 1 := by
  have h1 : (2 : ℚ) ^ (-1022 : ℤ) ≤ 1 / s := by
    rw [zpow_neg, zpow_ofNat, ← one_div]
    exact one_div_le_one_div_of_le hs hr
  have hup := round64_le_rel (1 / s) h1
  have hlo := round64_ge_rel (1 / s) h1
  have e1 : s * (1 / s * (1 + 1 / 2 ^ 53)) = 1 + 1 / 2 ^ 53 := by
    rw [← mul_assoc, mul_one_div_cancel (ne_of_gt hs), one_mul]
  have e2 : s * (1 / s * (1 - 1 / 2 ^ 53)) = 1 - 1 / 2 ^ 53 := by
    rw [← mul_assoc, mul_one_div_cancel (ne_of_gt hs), one_mul]
  constructor
  · refine le_trans (le_of_eq round64_one_sub.symm) (round64_mono ?_)
    rw [← e2]
    exact mul_le_mul_of_nonneg_left hlo (le_of_lt hs)
  · refine le_trans (round64_mono ?_) (le_of_eq round64_one_add)
    rw [← e1]
    exact mul_le_mul_of_nonneg_left hup (le_of_lt hs)

/-- The only doubles from `1 - 2^-53` to `1` are these two numbers. -/
theorem double_near_one (v : ℚ) (hv : round64 v = v) (h1 : 1 - 1 / 2 ^ 53 ≤ v) (h2 : v ≤ 1) :
    v = 1 ∨ v = 1 - 1 / 2 ^ 53 := by
  rcases eq_or_lt_of_le h2 with h | h
  · exact Or.inl h
  right
  have hpos : 0 < v := lt_of_lt_of_le (by norm_num) h1
  have hlog : Int.log 2 |v| = -1 :=
    log_eq_of_bounds v (-1) (by rw [abs_of_pos hpos]; norm_num; linarith)
      (by rw [abs_of_pos hpos]; norm_num; exact h)
  have hG : grid64 v = -53 := by
    unfold grid64
    rw [hlog]
    norm_num
  have hr := round64_pos_eq v (ne_of_gt hpos)
  rw [hv, hG] at hr
  obtain ⟨z, hz⟩ : ∃ z : ℤ, z = rne (v / 2 ^ (-53 : ℤ)) := ⟨_, rfl⟩
  rw [← hz] at hr
  have e : (2 : ℚ) ^ (-53 : ℤ) = 1 / 2 ^ 53 := by norm_num
  rw [e] at hr
  have hlo : ((2 ^ 53 - 1 : ℤ) : ℚ) ≤ (z : ℚ) := by
    push_cast
    rw [hr] at h1
    have : (0 : ℚ) < 2 ^ 53 := by positivity
    have h3 := mul_le_mul_of_nonneg_right h1 (le_of_lt this)
    norm_num at h3 ⊢
    linarith
  have hhi : (z : ℚ) < ((2 ^ 53 : ℤ) : ℚ) := by
    push_cast
    rw [hr] at h
    have : (0 : ℚ) < 2 ^ 53 := by positivity
    have h3 := mul_lt_mul_of_pos_right h this
    norm_num at h3 ⊢
    linarith
  have hlo2 : (2 ^ 53 - 1 : ℤ) ≤ z := by exact_mod_cast hlo
  have hhi2 : z < (2 ^ 53 : ℤ) := by exact_mod_cast hhi
  have hzv : z = 2 ^ 53 - 1 := by omega
  rw [hr, hzv]
  push_cast
  ring

/-- Evaluation of `round64` below the normal range: the result is `z * 2^-1074`
for the integer `z` nearest to `q / 2^-1074`. -/
theorem round64_eq_subnormal (q : ℚ) (z : ℤ) (h0 : q ≠ 0) (hq : |q| < 2 ^ (-1022 : ℤ))
    (hz : |(z : ℚ) - q / 2 ^ (-1074 : ℤ)| < 1 / 2 ∨
      (|(z : ℚ) - q / 2 ^ (-1074 : ℤ)| = 1 / 2 ∧ z % 2 = 0)) :
    round64 q = z * 2 ^ (-1074 : ℤ) := by
  have hlog : Int.log 2 |q| < -1022 :=
    (Int.lt_zpow_iff_log_lt (by norm_num) (abs_pos.2 h0)).1 (by exact_mod_cast hq)
  have hG : grid64 q = -1074 := by
    unfold grid64
    exact max_eq_right (by omega)
  unfold round64
  rw [if_neg h0, hG, rne_eq _ z hz]

/-- The bound `s <= 2^1022` of `round64_mul_recip` cannot be dropped: the
reciprocal of the double `s = 0x1.afbd67e6ee61ep+1023` is subnormal, and the
product of `s` with it rounds to `1 + 2^-51`. -/
theorem round64_mul_recip_huge :
    round64 (1 / (7595248057247262 * 2 ^ (971 : ℤ))) = 1335203896619185 * 2 ^ (-1074 : ℤ) ∧
    round64 (7595248057247262 * 2 ^ (971 : ℤ) * (1335203896619185 * 2 ^ (-1074 : ℤ)))
      = 1 + 1 / 2 ^ 51 := by
  have e1 : (1 : ℚ) / (7595248057247262 * 2 ^ (971 : ℤ))
      = 1 / 7595248057247262 * 2 ^ (-971 : ℤ) := by
    rw [one_div, mul_inv, ← zpow_neg, one_div]
  have e2 : (2 : ℚ) ^ (-1022 : ℤ) = 1 / 2 ^ 51 * 2 ^ (-971 : ℤ) := by
    rw [show (1 : ℚ) / 2 ^ 51 = 2 ^ (-51 : ℤ) by norm_num, ← zpow_add₀ (by norm_num)]
    norm_num
  have e3 : (1 : ℚ) / 7595248057247262 * 2 ^ (-971 : ℤ) / 2 ^ (-1074 : ℤ)
      = 2 ^ 103 / 7595248057247262 := by
    rw [mul_div_assoc, ← zpow_sub₀ (by norm_num)]
    norm_num
  have e4 : (7595248057247262 : ℚ) * 2 ^ (971 : ℤ) * (1335203896619185 * 2 ^ (-1074 : ℤ))
      = 7595248057247262 * 1335203896619185 / 2 ^ 103 := by
    rw [show (7595248057247262 : ℚ) * 2 ^ (971 : ℤ) * (1335203896619185 * 2 ^ (-1074 : ℤ))
      = 7595248057247262 * 1335203896619185 * (2 ^ (971 : ℤ) * 2 ^ (-1074 : ℤ)) by ring,
      ← zpow_add₀ (by norm_num)]
    norm_num
  have hp : (0 : ℚ) < 2 ^ (-971 : ℤ) := by positivity
  constructor
  · rw [e1]
    refine round64_eq_subnormal _ 1335203896619185 (by positivity) ?_ ?_
    · rw [abs_of_pos (by positivity), e2]
      exact mul_lt_mul_of_pos_right (by norm_num) hp
    · left
      rw [e3]
      norm_num [abs_lt]
  · rw [e4]
    have h := round64_eq (7595248057247262 * 1335203896619185 / 2 ^ 103) 0 4503599627370498
      (by norm_num [abs_of_pos]) (by norm_num [abs_of_pos]) (by norm_num)
      (Or.inl (by norm_num [abs_lt]))
    rw [h]
    norm_num

/-- C13 (amended): in binary64, when `svd` yields non-negative singular values,
all of them doubles and as many as the matrix has rows, and no operation of
`make_approx` overflows, the stored array has only non-negative entries, is
non-increasing from index 1 on (`sigma[i] >= sigma[i+1]` for every `i >= 1`), and
has `sigma[0] <= 1` when `s[0] <= 2^1022`. -/
theorem C13_stored_profile_binary64 (lib : TensorLib ℚ) (R : Tensor ℚ)
    (r : Tensor ℚ × Tensor ℚ × Tensor ℚ × ℚ) (hres : make_approx64 lib R = some r)
    (hlen : (lib.svd R).2.1.p.length = R.dimAt 0)
    (hnn : ∀ x ∈ (lib.svd R).2.1.p, 0 ≤ x)
    (hdbl : ∀ x ∈ (lib.svd R).2.1.p, round64 x = x) :
    (∀ i, 0 ≤ r.2.1.get i) ∧
    (∀ i, 1 ≤ i → i + 1 < R.dimAt 0 → r.2.1.get (i + 1) ≤ r.2.1.get i) ∧
    ((lib.svd R).2.1.get 0 ≤ 2 ^ 1022 → r.2.1.get 0 ≤ 1) := by
  obtain ⟨c, hc, hcase⟩ := make_approx64_sigma lib R r hres
  obtain ⟨i1, i2, i3, i4, i5⟩ := cumulate64_inv (R.dimAt 0) (lib.svd R).2.1 hlen
    (get_nonneg_of_nonneg _ hnn) (get_double_of_double _ hdbl) (R.dimAt 0 - 2) (le_refl _) c hc
  have hc0 := (cumulate64_get_zero (R.dimAt 0) (lib.svd R).2.1 (R.dimAt 0 - 2) (le_refl _) c hc).2
  have hmono : ∀ i, 1 ≤ i → i + 1 < R.dimAt 0 → c.get (i + 1) ≤ c.get i :=
    fun i h1 h2 => i5 i (by omega) h2
  rcases hcase with ⟨hpos, rn, hrn, hresc⟩ | ⟨hneg, hrc⟩
  · obtain ⟨-, j2⟩ := rescale64_get rn c (R.dimAt 0) r.2.1 hresc
    have hrn0 : 0 ≤ rn := by
      rw [hrn]
      exact round64_nonneg _ (le_of_lt (one_div_pos.2 hpos))
    refine ⟨?_, ?_, ?_⟩
    · intro i
      rw [j2 i]
      split
      · exact round64_nonneg _ (mul_nonneg (i3 i) hrn0)
      · exact i3 i
    · intro i h1 h2
      rw [j2 i, j2 (i + 1), if_pos ⟨h2, by omega⟩, if_pos ⟨by omega, by omega⟩]
      exact round64_mono (mul_le_mul_of_nonneg_right (hmono i h1 h2) hrn0)
    · intro hr
      rw [j2 0]
      split
      · rw [hrn]
        rw [hc0] at hpos ⊢
        exact (round64_mul_recip _ hpos hr).2
      · exact le_trans (not_lt.1 (by
          intro h
          have hp : 0 < c.get 0 := hpos
          rename_i hn
          apply hn
          constructor
          · rcases Nat.eq_zero_or_pos (R.dimAt 0) with h0 | h0
            · have hp2 : c.p = [] := List.eq_nil_of_length_eq_zero (by rw [i1, h0])
              simp [Tensor.get, hp2] at hp
            · exact h0
          · rcases Nat.eq_zero_or_pos c.p.length with h0 | h0
            · have hp2 : c.p = [] := List.eq_nil_of_length_eq_zero h0
              simp [Tensor.get, hp2] at hp
            · exact h0)) (le_refl (1 : ℚ))
  · rw [hrc]
    refine ⟨i3, hmono, fun _ => ?_⟩
    exact le_trans (not_lt.1 hneg) zero_le_one

/-- C14 (amended): in binary64, when `svd` yields non-negative, non-increasing
singular values, as many as the matrix has rows and not all of them zero, with
`s[0] <= 2^1022`, and no operation of `make_approx` overflows, the stored array
starts with `sigma[0] = 1` or with the double next below, `sigma[0] = 1 - 2^-53`,
so that `1 - 2^-53 <= sigma[0] <= 1`. -/
theorem C14_stored_profile_starts_near_one (lib : TensorLib ℚ) (R : Tensor ℚ)
    (r : Tensor ℚ × Tensor ℚ × Tensor ℚ × ℚ) (hres : make_approx64 lib R = some r)
    (hlen : (lib.svd R).2.1.p.length = R.dimAt 0)
    (hnn : ∀ x ∈ (lib.svd R).2.1.p, 0 ≤ x)
    (hsort : (lib.svd R).2.1.p.Sorted (fun a b => a ≥ b))
    (hmass : ∃ x ∈ (lib.svd R).2.1.p, x ≠ 0)
    (hrange : (lib.svd R).2.1.get 0 ≤ 2 ^ 1022) :
    (r.2.1.get 0 = 1 ∨ r.2.1.get 0 = 1 - 1 / 2 ^ 53) ∧
    1 - 1 / 2 ^ 53 ≤ r.2.1.get 0 ∧ r.2.1.get 0 ≤ 1 := by
  obtain ⟨x, hx, hx0⟩ := hmass
  have hpos : (lib.svd R).2.1.get 0 > 0 :=
    lt_of_lt_of_le (lt_of_le_of_ne (hnn x hx) (Ne.symm hx0))
      (le_head_of_sorted _ hsort x hx)
  have hn : 0 < R.dimAt 0 := by
    rw [← hlen]
    exact List.length_pos_of_mem hx
  obtain ⟨c, hc, hcase⟩ := make_approx64_sigma lib R r hres
  obtain ⟨hcl, hc0⟩ :=
    cumulate64_get_zero (R.dimAt 0) (lib.svd R).2.1 (R.dimAt 0 - 2) (le_refl _) c hc
  rcases hcase with ⟨-, rn, hrn, hresc⟩ | ⟨hneg, -⟩
  · obtain ⟨-, j2⟩ := rescale64_get rn c (R.dimAt 0) r.2.1 hresc
    rw [j2 0, if_pos ⟨hn, by rw [hcl, hlen]; exact hn⟩, hrn, hc0]
    obtain ⟨b1, b2⟩ := round64_mul_recip _ hpos hrange
    exact ⟨double_near_one _ (round64_idem _) b1 b2, b1, b2⟩
  · rw [hc0] at hneg
    exact absurd hpos hneg

/-! ### Worked runs of `make_approx` in binary64 -/

theorem big64_ge : (2 : ℚ) ^ 53 ≤ big64 := by
  unfold big64
  have h : (1 : ℚ) ≤ 2 ^ 970 := one_le_pow₀ (by norm_num)
  have e : (2 : ℚ) ^ 971 = 2 * 2 ^ 970 := by rw [pow_succ]; ring
  rw [e]
  nlinarith

theorem finite64_eval (x y : ℚ) (h : round64 x = y) (hb : |y| ≤ 2 ^ 53) :
    finite64 x = some y := by
  unfold finite64
  rw [h, if_pos (le_trans hb big64_ge)]

/-- Evaluation of `round64` at an expression whose value `v = z * 2^g` is a
double. -/
theorem round64_exact (x v : ℚ) (z g : ℤ) (hx : x = v) (hv : v = z * 2 ^ g)
    (hz : |z| ≤ 2 ^ 53) (hg : -1074 ≤ g) : round64 x = v := by
  rw [hx]
  exact round64_fixed v z g hv hz hg

theorem finite64_zero : finite64 0 = some 0 :=
  finite64_eval 0 0 round64_zero (by norm_num)

theorem finite64_one : finite64 1 = some 1 :=
  finite64_eval 1 1 (by exact_mod_cast round64_intCast 1 (by norm_num)) (by norm_num)

theorem finite64_two : finite64 2 = some 2 :=
  finite64_eval 2 2 (by exact_mod_cast round64_intCast 2 (by norm_num)) (by norm_num)

theorem finite64_49 : finite64 49 = some 49 :=
  finite64_eval 49 49 (by exact_mod_cast round64_intCast 49 (by norm_num)) (by norm_num)

/-- The double nearest to `1/49`. -/
theorem round64_recip_49 : round64 (1 / 49) = 5882252574524729 / 2 ^ 58 := by
  have h := round64_eq (1 / 49) (-6) 5882252574524729 (by norm_num [abs_of_pos])
    (by norm_num [abs_of_pos]) (by norm_num) (Or.inl (by norm_num [abs_lt]))
  rw [h]
  norm_num

/-- The product of 49 with the double nearest to `1/49` rounds to `1 - 2^-53`. -/
theorem round64_49_recip : round64 (49 * (5882252574524729 / 2 ^ 58)) = 1 - 1 / 2 ^ 53 := by
  have h := round64_eq (49 * (5882252574524729 / 2 ^ 58)) (-1) (2 ^ 53 - 1)
    (by norm_num [abs_of_pos]) (by norm_num [abs_of_pos]) (by norm_num)
    (Or.inl (by norm_num [abs_lt]))
  rw [h]
  norm_num

theorem finite64_recip_49 : finite64 (49⁻¹) = some (5882252574524729 / 2 ^ 58) := by
  refine finite64_eval _ _ ?_ (by norm_num [abs_of_pos])
  rw [← round64_recip_49, one_div]

theorem finite64_recip_49_fixed :
    finite64 (5882252574524729 / 2 ^ 58) = some (5882252574524729 / 2 ^ 58) := by
  refine finite64_eval _ _ ?_ (by norm_num [abs_of_pos])
  rw [← round64_recip_49, round64_idem]

theorem finite64_49_recip :
    finite64 (49 * (5882252574524729 / 2 ^ 58)) = some (1 - 1 / 2 ^ 53) :=
  finite64_eval _ _ round64_49_recip (by norm_num [abs_of_pos])

theorem diag49_svd :
    diagLib.svd ⟨[3, 3], [49, 0, 0, 0, 1, 0, 0, 0, 0]⟩
      = (identity ℚ 3, ⟨[3], [49, 1, 0]⟩, identity ℚ 3) := by
  simp [diagLib, Tensor.dimAt, Tensor.get2, List.range, List.range.loop]

/-- The run of `make_approx` in binary64 on the diagonal matrix with diagonal
`(49, 1, 0)`: the stored array is `(1 - 2^-53, fl(1/49), 0)`. -/
theorem diag49_make_approx64 :
    make_approx64 diagLib ⟨[3, 3], [49, 0, 0, 0, 1, 0, 0, 0, 0]⟩
      = some (identity ℚ 3, ⟨[3], [1 - 1 / 2 ^ 53, 5882252574524729 / 2 ^ 58, 0]⟩,
          ⟨[3, 3], [49, 0, 0, 0, 1, 0, 0, 0, 0]⟩, 49) := by
  unfold make_approx64
  rw [diag49_svd]
  simp [scale_vt64, scale_vt_row64, cumulate64, rescale64, mul64, add64, div64, identity,
    Tensor.get, Tensor.get2, Tensor.set2, Tensor.dimAt, List.range, List.range.loop,
    finite64_zero, finite64_one, finite64_49]
  rw [finite64_recip_49]
  simp [finite64_49_recip, finite64_recip_49_fixed, finite64_zero]

theorem identity3_svd :
    diagLib.svd (identity ℚ 3) = (identity ℚ 3, ⟨[3], [1, 1, 1]⟩, identity ℚ 3) := by
  simp [diagLib, identity, Tensor.dimAt, Tensor.get2, List.range, List.range.loop]

/-- The run of `make_approx` in binary64 on the `3 x 3` identity: every operation
is exact and the stored array is `(1, 2, 1)`. -/
theorem identity3_make_approx64 :
    make_approx64 diagLib (identity ℚ 3)
      = some (identity ℚ 3, ⟨[3], [1, 2, 1]⟩, identity ℚ 3, 1) := by
  unfold make_approx64
  rw [identity3_svd]
  simp [scale_vt64, scale_vt_row64, cumulate64, rescale64, mul64, add64, div64, identity,
    Tensor.get, Tensor.get2, Tensor.set2, Tensor.dimAt, List.range, List.range.loop,
    finite64_zero, finite64_one, finite64_two, one_add_one_eq_two]

theorem round64_one : round64 1 = 1 := by
  exact_mod_cast round64_intCast 1 (by norm_num)

theorem le_two_pow_1022 (x : ℚ) (h : x ≤ 2 ^ 6) : x ≤ 2 ^ 1022 :=
  le_trans h (pow_le_pow_right₀ (by norm_num) (by norm_num))

/-! ### The run on four singular values `0.1` -/

theorem finite64_tenth :
    finite64 (3602879701896397 / 2 ^ 55) = some (3602879701896397 / 2 ^ 55) := by
  refine finite64_eval _ _ ?_ (by norm_num [abs_of_pos])
  exact round64_exact _ _ 3602879701896397 (-55) rfl (by norm_num) (by norm_num [abs_of_pos])
    (by norm_num)

theorem finite64_two_tenths :
    finite64 (3602879701896397 / 2 ^ 55 + 3602879701896397 / 2 ^ 55)
      = some (3602879701896397 / 2 ^ 54) := by
  refine finite64_eval _ _ ?_ (by norm_num [abs_of_pos])
  exact round64_exact _ _ 3602879701896397 (-54) (by norm_num) (by norm_num)
    (by norm_num [abs_of_pos]) (by norm_num)

/-- The sum `0.1 + 0.2` lies midway between two doubles and rounds to
`0.30000000000000004`. -/
theorem finite64_three_tenths :
    finite64 (3602879701896397 / 2 ^ 55 + 3602879701896397 / 2 ^ 54)
      = some (1351079888211149 / 2 ^ 52) := by
  refine finite64_eval _ _ ?_ (by norm_num [abs_of_pos])
  have h := round64_eq (3602879701896397 / 2 ^ 55 + 3602879701896397 / 2 ^ 54) (-2)
    5404319552844596 (by norm_num [abs_of_pos]) (by norm_num [abs_of_pos]) (by norm_num)
    (Or.inr ⟨by norm_num [abs_of_pos], by norm_num⟩)
  rw [h]
  norm_num

/-- The reciprocal of the double `0.1` rounds to 10. -/
theorem finite64_recip_tenth : finite64 (2 ^ 55 / 3602879701896397) = some 10 := by
  refine finite64_eval _ _ ?_ (by norm_num)
  have h := round64_eq (2 ^ 55 / 3602879701896397) 3 5629499534213120
    (by norm_num [abs_of_pos]) (by norm_num [abs_of_pos]) (by norm_num)
    (Or.inl (by norm_num [abs_lt]))
  rw [h]
  norm_num

theorem finite64_tenth_times_ten : finite64 (3602879701896397 / 2 ^ 55 * 10) = some 1 := by
  refine finite64_eval _ _ ?_ (by norm_num)
  have h := round64_eq (3602879701896397 / 2 ^ 55 * 10) 0 4503599627370496
    (by norm_num [abs_of_pos]) (by norm_num [abs_of_pos]) (by norm_num)
    (Or.inl (by norm_num [abs_lt]))
  rw [h]
  norm_num

theorem finite64_two_tenths_times_ten :
    finite64 (3602879701896397 / 2 ^ 54 * 10) = some 2 := by
  refine finite64_eval _ _ ?_ (by norm_num)
  have h := round64_eq (3602879701896397 / 2 ^ 54 * 10) 1 4503599627370496
    (by norm_num [abs_of_pos]) (by norm_num [abs_of_pos]) (by norm_num)
    (Or.inl (by norm_num [abs_lt]))
  rw [h]
  norm_num

/-- The product `0.30000000000000004 * 10` is the double `3.0000000000000004`. -/
theorem finite64_three_tenths_times_ten :
    finite64 (1351079888211149 / 2 ^ 52 * 10) = some (6755399441055745 / 2 ^ 51) := by
  refine finite64_eval _ _ ?_ (by norm_num [abs_of_pos])
  exact round64_exact _ _ 6755399441055745 (-51) (by norm_num) (by norm_num)
    (by norm_num [abs_of_pos]) (by norm_num)

theorem tenths_svd :
    diagLib.svd ⟨[4, 4], [3602879701896397 / 2 ^ 55, 0, 0, 0, 0, 3602879701896397 / 2 ^ 55, 0, 0,
        0, 0, 3602879701896397 / 2 ^ 55, 0, 0, 0, 0, 3602879701896397 / 2 ^ 55]⟩
      = (identity ℚ 4, ⟨[4], [3602879701896397 / 2 ^ 55, 3602879701896397 / 2 ^ 55,
          3602879701896397 / 2 ^ 55, 3602879701896397 / 2 ^ 55]⟩, identity ℚ 4) := by
  simp [diagLib, Tensor.dimAt, Tensor.get2, List.range, List.range.loop]

/-- The run of `make_approx` in binary64 on the diagonal matrix whose four
diagonal entries are the double `0.1`: the stored array is
`(1, 3.0000000000000004, 2, 1)`. -/
theorem tenths_make_approx64 :
    make_approx64 diagLib ⟨[4, 4], [3602879701896397 / 2 ^ 55, 0, 0, 0, 0,
        3602879701896397 / 2 ^ 55, 0, 0, 0, 0, 3602879701896397 / 2 ^ 55, 0, 0, 0, 0,
        3602879701896397 / 2 ^ 55]⟩
      = some (identity ℚ 4, ⟨[4], [1, 6755399441055745 / 2 ^ 51, 2, 1]⟩,
          ⟨[4, 4], [3602879701896397 / 2 ^ 55, 0, 0, 0, 0, 3602879701896397 / 2 ^ 55, 0, 0,
            0, 0, 3602879701896397 / 2 ^ 55, 0, 0, 0, 0, 3602879701896397 / 2 ^ 55]⟩,
          3602879701896397 / 2 ^ 55) := by
  unfold make_approx64
  rw [tenths_svd]
  simp [scale_vt64, scale_vt_row64, cumulate64, rescale64, mul64, add64, div64, identity,
    Tensor.get, Tensor.get2, Tensor.set2, Tensor.dimAt, List.range, List.range.loop,
    finite64_zero, finite64_one, finite64_tenth, finite64_two_tenths, finite64_three_tenths,
    finite64_recip_tenth, finite64_tenth_times_ten, finite64_two_tenths_times_ten,
    finite64_three_tenths_times_ten]

/-- C13 (amended), instance: the diagonal matrix whose four diagonal entries are
the double `0.1`, on which `make_approx` stores `(1, 3.0000000000000004, 2, 1)`;
the entry of index 1 exceeds 3. -/
theorem C13_stored_profile_binary64_witness :
    make_approx64 diagLib ⟨[4, 4], [3602879701896397 / 2 ^ 55, 0, 0, 0, 0,
        3602879701896397 / 2 ^ 55, 0, 0, 0, 0, 3602879701896397 / 2 ^ 55, 0, 0, 0, 0,
        3602879701896397 / 2 ^ 55]⟩
      = some (identity ℚ 4, ⟨[4], [1, 6755399441055745 / 2 ^ 51, 2, 1]⟩,
          ⟨[4, 4], [3602879701896397 / 2 ^ 55, 0, 0, 0, 0, 3602879701896397 / 2 ^ 55, 0, 0,
            0, 0, 3602879701896397 / 2 ^ 55, 0, 0, 0, 0, 3602879701896397 / 2 ^ 55]⟩,
          3602879701896397 / 2 ^ 55) ∧
    (diagLib.svd ⟨[4, 4], [3602879701896397 / 2 ^ 55, 0, 0, 0, 0,
        3602879701896397 / 2 ^ 55, 0, 0, 0, 0, 3602879701896397 / 2 ^ 55, 0, 0, 0, 0,
        3602879701896397 / 2 ^ 55]⟩).2.1
      = ⟨[4], [3602879701896397 / 2 ^ 55, 3602879701896397 / 2 ^ 55,
          3602879701896397 / 2 ^ 55, 3602879701896397 / 2 ^ 55]⟩ ∧
    round64 (3602879701896397 / 2 ^ 55) = 3602879701896397 / 2 ^ 55 ∧
    (3 : ℚ) < (⟨[4], [1, 6755399441055745 / 2 ^ 51, 2, 1]⟩ : Tensor ℚ).get 1 ∧
    ((∀ i, 0 ≤ (⟨[4], [1, 6755399441055745 / 2 ^ 51, 2, 1]⟩ : Tensor ℚ).get i) ∧
    (∀ i, 1 ≤ i → i + 1 < (4 : Nat) →
      (⟨[4], [1, 6755399441055745 / 2 ^ 51, 2, 1]⟩ : Tensor ℚ).get (i + 1)
        ≤ (⟨[4], [1, 6755399441055745 / 2 ^ 51, 2, 1]⟩ : Tensor ℚ).get i) ∧
    ((3602879701896397 / 2 ^ 55 : ℚ) ≤ 2 ^ 1022 →
      (⟨[4], [1, 6755399441055745 / 2 ^ 51, 2, 1]⟩ : Tensor ℚ).get 0 ≤ 1)) := by
  have hd : round64 (3602879701896397 / 2 ^ 55) = 3602879701896397 / 2 ^ 55 :=
    round64_exact _ _ 3602879701896397 (-55) rfl (by norm_num) (by norm_num [abs_of_pos])
      (by norm_num)
  refine ⟨tenths_make_approx64, by rw [tenths_svd], hd, by norm_num [Tensor.get],
    C13_stored_profile_binary64 diagLib _ _ tenths_make_approx64 ?_ ?_ ?_⟩
  · rw [tenths_svd]; rfl
  · rw [tenths_svd]
    intro x hx
    simp only [List.mem_cons, List.mem_singleton, List.not_mem_nil, or_false, or_self] at hx
    rw [hx]
    norm_num
  · rw [tenths_svd]
    intro x hx
    simp only [List.mem_cons, List.mem_singleton, List.not_mem_nil, or_false, or_self] at hx
    rw [hx]
    exact hd

/-- C13, counterexample: for the `3 x 3` identity, with singular values `(1,1,1)`,
every operation of `make_approx` is exact in binary64 and the stored array is
`(1, 2, 1)`: it increases from index 0 to index 1, and its entry 2 lies outside
`[0,1]`. -/
theorem C13_identity_counterexample :
    (diagLib.svd (identity ℚ 3)).2.1 = ⟨[3], [1, 1, 1]⟩ ∧
    ∃ r, make_approx64 diagLib (identity ℚ 3) = some r ∧ r.2.1 = ⟨[3], [1, 2, 1]⟩ ∧
      r.2.1.get 0 < r.2.1.get (0 + 1) ∧ 1 < r.2.1.get 1 := by
  refine ⟨by rw [identity3_svd], _, identity3_make_approx64, rfl, ?_, ?_⟩ <;>
    norm_num [Tensor.get]

/-- C14 (amended), instance: the diagonal matrix with diagonal `(49, 1, 0)`, on
which `make_approx` stores `sigma[0] = 1 - 2^-53`. -/
theorem C14_stored_profile_starts_near_one_witness :
    make_approx64 diagLib ⟨[3, 3], [49, 0, 0, 0, 1, 0, 0, 0, 0]⟩
      = some (identity ℚ 3, ⟨[3], [1 - 1 / 2 ^ 53, 5882252574524729 / 2 ^ 58, 0]⟩,
          ⟨[3, 3], [49, 0, 0, 0, 1, 0, 0, 0, 0]⟩, 49) ∧
    (diagLib.svd ⟨[3, 3], [49, 0, 0, 0, 1, 0, 0, 0, 0]⟩).2.1 = ⟨[3], [49, 1, 0]⟩ ∧
    (((⟨[3], [1 - 1 / 2 ^ 53, 5882252574524729 / 2 ^ 58, 0]⟩ : Tensor ℚ).get 0 = 1 ∨
        (⟨[3], [1 - 1 / 2 ^ 53, 5882252574524729 / 2 ^ 58, 0]⟩ : Tensor ℚ).get 0
          = 1 - 1 / 2 ^ 53) ∧
      1 - 1 / 2 ^ 53
        ≤ (⟨[3], [1 - 1 / 2 ^ 53, 5882252574524729 / 2 ^ 58, 0]⟩ : Tensor ℚ).get 0 ∧
      (⟨[3], [1 - 1 / 2 ^ 53, 5882252574524729 / 2 ^ 58, 0]⟩ : Tensor ℚ).get 0 ≤ 1) := by
  have hs : (diagLib.svd ⟨[3, 3], [49, 0, 0, 0, 1, 0, 0, 0, 0]⟩).2.1 = ⟨[3], [49, 1, 0]⟩ := by
    rw [diag49_svd]
  refine ⟨diag49_make_approx64, hs,
    C14_stored_profile_starts_near_one diagLib _ _ diag49_make_approx64 ?_ ?_ ?_ ?_ ?_⟩
  · rw [hs]; rfl
  · rw [hs]; simp
  · rw [hs]; simp
  · rw [hs]; exact ⟨49, by simp, by norm_num⟩
  · rw [hs]
    exact le_two_pow_1022 _ (by norm_num [Tensor.get])

/-- C14, counterexample: for the diagonal matrix with diagonal `(49, 1, 0)` the
reciprocal `1.0/49` rounds to `5882252574524729 * 2^-58` and its product with
`49` rounds to `1 - 2^-53`, which `make_approx` stores as `sigma[0]`. -/
theorem C14_reciprocal_counterexample :
    (diagLib.svd ⟨[3, 3], [49, 0, 0, 0, 1, 0, 0, 0, 0]⟩).2.1 = ⟨[3], [49, 1, 0]⟩ ∧
    round64 (1 / 49) = 5882252574524729 / 2 ^ 58 ∧
    round64 (49 * (5882252574524729 / 2 ^ 58)) = 1 - 1 / 2 ^ 53 ∧
    ∃ r, make_approx64 diagLib ⟨[3, 3], [49, 0, 0, 0, 1, 0, 0, 0, 0]⟩ = some r ∧
      r.2.1.get 0 = 1 - 1 / 2 ^ 53 ∧ r.2.1.get 0 ≠ 1 := by
  refine ⟨by rw [diag49_svd], round64_recip_49, round64_49_recip, _, diag49_make_approx64,
    rfl, ?_⟩
  norm_num [Tensor.get]

/-! ## The pruning predicate of the Gaussian kernel in binary64 -/

theorem round64_zpow (g : ℤ) (hg : -1074 ≤ g) : round64 ((2 : ℚ) ^ g) = 2 ^ g :=
  round64_fixed _ 1 g (by simp) (by norm_num) hg

theorem round64_ge_min (q : ℚ) (h : (2 : ℚ) ^ (-1022 : ℤ) ≤ q) :
    (2 : ℚ) ^ (-1022 : ℤ) ≤ round64 q :=
  le_trans (le_of_eq (round64_zpow _ (by norm_num)).symm) (round64_mono h)

theorem min_normal_le : (2 : ℚ) ^ (-1022 : ℤ) ≤ 2 ^ (-106 : ℤ) :=
  zpow_le_zpow_right₀ (by norm_num) (by norm_num)

/-- The product `beta * L * L` as `issmall` forms it in binary64, against the
exact product, for an integer `0 <= L <= 2^53`. -/
theorem triple_round_bounds (x L : ℚ) (hL : L = 0 ∨ 1 ≤ L) (hL2 : L ≤ 2 ^ 53) :
    (49 < round64 (round64 (round64 x * L) * L) → 49 * (1 - 1 / 2 ^ 51) < x * L ^ 2) ∧
    (49 * (1 + 1 / 2 ^ 51) ≤ x * L ^ 2 → 49 < round64 (round64 (round64 x * L) * L)) := by
  rcases hL with h0 | h1
  · subst h0
    simp only [mul_zero, round64_zero]
    constructor
    · intro h
      norm_num at h
    · intro h
      norm_num at h
  have hL0 : (0 : ℚ) ≤ L := le_trans zero_le_one h1
  by_cases hx : (2 : ℚ) ^ (-1022 : ℤ) ≤ x
  · -- normal range: three roundings of relative error 2^-53
    have hx0 : 0 ≤ x := le_trans (by positivity) hx
    have a1 := round64_ge_min x hx
    have hm0 : (0 : ℚ) ≤ 2 ^ (-1022 : ℤ) := by positivity
    have a2 : (2 : ℚ) ^ (-1022 : ℤ) ≤ round64 x * L :=
      le_trans a1 (le_mul_of_one_le_right (le_trans hm0 a1) h1)
    have a3 := round64_ge_min _ a2
    have a4 : (2 : ℚ) ^ (-1022 : ℤ) ≤ round64 (round64 x * L) * L :=
      le_trans a3 (le_mul_of_one_le_right (le_trans hm0 a3) h1)
    have u1 := round64_le_rel x hx
    have u2 := round64_le_rel _ a2
    have u3 := round64_le_rel _ a4
    have l1 := round64_ge_rel x hx
    have l2 := round64_ge_rel _ a2
    have l3 := round64_ge_rel _ a4
    have hP : 0 ≤ x * L ^ 2 := by positivity
    have hup : round64 (round64 (round64 x * L) * L) ≤ x * L ^ 2 * (1 + 1 / 2 ^ 53) ^ 3 := by
      calc round64 (round64 (round64 x * L) * L)
          ≤ round64 (round64 x * L) * L * (1 + 1 / 2 ^ 53) := u3
        _ ≤ (round64 x * L * (1 + 1 / 2 ^ 53)) * L * (1 + 1 / 2 ^ 53) := by
            refine mul_le_mul_of_nonneg_right (mul_le_mul_of_nonneg_right u2 hL0) (by norm_num)
        _ ≤ ((x * (1 + 1 / 2 ^ 53)) * L * (1 + 1 / 2 ^ 53)) * L * (1 + 1 / 2 ^ 53) := by
            refine mul_le_mul_of_nonneg_right (mul_le_mul_of_nonneg_right
              (mul_le_mul_of_nonneg_right (mul_le_mul_of_nonneg_right u1 hL0) (by norm_num))
              hL0) (by norm_num)
        _ = x * L ^ 2 * (1 + 1 / 2 ^ 53) ^ 3 := by ring
    have hlo : x * L ^ 2 * (1 - 1 / 2 ^ 53) ^ 3 ≤ round64 (round64 (round64 x * L) * L) := by
      calc x * L ^ 2 * (1 - 1 / 2 ^ 53) ^ 3
          = ((x * (1 - 1 / 2 ^ 53)) * L * (1 - 1 / 2 ^ 53)) * L * (1 - 1 / 2 ^ 53) := by ring
        _ ≤ (round64 x * L * (1 - 1 / 2 ^ 53)) * L * (1 - 1 / 2 ^ 53) := by
            refine mul_le_mul_of_nonneg_right (mul_le_mul_of_nonneg_right
              (mul_le_mul_of_nonneg_right (mul_le_mul_of_nonneg_right l1 hL0) (by norm_num))
              hL0) (by norm_num)
        _ ≤ round64 (round64 x * L) * L * (1 - 1 / 2 ^ 53) := by
            refine mul_le_mul_of_nonneg_right (mul_le_mul_of_nonneg_right l2 hL0) (by norm_num)
        _ ≤ round64 (round64 (round64 x * L) * L) := l3
    have n1 : (1 + 1 / 2 ^ 53 : ℚ) ^ 3 * (1 - 1 / 2 ^ 51) ≤ 1 := by norm_num
    have n2 : (1 : ℚ) < (1 + 1 / 2 ^ 51) * (1 - 1 / 2 ^ 53) ^ 3 := by norm_num
    constructor
    · intro h
      have h2 : 49 < x * L ^ 2 * (1 + 1 / 2 ^ 53) ^ 3 := lt_of_lt_of_le h hup
      have h3 : x * L ^ 2 * ((1 + 1 / 2 ^ 53) ^ 3 * (1 - 1 / 2 ^ 51)) ≤ x * L ^ 2 * 1 :=
        mul_le_mul_of_nonneg_left n1 hP
      have h4 : (0 : ℚ) < 1 - 1 / 2 ^ 51 := by norm_num
      have h5 := mul_lt_mul_of_pos_right h2 h4
      linarith
    · intro h
      refine lt_of_lt_of_le ?_ hlo
      have h3 : 49 * (1 + 1 / 2 ^ 51) * (1 - 1 / 2 ^ 53) ^ 3 ≤ x * L ^ 2 * (1 - 1 / 2 ^ 53) ^ 3 :=
        mul_le_mul_of_nonneg_right h (by norm_num)
      have h4 : (49 : ℚ) * 1 < 49 * ((1 + 1 / 2 ^ 51) * (1 - 1 / 2 ^ 53) ^ 3) :=
        mul_lt_mul_of_pos_left n2 (by norm_num)
      linarith
  · -- below the normal range the product is far below 49
    have hx' : x ≤ (2 : ℚ) ^ (-1022 : ℤ) := le_of_lt (not_le.1 hx)
    have hm := min_normal_le
    have e1 : (2 : ℚ) ^ (-106 : ℤ) * 2 ^ 53 = 2 ^ (-53 : ℤ) := by
      rw [show ((2 : ℚ) ^ 53) = (2 : ℚ) ^ (53 : ℤ) by norm_num, ← zpow_add₀ (by norm_num)]
      norm_num
    have e2 : (2 : ℚ) ^ (-53 : ℤ) * 2 ^ 53 = 1 := by
      rw [show ((2 : ℚ) ^ 53) = (2 : ℚ) ^ (53 : ℤ) by norm_num, ← zpow_add₀ (by norm_num)]
      norm_num
    have b1 : round64 x ≤ 2 ^ (-106 : ℤ) :=
      le_trans (le_trans (round64_mono hx') (le_of_eq (round64_zpow _ (by norm_num)))) hm
    have b2 : round64 x * L ≤ 2 ^ (-53 : ℤ) := by
      rw [← e1]
      have p : (0 : ℚ) < 2 ^ (-106 : ℤ) := by positivity
      nlinarith
    have b3 : round64 (round64 x * L) ≤ 2 ^ (-53 : ℤ) :=
      le_trans (round64_mono b2) (le_of_eq (round64_zpow _ (by norm_num)))
    have b4 : round64 (round64 x * L) * L ≤ 1 := by
      rw [← e2]
      have p : (0 : ℚ) < 2 ^ (-53 : ℤ) := by positivity
      nlinarith
    have b5 : round64 (round64 (round64 x * L) * L) ≤ 1 :=
      le_trans (round64_mono b4) (le_of_eq round64_one)
    have b6 : x * L ^ 2 ≤ 1 := by
      have p : (0 : ℚ) < 2 ^ (-106 : ℤ) := by positivity
      have q1 : x ≤ 2 ^ (-106 : ℤ) := le_trans hx' hm
      have q2 : (2 : ℚ) ^ (-106 : ℤ) * 2 ^ 53 * 2 ^ 53 = 1 := by rw [e1, e2]
      have q3 : L ^ 2 ≤ 2 ^ 53 * 2 ^ 53 := by nlinarith
      have q4 : 0 ≤ L ^ 2 := by positivity
      nlinarith
    constructor
    · intro h
      linarith
    · intro h
      have : (49 : ℚ) * (1 + 1 / 2 ^ 51) > 1 := by norm_num
      linarith

theorem gaussian_ll_eq (l : Int) :
    (if l > 0 then l - 1 else if l < 0 then -1 - l else 0) = max 0 (|l| - 1) := by
  rcases lt_trichotomy l 0 with h | h | h
  · rw [if_neg (by omega), if_pos h, abs_of_neg h, max_eq_right (by omega)]
    ring
  · subst h
    simp
  · rw [if_pos h, abs_of_pos h, max_eq_right (by omega)]

/-- What `issmall` returns in binary64 when no operation overflows. -/
theorem issmall64_eq (lib : TensorLib ℚ) (expnt : ℚ) (n l : Int) (b : Bool)
    (hl : |l| ≤ 2 ^ 53) (hres : GaussianConvolution1D.issmall64 lib expnt n l = some b) :
    b = decide (49 < round64 (round64 (round64 (expnt * lib.pow (1 / 4) (n : ℚ))
      * ((max 0 (|l| - 1) : Int) : ℚ)) * ((max 0 (|l| - 1) : Int) : ℚ))) := by
  have hL : round64 ((max 0 (|l| - 1) : Int) : ℚ) = ((max 0 (|l| - 1) : Int) : ℚ) := by
    refine round64_intCast _ ?_
    rw [abs_of_nonneg (le_max_left _ _)]
    exact max_le (by norm_num) (by omega)
  unfold GaussianConvolution1D.issmall64 at hres
  simp only [gaussian_ll_eq, mul64, Option.bind_eq_some, Option.some.injEq] at hres
  obtain ⟨beta, hbeta, d, hd, t, ht, p, hp, hb⟩ := hres
  have h1 := finite64_eq _ _ hbeta
  have h2 := finite64_eq _ _ hd
  have h3 := finite64_eq _ _ ht
  have h4 := finite64_eq _ _ hp
  rw [hL] at h2
  rw [← hb, h4, h3, h2, h1]

/-- C15 (amended): in binary64, when `pow(0.25, n)` is `4^(-n)`, `|l| <= 2^53` and
no product overflows, `issmall(n,l)` is true exactly when the product
`beta * L * L`, formed as the rounded product of the rounded `beta * L` with `L`
from the rounded `beta = expnt * 4^(-n)`, exceeds 49, with `L = max(0, |l| - 1)`;
it is true only if `expnt * 4^(-n) * L^2 > 49 * (1 - 2^-51)`, and it is true
whenever `expnt * 4^(-n) * L^2 >= 49 * (1 + 2^-51)`. -/
theorem C15_gaussian_issmall_binary64 (lib : TensorLib ℚ) (expnt : ℚ) (n l : Int) (b : Bool)
    (hpow : lib.pow (1 / 4) (n : ℚ) = (4 : ℚ) ^ (-n))
    (hl : |l| ≤ 2 ^ 53)
    (hres : GaussianConvolution1D.issmall64 lib expnt n l = some b) :
    (b = true ↔
      49 < round64 (round64 (round64 (expnt * (4 : ℚ) ^ (-n))
        * ((max 0 (|l| - 1) : Int) : ℚ)) * ((max 0 (|l| - 1) : Int) : ℚ))) ∧
    (b = true →
      49 * (1 - 1 / 2 ^ 51) < expnt * (4 : ℚ) ^ (-n) * ((max 0 (|l| - 1) : Int) : ℚ) ^ 2) ∧
    (49 * (1 + 1 / 2 ^ 51) ≤ expnt * (4 : ℚ) ^ (-n) * ((max 0 (|l| - 1) : Int) : ℚ) ^ 2 →
      b = true) := by
  have hb := issmall64_eq lib expnt n l b hl hres
  rw [hpow] at hb
  have hiff : b = true ↔
      49 < round64 (round64 (round64 (expnt * (4 : ℚ) ^ (-n))
        * ((max 0 (|l| - 1) : Int) : ℚ)) * ((max 0 (|l| - 1) : Int) : ℚ)) := by
    rw [hb, decide_eq_true_eq]
  have hL01 : ((max 0 (|l| - 1) : Int) : ℚ) = 0 ∨ 1 ≤ ((max 0 (|l| - 1) : Int) : ℚ) := by
    rcases le_or_lt (|l| - 1) 0 with h | h
    · left
      rw [max_eq_left h]
      rfl
    · right
      rw [max_eq_right (le_of_lt h)]
      exact_mod_cast (by omega : (1 : Int) ≤ |l| - 1)
  have hL2 : ((max 0 (|l| - 1) : Int) : ℚ) ≤ 2 ^ 53 := by
    have : max 0 (|l| - 1) ≤ (2 : Int) ^ 53 := max_le (by norm_num) (by omega)
    exact_mod_cast this
  obtain ⟨t1, t2⟩ := triple_round_bounds (expnt * (4 : ℚ) ^ (-n)) _ hL01 hL2
  exact ⟨hiff, fun h => t1 (hiff.1 h), fun h => hiff.2 (t2 h)⟩

theorem finite64_ofInt (z : ℤ) (hz : |z| ≤ 2 ^ 53) : finite64 (z : ℚ) = some (z : ℚ) := by
  refine finite64_eval _ _ (round64_intCast z hz) ?_
  have h : ((|z| : ℤ) : ℚ) ≤ ((2 ^ 53 : ℤ) : ℚ) := by exact_mod_cast hz
  rw [Int.cast_abs] at h
  norm_num at h ⊢
  exact h

theorem finite64_8 : finite64 8 = some 8 := by
  exact_mod_cast finite64_ofInt 8 (by norm_num)

theorem finite64_64 : finite64 64 = some 64 := by
  exact_mod_cast finite64_ofInt 64 (by norm_num)

theorem finite64_5 : finite64 5 = some 5 := by
  exact_mod_cast finite64_ofInt 5 (by norm_num)

theorem unit_issmall64 : GaussianConvolution1D.issmall64 demoLib 1 0 9 = some true := by
  unfold GaussianConvolution1D.issmall64
  norm_num [demoLib, mul64, finite64_one, finite64_8, finite64_64]

/-- C15 (amended), instance: the unit Gaussian at level 0 and translation 9,
where the product is `1 * 8 * 8 = 64`. -/
theorem C15_gaussian_issmall_binary64_witness :
    demoLib.pow (1 / 4) ((0 : Int) : ℚ) = (4 : ℚ) ^ (-(0 : Int)) ∧
    |(9 : Int)| ≤ 2 ^ 53 ∧
    GaussianConvolution1D.issmall64 demoLib 1 0 9 = some true ∧
    ((true = true ↔
      49 < round64 (round64 (round64 ((1 : ℚ) * (4 : ℚ) ^ (-(0 : Int)))
        * ((max 0 (|(9 : Int)| - 1) : Int) : ℚ)) * ((max 0 (|(9 : Int)| - 1) : Int) : ℚ))) ∧
    (true = true →
      49 * (1 - 1 / 2 ^ 51)
        < (1 : ℚ) * (4 : ℚ) ^ (-(0 : Int)) * ((max 0 (|(9 : Int)| - 1) : Int) : ℚ) ^ 2) ∧
    (49 * (1 + 1 / 2 ^ 51)
        ≤ (1 : ℚ) * (4 : ℚ) ^ (-(0 : Int)) * ((max 0 (|(9 : Int)| - 1) : Int) : ℚ) ^ 2 →
      true = true)) :=
  ⟨by simp [demoLib], by norm_num, unit_issmall64,
    C15_gaussian_issmall_binary64 demoLib 1 0 9 true (by simp [demoLib]) (by norm_num)
      unit_issmall64⟩

theorem finite64_expnt :
    finite64 (8827055269646173 / 2 ^ 52) = some (8827055269646173 / 2 ^ 52) := by
  refine finite64_eval _ _ ?_ (by norm_num [abs_of_pos])
  exact round64_fixed _ 8827055269646173 (-52) (by norm_num) (by norm_num [abs_of_pos])
    (by norm_num)

theorem round64_expnt_times_five :
    round64 (8827055269646173 / 2 ^ 52 * 5) = 5516909543528858 / 2 ^ 49 := by
  have h := round64_eq (8827055269646173 / 2 ^ 52 * 5) 3 5516909543528858
    (by norm_num [abs_of_pos]) (by norm_num [abs_of_pos]) (by norm_num)
    (Or.inl (by norm_num [abs_lt]))
  rw [h]
  norm_num

theorem round64_product_times_five : round64 (5516909543528858 / 2 ^ 49 * 5) = 49 := by
  have h := round64_eq (5516909543528858 / 2 ^ 49 * 5) 5 6896136929411072
    (by norm_num [abs_of_pos]) (by norm_num [abs_of_pos]) (by norm_num)
    (Or.inr ⟨by norm_num [abs_of_neg], by norm_num⟩)
  rw [h]
  norm_num

/-- C15, counterexample: for `expnt = 0x1.f5c28f5c28f5dp+0`, level 0 and
translation 6, `beta * 5` rounds to `5516909543528858 * 2^-49`, whose product with
5 lies midway between two doubles and rounds to exactly 49, so `issmall` is
false, while the exact product `expnt * 4^0 * 5^2` exceeds 49. -/
theorem C15_rounded_product_counterexample :
    demoLib.pow (1 / 4) ((0 : Int) : ℚ) = (4 : ℚ) ^ (-(0 : Int)) ∧
    round64 (8827055269646173 / 2 ^ 52 * 5) = 5516909543528858 / 2 ^ 49 ∧
    round64 (5516909543528858 / 2 ^ 49 * 5) = 49 ∧
    GaussianConvolution1D.issmall64 demoLib (8827055269646173 / 2 ^ 52) 0 6 = some false ∧
    (8827055269646173 / 2 ^ 52 : ℚ) * (4 : ℚ) ^ (-(0 : Int))
      * ((max 0 (|(6 : Int)| - 1) : Int) : ℚ) ^ 2 > 49 := by
  refine ⟨by simp [demoLib], round64_expnt_times_five, round64_product_times_five, ?_, ?_⟩
  · have e0 : demoLib.pow (1 / 4) ((0 : Int) : ℚ) = 1 := by simp [demoLib]
    have ell : (if (6 : Int) > 0 then (6 : Int) - 1 else if (6 : Int) < 0 then -1 - 6 else 0)
        = 5 := by norm_num
    have f1 : finite64 (8827055269646173 / 2 ^ 52 * 5) = some (5516909543528858 / 2 ^ 49) :=
      finite64_eval _ _ round64_expnt_times_five (by norm_num [abs_of_pos])
    have f2 : finite64 (5516909543528858 / 2 ^ 49 * 5) = some 49 :=
      finite64_eval _ _ round64_product_times_five (by norm_num [abs_of_pos])
    unfold GaussianConvolution1D.issmall64
    simp only [mul64, e0, ell, mul_one, Int.cast_ofNat, finite64_expnt, finite64_5,
      Option.some_bind, f1, f2]
    simp
  · norm_num

/-! ## The natural level of the Gaussian kernel in binary64 -/

/-- Three numbers within the relative error `δ` of the square roots of `SR`, `ST`
and `SR - ST` satisfy the Pythagorean identity up to the factor
`((1 + δ) / (1 - δ))^2`. -/
theorem norms_arith (δ SR ST Rn Tn Nn : K) (hδ0 : 0 ≤ δ) (hδ1 : δ < 1)
    (r0 : 0 ≤ Rn) (r1 : (1 - δ) ^ 2 * SR ≤ Rn ^ 2) (r2 : Rn ^ 2 ≤ (1 + δ) ^ 2 * SR)
    (t1 : (1 - δ) ^ 2 * ST ≤ Tn ^ 2) (t2 : Tn ^ 2 ≤ (1 + δ) ^ 2 * ST)
    (n1 : (1 - δ) ^ 2 * (SR - ST) ≤ Nn ^ 2) (n2 : Nn ^ 2 ≤ (1 + δ) ^ 2 * (SR - ST))
    (sT : 0 ≤ ST) (sNS : 0 ≤ SR - ST) :
    ((1 - δ) / (1 + δ)) ^ 2 * Rn ^ 2 - Tn ^ 2 ≤ Nn ^ 2 ∧
    Nn ^ 2 ≤ ((1 + δ) / (1 - δ)) ^ 2 * Rn ^ 2 - Tn ^ 2 ∧
    Nn ≤ (1 + δ) / (1 - δ) * Rn ∧ Tn ≤ (1 + δ) / (1 - δ) * Rn := by
  have ha : 0 < 1 - δ := by linarith
  have hc : 0 < 1 + δ := by linarith
  have e1 : ((1 + δ) / (1 - δ)) ^ 2 * Rn ^ 2 = (1 + δ) ^ 2 * (Rn ^ 2 / (1 - δ) ^ 2) := by
    field_simp
  have e2 : ((1 - δ) / (1 + δ)) ^ 2 * Rn ^ 2 = (1 - δ) ^ 2 * (Rn ^ 2 / (1 + δ) ^ 2) := by
    field_simp
  have b1 : SR ≤ Rn ^ 2 / (1 - δ) ^ 2 := by
    rw [le_div_iff₀ (by positivity)]
    linarith
  have b2 : Rn ^ 2 / (1 + δ) ^ 2 ≤ SR := by
    rw [div_le_iff₀ (by positivity)]
    linarith
  have c1 : (1 + δ) ^ 2 * SR ≤ (1 + δ) ^ 2 * (Rn ^ 2 / (1 - δ) ^ 2) :=
    mul_le_mul_of_nonneg_left b1 (by positivity)
  have c2 : (1 - δ) ^ 2 * (Rn ^ 2 / (1 + δ) ^ 2) ≤ (1 - δ) ^ 2 * SR :=
    mul_le_mul_of_nonneg_left b2 (by positivity)
  have hq : 0 ≤ (1 + δ) / (1 - δ) * Rn := mul_nonneg (le_of_lt (div_pos hc ha)) r0
  have hsq : ((1 + δ) / (1 - δ) * Rn) ^ 2 = ((1 + δ) / (1 - δ)) ^ 2 * Rn ^ 2 := by ring
  have d1 : (1 + δ) ^ 2 * ST ≤ (1 + δ) ^ 2 * SR :=
    mul_le_mul_of_nonneg_left (by linarith) (by positivity)
  have d2 : (1 + δ) ^ 2 * (SR - ST) ≤ (1 + δ) ^ 2 * SR :=
    mul_le_mul_of_nonneg_left (by linarith) (by positivity)
  have x1 : (1 + δ) ^ 2 * (SR - ST) = (1 + δ) ^ 2 * SR - (1 + δ) ^ 2 * ST := by ring
  have x2 : (1 - δ) ^ 2 * (SR - ST) = (1 - δ) ^ 2 * SR - (1 - δ) ^ 2 * ST := by ring
  refine ⟨?_, ?_, ?_, ?_⟩
  · rw [e2]
    linarith
  · rw [e1]
    linarith
  · refine le_trans (le_abs_self _) (abs_le_of_sq_le_sq ?_ hq)
    rw [hsq, e1]
    linarith
  · refine le_trans (le_abs_self _) (abs_le_of_sq_le_sq ?_ hq)
    rw [hsq, e1]
    linarith

/-- The three norms of a block whose `T` is the top-left `k x k` corner of a
`w x w` tensor `R`, when `normf` is accurate to the relative error `δ` on `R`,
on `T` and on `R` with its corner zeroed. -/
theorem new_norms_rounded (lib : TensorLib K) (R T : Tensor K) (k w : Nat) (δ : K)
    (hδ0 : 0 ≤ δ) (hδ1 : δ < 1)
    (hR : normf_accurate lib δ R) (hT : normf_accurate lib δ T)
    (hNS : normf_accurate lib δ (zero_block (T.dimAt 0) R (T.dimAt 0)))
    (hw : R.dimAt 1 = w) (hlen : R.p.length = w * w) (hk : T.dimAt 0 = k) (hkw : k ≤ w)
    (hTp : T.p = (List.range (k * k)).map (fun idx => R.p.getD (idx / k * w + idx % k) 0)) :
    ((1 - δ) / (1 + δ)) ^ 2 * (ConvolutionData1D.new lib R T).Rnormf ^ 2
        - (ConvolutionData1D.new lib R T).Tnormf ^ 2
      ≤ (ConvolutionData1D.new lib R T).NSnormf ^ 2 ∧
    (ConvolutionData1D.new lib R T).NSnormf ^ 2
      ≤ ((1 + δ) / (1 - δ)) ^ 2 * (ConvolutionData1D.new lib R T).Rnormf ^ 2
        - (ConvolutionData1D.new lib R T).Tnormf ^ 2 ∧
    (ConvolutionData1D.new lib R T).NSnormf
      ≤ (1 + δ) / (1 - δ) * (ConvolutionData1D.new lib R T).Rnormf ∧
    (ConvolutionData1D.new lib R T).Tnormf
      ≤ (1 + δ) / (1 - δ) * (ConvolutionData1D.new lib R T).Rnormf := by
  have hTsum : sumsq T
      = Finset.sum (Finset.range (k * k))
          (fun idx => (R.p.getD (idx / k * w + idx % k) 0) ^ 2) := by
    unfold sumsq
    rw [list_sum_map_range, hTp, List.length_map, List.length_range]
    refine Finset.sum_congr rfl (fun x hx => ?_)
    rw [List.getD_eq_getElem?_getD, List.getElem?_map,
      List.getElem?_range (Finset.mem_range.1 hx)]
    rfl
  have hsplit : sumsq (zero_block (T.dimAt 0) R (T.dimAt 0)) = sumsq R - sumsq T := by
    rw [hTsum, hk]
    exact sumsq_zero_block k w R hw hlen hkw
  unfold ConvolutionData1D.new
  simp only []
  by_cases h : lib.normf R > tiny
  · rw [if_pos h]
    simp only []
    obtain ⟨r0, r1, r2⟩ := hR
    obtain ⟨t0, t1, t2⟩ := hT
    obtain ⟨n0, n1, n2⟩ := hNS
    rw [hsplit] at n1 n2
    have sT : 0 ≤ sumsq T := List.sum_nonneg (fun x hx => by
      obtain ⟨y, _, rfl⟩ := List.mem_map.1 hx
      exact sq_nonneg y)
    have sNS : 0 ≤ sumsq R - sumsq T := by
      rw [← hsplit]
      exact List.sum_nonneg (fun x hx => by
        obtain ⟨y, _, rfl⟩ := List.mem_map.1 hx
        exact sq_nonneg y)
    exact norms_arith δ (sumsq R) (sumsq T) _ _ _ hδ0 hδ1 r0 r1 r2 t1 t2 n1 n2 sT sNS
  · rw [if_neg h]
    simp

/-- C28 (amended): when the numbers `normf` returns for `R`, for `T` and for `R`
with its top-left corner zeroed are the Frobenius norms up to a relative error
`δ < 1`, every block returned by `nonstandard` from a reachable cache state has
`((1-δ)/(1+δ))^2 * Rnormf^2 - Tnormf^2 <= NSnormf^2
  <= ((1+δ)/(1-δ))^2 * Rnormf^2 - Tnormf^2`,
and hence `NSnormf <= (1+δ)/(1-δ) * Rnormf` and `Tnormf <= (1+δ)/(1-δ) * Rnormf`. -/
theorem C28_block_norms_up_to_rounding (lib : TensorLib K) (op : Convolution1D K) (n l : Int)
    (s : Caches K) (hs : Reachable lib op s) (δ : K) (hδ0 : 0 ≤ δ) (hδ1 : δ < 1)
    (hR : normf_accurate lib δ (nonstandard lib op n l s).1.R)
    (hT : normf_accurate lib δ (nonstandard lib op n l s).1.T)
    (hNS : normf_accurate lib δ
      (zero_block ((nonstandard lib op n l s).1.T.dimAt 0) (nonstandard lib op n l s).1.R
        ((nonstandard lib op n l s).1.T.dimAt 0))) :
    ((1 - δ) / (1 + δ)) ^ 2 * (nonstandard lib op n l s).1.Rnormf ^ 2
        - (nonstandard lib op n l s).1.Tnormf ^ 2
      ≤ (nonstandard lib op n l s).1.NSnormf ^ 2 ∧
    (nonstandard lib op n l s).1.NSnormf ^ 2
      ≤ ((1 + δ) / (1 - δ)) ^ 2 * (nonstandard lib op n l s).1.Rnormf ^ 2
        - (nonstandard lib op n l s).1.Tnormf ^ 2 ∧
    (nonstandard lib op n l s).1.NSnormf
      ≤ (1 + δ) / (1 - δ) * (nonstandard lib op n l s).1.Rnormf ∧
    (nonstandard lib op n l s).1.Tnormf
      ≤ (1 + δ) / (1 - δ) * (nonstandard lib op n l s).1.Rnormf := by
  rw [nonstandard_value_eq lib op n l s hs.consistent] at hR hT hNS ⊢
  unfold ns_value at hR hT hNS ⊢
  rw [new_R] at hR hNS
  rw [new_T] at hT hNS
  cases hsm : op.issmall n l with
  | true =>
    rw [ns_tensors_small lib op n l hsm] at hR hT hNS ⊢
    exact new_norms_rounded lib Tensor.empty Tensor.empty 0 0 δ hδ0 hδ1 hR hT hNS rfl rfl rfl
      (le_refl _) rfl
  | false =>
    obtain ⟨hR2, hT2⟩ := ns_tensors_not_small lib op n l hsm
    refine new_norms_rounded lib _ _ op.k (2 * op.k) δ hδ0 hδ1 hR hT hNS ?_ ?_ ?_ (by omega) ?_
    · rw [hR2]; rfl
    · rw [hR2]
      simp only [transpose_flat_length]
    · rw [hT2]; rfl
    · rw [hT2]

/-! ### A block with correctly rounded norms -/

/-- Evaluation of `sqrt64` when the root rounds down: `q` has exponent `e`, the
square `N` of the root in units of the spacing is an integer with integer square
root `z`, and `N` lies below the square of `z + 1/2`. -/
theorem sqrt64_eq (q : ℚ) (e : ℤ) (N z : ℕ) (hq : 0 < q) (he : Int.log 2 q = e)
    (hm : q / 4 ^ (e / 2 - 52) = N) (hz : z * z ≤ N ∧ N < (z + 1) * (z + 1))
    (hlt : (N : ℚ) < ((z : ℚ) + 1 / 2) ^ 2) :
    sqrt64 q = (z : ℚ) * 2 ^ (e / 2 - 52) := by
  have hs : Nat.sqrt N = z := (Nat.eq_sqrt.2 hz).symm
  unfold sqrt64
  rw [if_neg (not_le.2 hq)]
  simp only [he, hm, Int.floor_natCast, Int.toNat_ofNat, hs, Int.cast_natCast]
  rw [if_pos hlt]
  simp

theorem sqrt64_one : sqrt64 1 = 1 := by
  have h := sqrt64_eq 1 0 (2 ^ 104) (2 ^ 52) (by norm_num) (Int.log_one_right 2)
    (by norm_num) (by norm_num) (by norm_num)
  rw [h]
  norm_num

theorem sqrt64_four : sqrt64 4 = 2 := by
  have hl : Int.log 2 (4 : ℚ) = 2 := by
    have h := log_eq_of_bounds 4 2 (by norm_num [abs_of_pos]) (by norm_num [abs_of_pos])
    rwa [abs_of_pos (by norm_num)] at h
  have h := sqrt64_eq 4 2 (2 ^ 104) (2 ^ 52) (by norm_num) hl
    (by norm_num) (by norm_num) (by norm_num)
  rw [h]
  norm_num

/-- The double nearest to the square root of 3 is `7800463371553962 * 2^-52`. -/
theorem sqrt64_three : sqrt64 3 = 7800463371553962 / 2 ^ 52 := by
  have hl : Int.log 2 (3 : ℚ) = 1 := by
    have h := log_eq_of_bounds 3 1 (by norm_num [abs_of_pos]) (by norm_num [abs_of_pos])
    rwa [abs_of_pos (by norm_num)] at h
  have h := sqrt64_eq 3 1 (3 * 2 ^ 104) 7800463371553962 (by norm_num) hl
    (by norm_num) (by norm_num) (by norm_num)
  rw [h]
  norm_num

theorem constantOp_tensors :
    ns_tensors roundedLib (constantOp ℚ) 0 0 = (⟨[2, 2], [1, 1, 1, 1]⟩, ⟨[1, 1], [1]⟩) := by
  have hv : ∀ l2 : Int, rnlp_value roundedLib (constantOp ℚ) (0 + 1) l2 = ⟨[2], [1, 0]⟩ := by
    intro l2
    rw [rnlp_value_direct roundedLib (constantOp ℚ) (0 + 1) l2
      (by simp [constantOp]) (by simp [constantOp])]
    rfl
  have hp : roundedLib.pow (1 / 2) (1 / 2 * (((0 + 1 : Int)) : ℚ)) = 1 := by
    have hf : ⌊(1 / 2 * (((0 + 1 : Int)) : ℚ))⌋ = 0 := by
      rw [Int.floor_eq_iff]
      norm_num
    show (1 / 2 : ℚ) ^ ⌊(1 / 2 * (((0 + 1 : Int)) : ℚ))⌋ = 1
    rw [hf]
    rfl
  have hij : ∀ l2 : Int,
      (rnlij_value roundedLib (constantOp ℚ) (0 + 1) l2).p = [1, 0, 1, 0] := by
    intro l2
    unfold rnlij_value
    simp only [hv, hp]
    simp [roundedLib, demoLib, constantOp, Tensor.scale, Tensor.sliceAssign, Tensor.zeros1,
      List.range, List.range.loop, List.replicate]
  have hk : (constantOp ℚ).k = 1 := rfl
  have htr : ∀ t u : Tensor ℚ, roundedLib.transform t u = t := fun _ _ => rfl
  unfold ns_tensors
  rw [if_neg (by simp [constantOp])]
  simp only [quadrants, hij, hk, htr]
  simp [transpose_flat, List.range, List.range.loop]

theorem rounded_normf (t : Tensor ℚ) : roundedLib.normf t = sqrt64 (sumsq t) := rfl

theorem sumsq_ones : sumsq (⟨[2, 2], [1, 1, 1, 1]⟩ : Tensor ℚ) = 4 := by
  norm_num [sumsq]

theorem sumsq_one : sumsq (⟨[1, 1], [1]⟩ : Tensor ℚ) = 1 := by
  norm_num [sumsq]

theorem zero_block_ones :
    zero_block 1 (⟨[2, 2], [1, 1, 1, 1]⟩ : Tensor ℚ) 1 = ⟨[2, 2], [0, 1, 1, 1]⟩ := by
  simp [zero_block, zero_row, Tensor.set2, Tensor.dimAt]

theorem sumsq_corner_zeroed : sumsq (⟨[2, 2], [0, 1, 1, 1]⟩ : Tensor ℚ) = 3 := by
  norm_num [sumsq]

/-- The norms of a block whose `R` has a norm above `1e-20`. -/
theorem new_norms_large (lib : TensorLib K) (R T : Tensor K) (h : lib.normf R > tiny) :
    (ConvolutionData1D.new lib R T).Rnormf = lib.normf R ∧
    (ConvolutionData1D.new lib R T).Tnormf = lib.normf T ∧
    (ConvolutionData1D.new lib R T).NSnormf
      = lib.normf (zero_block (T.dimAt 0) R (T.dimAt 0)) := by
  unfold ConvolutionData1D.new
  simp only []
  rw [if_pos h]
  exact ⟨rfl, rfl, rfl⟩

/-- The block the constructor builds from the `2 x 2` matrix of ones and its
corner, with correctly rounded norms: the three norms are `2`, `1` and the double
nearest to the square root of 3. -/
theorem ones_block :
    (ConvolutionData1D.new roundedLib ⟨[2, 2], [1, 1, 1, 1]⟩ ⟨[1, 1], [1]⟩).Rnormf = 2 ∧
    (ConvolutionData1D.new roundedLib ⟨[2, 2], [1, 1, 1, 1]⟩ ⟨[1, 1], [1]⟩).Tnormf = 1 ∧
    (ConvolutionData1D.new roundedLib ⟨[2, 2], [1, 1, 1, 1]⟩ ⟨[1, 1], [1]⟩).NSnormf
      = 7800463371553962 / 2 ^ 52 := by
  have hR : roundedLib.normf ⟨[2, 2], [1, 1, 1, 1]⟩ = 2 := by
    rw [rounded_normf, sumsq_ones, sqrt64_four]
  have hT : roundedLib.normf ⟨[1, 1], [1]⟩ = 1 := by
    rw [rounded_normf, sumsq_one, sqrt64_one]
  have hd : (⟨[1, 1], [1]⟩ : Tensor ℚ).dimAt 0 = 1 := rfl
  have hNS : roundedLib.normf
      (zero_block ((⟨[1, 1], [1]⟩ : Tensor ℚ).dimAt 0) (⟨[2, 2], [1, 1, 1, 1]⟩ : Tensor ℚ)
        ((⟨[1, 1], [1]⟩ : Tensor ℚ).dimAt 0))
        = 7800463371553962 / 2 ^ 52 := by
    rw [hd, zero_block_ones, rounded_normf, sumsq_corner_zeroed, sqrt64_three]
  obtain ⟨n1, n2, n3⟩ := new_norms_large roundedLib
    ⟨[2, 2], [1, 1, 1, 1]⟩ ⟨[1, 1], [1]⟩ (by rw [hR]; norm_num [tiny])
  rw [n1, n2, n3, hR, hT, hNS]
  exact ⟨rfl, rfl, rfl⟩

/-- The block `nonstandard(0,0)` of the constant operator: `R` is the `2 x 2`
matrix of ones and `T` its corner. -/
theorem constantOp_block :
    (nonstandard roundedLib (constantOp ℚ) 0 0 Caches.fresh).1
      = ConvolutionData1D.new roundedLib ⟨[2, 2], [1, 1, 1, 1]⟩ ⟨[1, 1], [1]⟩ := by
  rw [nonstandard_value_eq _ _ 0 0 _ (consistent_fresh _ _)]
  unfold ns_value
  rw [constantOp_tensors]

/-- C28, counterexample: for the block `nonstandard(0,0)` of the constant operator,
with `R` the `2 x 2` matrix of ones and `T = (1)` its corner, correctly rounded
norms give `Rnormf = 2`, `Tnormf = 1` and `NSnormf = 7800463371553962 * 2^-52`,
the double nearest to the square root of 3, whose square is not
`3 = Rnormf^2 - Tnormf^2`. -/
theorem C28_pythagoras_counterexample :
    (nonstandard roundedLib (constantOp ℚ) 0 0 Caches.fresh).1.R = ⟨[2, 2], [1, 1, 1, 1]⟩ ∧
    (nonstandard roundedLib (constantOp ℚ) 0 0 Caches.fresh).1.T = ⟨[1, 1], [1]⟩ ∧
    (nonstandard roundedLib (constantOp ℚ) 0 0 Caches.fresh).1.Rnormf = 2 ∧
    (nonstandard roundedLib (constantOp ℚ) 0 0 Caches.fresh).1.Tnormf = 1 ∧
    (nonstandard roundedLib (constantOp ℚ) 0 0 Caches.fresh).1.NSnormf
      = 7800463371553962 / 2 ^ 52 ∧
    (nonstandard roundedLib (constantOp ℚ) 0 0 Caches.fresh).1.NSnormf ^ 2
      ≠ (nonstandard roundedLib (constantOp ℚ) 0 0 Caches.fresh).1.Rnormf ^ 2
        - (nonstandard roundedLib (constantOp ℚ) 0 0 Caches.fresh).1.Tnormf ^ 2 := by
  obtain ⟨h3, h4, h5⟩ := ones_block
  rw [constantOp_block, new_R, new_T, h3, h4, h5]
  refine ⟨rfl, rfl, rfl, rfl, rfl, ?_⟩
  norm_num

/-- C28 (amended), instance: the block `nonstandard(0,0)` of the constant operator
on fresh caches, with correctly rounded norms and `δ = 2^-53`. -/
theorem C28_block_norms_up_to_rounding_witness :
    Reachable roundedLib (constantOp ℚ) Caches.fresh ∧
    (0 : ℚ) ≤ 1 / 2 ^ 53 ∧ (1 / 2 ^ 53 : ℚ) < 1 ∧
    normf_accurate roundedLib (1 / 2 ^ 53)
      (nonstandard roundedLib (constantOp ℚ) 0 0 Caches.fresh).1.R ∧
    normf_accurate roundedLib (1 / 2 ^ 53)
      (nonstandard roundedLib (constantOp ℚ) 0 0 Caches.fresh).1.T ∧
    normf_accurate roundedLib (1 / 2 ^ 53)
      (zero_block ((nonstandard roundedLib (constantOp ℚ) 0 0 Caches.fresh).1.T.dimAt 0)
        (nonstandard roundedLib (constantOp ℚ) 0 0 Caches.fresh).1.R
        ((nonstandard roundedLib (constantOp ℚ) 0 0 Caches.fresh).1.T.dimAt 0)) ∧
    (((1 - 1 / 2 ^ 53) / (1 + 1 / 2 ^ 53)) ^ 2
        * (nonstandard roundedLib (constantOp ℚ) 0 0 Caches.fresh).1.Rnormf ^ 2
        - (nonstandard roundedLib (constantOp ℚ) 0 0 Caches.fresh).1.Tnormf ^ 2
      ≤ (nonstandard roundedLib (constantOp ℚ) 0 0 Caches.fresh).1.NSnormf ^ 2 ∧
    (nonstandard roundedLib (constantOp ℚ) 0 0 Caches.fresh).1.NSnormf ^ 2
      ≤ ((1 + 1 / 2 ^ 53) / (1 - 1 / 2 ^ 53)) ^ 2
        * (nonstandard roundedLib (constantOp ℚ) 0 0 Caches.fresh).1.Rnormf ^ 2
        - (nonstandard roundedLib (constantOp ℚ) 0 0 Caches.fresh).1.Tnormf ^ 2 ∧
    (nonstandard roundedLib (constantOp ℚ) 0 0 Caches.fresh).1.NSnormf
      ≤ (1 + 1 / 2 ^ 53) / (1 - 1 / 2 ^ 53)
        * (nonstandard roundedLib (constantOp ℚ) 0 0 Caches.fresh).1.Rnormf ∧
    (nonstandard roundedLib (constantOp ℚ) 0 0 Caches.fresh).1.Tnormf
      ≤ (1 + 1 / 2 ^ 53) / (1 - 1 / 2 ^ 53)
        * (nonstandard roundedLib (constantOp ℚ) 0 0 Caches.fresh).1.Rnormf) := by
  have h1 : (nonstandard roundedLib (constantOp ℚ) 0 0 Caches.fresh).1.R
      = ⟨[2, 2], [1, 1, 1, 1]⟩ := by
    rw [constantOp_block, new_R]
  have h2 : (nonstandard roundedLib (constantOp ℚ) 0 0 Caches.fresh).1.T = ⟨[1, 1], [1]⟩ := by
    rw [constantOp_block, new_T]
  have aR : normf_accurate roundedLib (1 / 2 ^ 53)
      (nonstandard roundedLib (constantOp ℚ) 0 0 Caches.fresh).1.R := by
    rw [h1]
    unfold normf_accurate
    rw [rounded_normf, sumsq_ones, sqrt64_four]
    norm_num
  have aT : normf_accurate roundedLib (1 / 2 ^ 53)
      (nonstandard roundedLib (constantOp ℚ) 0 0 Caches.fresh).1.T := by
    rw [h2]
    unfold normf_accurate
    rw [rounded_normf, sumsq_one, sqrt64_one]
    norm_num
  have aNS : normf_accurate roundedLib (1 / 2 ^ 53)
      (zero_block ((nonstandard roundedLib (constantOp ℚ) 0 0 Caches.fresh).1.T.dimAt 0)
        (nonstandard roundedLib (constantOp ℚ) 0 0 Caches.fresh).1.R
        ((nonstandard roundedLib (constantOp ℚ) 0 0 Caches.fresh).1.T.dimAt 0)) := by
    rw [h1, h2]
    have hd : (⟨[1, 1], [1]⟩ : Tensor ℚ).dimAt 0 = 1 := rfl
    rw [hd, zero_block_ones]
    unfold normf_accurate
    rw [rounded_normf, sumsq_corner_zeroed, sqrt64_three]
    norm_num
  exact ⟨Reachable.fresh, by norm_num, by norm_num, aR, aT, aNS,
    C28_block_norms_up_to_rounding roundedLib (constantOp ℚ) 0 0 Caches.fresh
      Reachable.fresh (1 / 2 ^ 53) (by norm_num) (by norm_num) aR aT aNS⟩

end OperatorLemmas

end madness
